import Mathlib

/-!
# go-concator: the concatenation engine and the tag filter

A shallow embedding of `concator.go` (`Concator.Run`), of
`acceptorFilters/default_f.go` (`DefaultFilter.Filter`) and of
`postFilters/pipeline.go` (`PostPipeline.Wrap`).

* Go `string` and `[]byte` are both byte sequences (`List Byte`), so the
  conversion `string(b)` is the identity.
* A Go `map[string]T` is an association list read by `mapGet`
  (`m[k]`), written by `mapSet` (`m[k] = v`) and shrunk by `mapDel`
  (`delete(m, k)`).  A well-formed map has pairwise distinct keys.
* A value of type `interface{}` is a `Value`; a type assertion
  `x.([]byte)` that fails is a run-time panic, as is a method call on the
  nil `reflect.Type` that `reflect.TypeOf` returns for a nil interface.
  Arguments of the logger calls are evaluated before the call, so their
  type assertions are part of the behaviour.
* One iteration of the `for { select { ... } }` loop of `Run` is either the
  receive branch (`recv`) or the `default` branch (`idle`).  What is sent on
  `outChan` is returned as a list, oldest first.
* A `[]byte` is its content.  The appends of lines 131-134 write into the
  backing array of the pending slice when it has spare capacity; a received
  record whose slice lies there is damaged before it is copied.  This sharing
  between the pending slice and the received slice is an input of the receive
  step (`Overlap`); the bytes of all other values are out of reach of the
  appends.
* `time.Time` is a number of nanoseconds; `now.Sub(t) > concatTimeoutTs` is the
  comparison of the difference with five seconds.
* The order in which `range` visits a Go map is not specified.  The idle scan
  visits the entries in the order of the association list; the statement
  about the idle pass is made for every order of that list.
* The pool of holders and the logger output have no effect on what is emitted
  or on the slot map and are left out.  So is the adaptive timer, which only
  decides when the next iteration starts; it is declared outside the given
  sources and is modelled from the specification for the statement on the time
  of the timeout flush, where an iteration takes no time and a sleep ends on
  time.
-/

namespace GoConcator

/-! ## Data model -/

abbrev Byte := Fin 256

/-- A Go `string`: an immutable byte sequence. -/
abbrev GoString := List Byte

/-- Nanoseconds. -/
abbrev Time := Int

/-- The dynamic content of an `interface{}` payload value. -/
inductive Value where
  /-- a `[]byte` -/
  | bytes (b : List Byte)
  /-- a `string` -/
  | str (s : GoString)
  /-- a non-nil value of any other dynamic type -/
  | other (v : Nat)
  /-- the nil interface value -/
  | nil
  deriving DecidableEq, Repr

/-- The record `libs.FluentMsg`. -/
structure FluentMsg where
  Tag : GoString
  Message : List (GoString × Value)
  Id : Int
  ExtIds : Option (List Int)
  deriving DecidableEq, Repr

/-- The holder `PendingMsg`. -/
structure PendingMsg where
  msg : FluentMsg
  lastT : Time
  deriving DecidableEq, Repr

/-- Run-time panics of the worker. -/
inductive Panic where
  /-- a failed `x.([]byte)` -/
  | typeAssertion
  /-- a method call through a nil interface, or a field read through a nil
  pointer -/
  | nilDereference
  deriving DecidableEq, Repr

/-! ## Go maps as association lists -/

/-- Map read `m[k]` with the comma-ok result. -/
def mapGet {α : Type} : List (GoString × α) → GoString → Option α
  | [], _ => none
  | (k', v) :: rest, k => if k' = k then some v else mapGet rest k

/-- Map write `m[k] = v`. -/
def mapSet {α : Type} : List (GoString × α) → GoString → α → List (GoString × α)
  | [], k, v => [(k, v)]
  | (k', v') :: rest, k, v =>
    if k' = k then (k', v) :: rest else (k', v') :: mapSet rest k v

/-- Map removal `delete(m, k)`. -/
def mapDel {α : Type} (m : List (GoString × α)) (k : GoString) : List (GoString × α) :=
  m.filter (fun e => decide (e.1 ≠ k))

/-- The keys of a map. -/
def mapKeys {α : Type} (m : List (GoString × α)) : List GoString :=
  m.map Prod.fst

/-! ## The concatenator -/

/-- The slot map of a concatenator. -/
abbrev Slot := List (GoString × PendingMsg)

/-- The struct `Concator` without its channel and pool handles; `regex` is
`regex.MatchString`. -/
structure Concator where
  msgKey : GoString
  identifier : GoString
  slot : Slot
  regex : GoString → Bool
  maxLen : Int

/-- The constant `concatTimeoutTs`, `5 * time.Second`. -/
def concatTimeoutTs : Int := 5 * 1000000000

/-- The type assertion `x.([]byte)` on the result of a map read. -/
def assertBytes : Option Value → Except Panic (List Byte)
  | some (Value.bytes b) => Except.ok b
  | _ => Except.error Panic.typeAssertion

/-- The expression `reflect.TypeOf(x).String()`. -/
def typeString : Value → Except Panic Unit
  | Value.nil => Except.error Panic.nilDereference
  | _ => Except.ok ()

/-- Where the `[]byte` of a received record lies in memory, as seen by the
appends of lines 131-134.  `some j`: the slice pending for its identifier has
spare capacity and the first spare byte of its backing array is byte `j` of
the received slice.  `none`: the pending slice has no spare capacity, or its
first spare byte is no byte of the received slice; this is the case when every
record owns the bytes of its payload. -/
abbrev Overlap := Option Nat

/-- The bytes that `append(pending, msg...)` of line 134 copies from the
received slice `tail`.  Before it, `append(pending, '\n')` of line 132 has
written the newline: in place when the pending slice has spare capacity, and
then onto byte `j` of the received slice when the two overlap there. -/
def appended (ov : Overlap) (tail : List Byte) : List Byte :=
  match ov with
  | none => tail
  | some j => tail.set j 10

/-- Lines 129-139 of `Run`: the pending holder after the two appends.  `cur` is
the pending text and `tail` the bytes copied from the received slice. -/
def concat (c : Concator) (pmsg : PendingMsg) (msg : FluentMsg) (now : Time)
    (cur tail : List Byte) : PendingMsg :=
  { msg :=
      { pmsg.msg with
        Message :=
          mapSet (mapSet pmsg.msg.Message c.msgKey (Value.bytes (cur ++ [10])))
            c.msgKey (Value.bytes ((cur ++ [10]) ++ tail))
        ExtIds := some (pmsg.msg.ExtIds.getD [] ++ [msg.Id]) }
    lastT := now }

/-- Lines 101-147 of `Run`: the receive branch once the identifier string is
known. -/
def admitIdentified (c : Concator) (msg : FluentMsg) (now : Time)
    (identifier : GoString) (ov : Overlap) : Except Panic (List FluentMsg × Slot) :=
  match mapGet c.slot identifier with
  | none =>
    -- new identifier; the log call reads `msg.Message[c.msgKey].([]byte)`
    match assertBytes (mapGet msg.Message c.msgKey) with
    | Except.error p => Except.error p
    | Except.ok _ =>
      Except.ok ([], mapSet c.slot identifier { msg := msg, lastT := now })
  | some pmsg =>
    -- old identifier
    match mapGet msg.Message c.msgKey with
    | none => Except.ok ([msg], c.slot)
    | some msgI =>
      match assertBytes (some msgI) with
      | Except.error p => Except.error p
      | Except.ok tail =>
        if c.regex tail then
          -- new line
          Except.ok ([pmsg.msg], mapSet c.slot identifier { msg := msg, lastT := now })
        else
          -- need to concat
          match assertBytes (mapGet pmsg.msg.Message c.msgKey) with
          | Except.error p => Except.error p
          | Except.ok cur =>
            let pmsg1 := concat c pmsg msg now cur (appended ov tail)
            let slot1 := mapSet c.slot identifier pmsg1
            -- too long to send
            match assertBytes (mapGet pmsg1.msg.Message c.msgKey) with
            | Except.error p => Except.error p
            | Except.ok full =>
              if (full.length : Int) ≥ c.maxLen then
                Except.ok ([pmsg1.msg], mapDel slot1 identifier)
              else
                Except.ok ([], slot1)

/-- The receive branch of `Run` (lines 77-147) for the record `msg` taken
from `inChan` at time `now`, its payload lying in memory as `ov` says: the
records sent on `outChan` and the new slot map, or the panic that ends the
worker. -/
def recv (c : Concator) (msg : FluentMsg) (now : Time) (ov : Overlap) :
    Except Panic (List FluentMsg × Slot) :=
  match mapGet msg.Message c.identifier with
  | none => Except.ok ([msg], c.slot)
  | some (Value.bytes b) => admitIdentified c msg now b ov
  | some (Value.str s) => admitIdentified c msg now s ov
  | some identifierI =>
    match typeString identifierI with
    | Except.error p => Except.error p
    | Except.ok _ => Except.ok ([msg], c.slot)

/-- The loop `for identifier, pmsg = range c.slot` of the `default` branch
(lines 151-158), over the entries still to visit. -/
def idleLoop (c : Concator) (now : Time) :
    List (GoString × PendingMsg) → List FluentMsg × Slot →
      Except Panic (List FluentMsg × Slot)
  | [], acc => Except.ok acc
  | (identifier, pmsg) :: rest, (out, slot) =>
    if now - pmsg.lastT > concatTimeoutTs then
      match assertBytes (mapGet pmsg.msg.Message c.msgKey) with
      | Except.error p => Except.error p
      | Except.ok _ => idleLoop c now rest (out ++ [pmsg.msg], mapDel slot identifier)
    else idleLoop c now rest (out, slot)

/-- The `default` branch of `Run` (lines 149-160) at time `now`. -/
def idle (c : Concator) (now : Time) : Except Panic (List FluentMsg × Slot) :=
  idleLoop c now c.slot ([], c.slot)

/-- What one iteration of the loop of `Run` does. -/
inductive Event where
  /-- a record is received from `inChan` at the given time; `ov` is where its
  payload lies in memory -/
  | recv (msg : FluentMsg) (now : Time) (ov : Overlap)
  /-- `inChan` is empty: the timeout scan at the given time -/
  | idle (now : Time)
  deriving DecidableEq, Repr

/-- One iteration of the loop of `Run`. -/
def step (c : Concator) : Event → Except Panic (List FluentMsg × Slot)
  | Event.recv msg now ov => recv c msg now ov
  | Event.idle now => idle c now

/-- The loop of `Run` over a finite sequence of iterations: everything sent on
`outChan`, in order, and the final concatenator. -/
def run (c : Concator) : List Event → Except Panic (List FluentMsg × Concator)
  | [] => Except.ok ([], c)
  | e :: rest =>
    match step c e with
    | Except.error p => Except.error p
    | Except.ok (out, slot) =>
      match run { c with slot := slot } rest with
      | Except.error p => Except.error p
      | Except.ok (out1, c1) => Except.ok (out ++ out1, c1)

/-- The concatenator that `NewConcator` returns: an empty slot map. -/
def NewConcator (msgKey identifier : GoString) (regex : GoString → Bool) (maxLen : Int) :
    Concator :=
  { msgKey := msgKey, identifier := identifier, slot := [], regex := regex, maxLen := maxLen }

/-- The records received in a sequence of iterations, in order. -/
def admitted : List Event → List FluentMsg
  | [] => []
  | Event.recv msg _ _ :: rest => msg :: admitted rest
  | Event.idle _ :: rest => admitted rest

/-- The ids a record carries: its own id and its `ExtIds`. -/
def idsOf (m : FluentMsg) : List Int :=
  m.Id :: m.ExtIds.getD []

/-- The ids carried by the pending records of a slot map. -/
def slotIds (s : Slot) : List Int :=
  s.flatMap (fun e => idsOf e.2.msg)

/-! ## The tag filter -/

/-- The struct `DefaultFilterCfg`; `tags` holds the keys of the tag map. -/
structure DefaultFilterCfg where
  RemoveEmptyTag : Bool
  RemoveUnsupportTag : Bool
  tags : List GoString

/-- The method `DefaultFilter.IsTagInConfigs`. -/
def IsTagInConfigs (f : DefaultFilterCfg) (tag : GoString) : Bool :=
  decide (tag ∈ f.tags)

/-- The method `DefaultFilter.Filter`; `none` is the nil result. -/
def Filter (f : DefaultFilterCfg) (msg : FluentMsg) : Option FluentMsg :=
  if f.RemoveEmptyTag && decide (msg.Tag = []) then none
  else if f.RemoveUnsupportTag && !IsTagInConfigs f msg.Tag then none
  else some msg

/-- The field read `msg.Tag` through the pointer `msg`; `none` is the nil
pointer. -/
def tagOf : Option FluentMsg → Except Panic GoString
  | some msg => Except.ok msg.Tag
  | none => Except.error Panic.nilDereference

/-- The method `DefaultFilter.Filter` (lines 51-65) on any pointer, the nil
pointer included, as when it is applied to its own result.  The right operand
of `&&` is evaluated only when the left one is true. -/
def FilterPtr (f : DefaultFilterCfg) (msg : Option FluentMsg) :
    Except Panic (Option FluentMsg) :=
  match (if f.RemoveEmptyTag then (tagOf msg).map (fun tag => decide (tag = []))
      else Except.ok false) with
  | Except.error p => Except.error p
  | Except.ok true => Except.ok none
  | Except.ok false =>
    match (if f.RemoveUnsupportTag then (tagOf msg).map (fun tag => !IsTagInConfigs f tag)
        else Except.ok false) with
    | Except.error p => Except.error p
    | Except.ok true => Except.ok none
    | Except.ok false => Except.ok msg

/-! ## The adaptive timer -/

/-- Modelled from the spec: the adaptive timer of section 4.3; `NewTimer`,
`NewTimerConfig` and the methods `Reset` and `Sleep` are declared outside the
given sources.  The fields are the arguments of `NewTimerConfig` at line 72 of
`concator.go`: `waitTs` is the current wait, `nWaits` the count of consecutive
sleeps. -/
structure Timer where
  initWaitTs : Int
  maxWaitTs : Int
  waitTs : Int
  concatTimeoutTs : Int
  nWaits : Nat
  nWaitsToDouble : Nat
  deriving DecidableEq, Repr

/-- Modelled from the spec: `Reset(now)`, called on each record admission,
restores the current wait to the initial wait and zeroes the counter (the
method is declared outside the given sources). -/
def Timer.Reset (t : Timer) (_ : Time) : Timer :=
  { t with waitTs := t.initWaitTs, nWaits := 0 }

/-- Modelled from the spec: `Sleep()` sleeps for the current wait and
increments the counter; when the counter reaches `nWaitsToDouble` it doubles
the current wait, clamped at `maxWaitTs`, and resets the counter (the method is
declared outside the given sources).  The result is the time slept and the
timer afterwards. -/
def Timer.Sleep (t : Timer) : Time × Timer :=
  if t.nWaits + 1 ≥ t.nWaitsToDouble then
    (t.waitTs, { t with waitTs := min (2 * t.waitTs) t.maxWaitTs, nWaits := 0 })
  else
    (t.waitTs, { t with nWaits := t.nWaits + 1 })

/-- The timer that `Run` creates at lines 66-72: 20 ms of initial wait, 500 ms
of longest wait, a doubling every 2 sleeps, 5 s of timeout. -/
def runTimer : Timer :=
  { initWaitTs := 20 * 1000000
    maxWaitTs := 500 * 1000000
    waitTs := 20 * 1000000
    concatTimeoutTs := 5 * 1000000000
    nWaits := 0
    nWaitsToDouble := 2 }

/-- The states that the timer of `Run` takes. -/
inductive TimerReachable : Timer → Prop where
  /-- the timer as created -/
  | new : TimerReachable runTimer
  /-- `timer.Reset(now)` of line 79 -/
  | reset (t : Timer) (now : Time) (h : TimerReachable t) : TimerReachable (t.Reset now)
  /-- `timer.Sleep()` of line 160 -/
  | sleep (t : Timer) (h : TimerReachable t) : TimerReachable t.Sleep.2

/-- Iterations of the loop of `Run` while `inChan` stays empty, `n` of them, the
first one at time `now`: each is the timeout scan followed by `timer.Sleep()`
(lines 149-160), and the next one starts when the sleep ends.  The result is
what was sent on `outChan`, the concatenator, the timer, and the time at
which the next iteration starts. -/
def idleRun : Concator → Timer → Time → Nat →
    Except Panic (List FluentMsg × Concator × Timer × Time)
  | c, tm, now, 0 => Except.ok ([], c, tm, now)
  | c, tm, now, n + 1 =>
    match idle c now with
    | Except.error p => Except.error p
    | Except.ok (out, slot) =>
      match idleRun { c with slot := slot } tm.Sleep.2 (now + tm.Sleep.1) n with
      | Except.error p => Except.error p
      | Except.ok (out1, r) => Except.ok (out ++ out1, r)

/-- What the states of the timer of `Run` have in common. -/
def TimerOk (tm : Timer) : Prop :=
  tm.initWaitTs = 20000000 ∧ tm.maxWaitTs = 500000000 ∧
    20000000 ≤ tm.waitTs ∧ tm.waitTs ≤ 500000000

/-! ## Specification vocabulary -/

/-- The timeout test of the idle scan: `now.Sub(pmsg.lastT) > concatTimeoutTs`. -/
def timedOut (now : Time) (pmsg : PendingMsg) : Bool :=
  decide (now - pmsg.lastT > concatTimeoutTs)

/-- The record carries a `[]byte` at the given key. -/
def HasBytes (key : GoString) (m : FluentMsg) : Prop :=
  ∃ b, mapGet m.Message key = some (Value.bytes b)

/-- The text of a record at the given key (empty when it is not a `[]byte`). -/
def textAt (key : GoString) (m : FluentMsg) : List Byte :=
  match mapGet m.Message key with
  | some (Value.bytes b) => b
  | _ => []

/-- The identifier string of a record: the value at `identifier`, when it is a
`[]byte` or a `string`. -/
def identifierOf (c : Concator) (m : FluentMsg) : Option GoString :=
  match mapGet m.Message c.identifier with
  | some (Value.bytes b) => some b
  | some (Value.str s) => some s
  | _ => none

/-- The invariant of the slot map of a running concatenator: the keys are
pairwise distinct and every pending record carries a `[]byte` at `msgKey`. -/
def SlotOk (msgKey : GoString) (s : Slot) : Prop :=
  (mapKeys s).Nodup ∧ ∀ e ∈ s, HasBytes msgKey e.2.msg

/-- The concatenator can be reached from a fresh one by iterations of `Run`. -/
def Reachable (c : Concator) : Prop :=
  ∃ evs out, run (NewConcator c.msgKey c.identifier c.regex c.maxLen) evs = Except.ok (out, c)

/-- The record has no `ExtIds`: the slice is nil or empty. -/
def NoExtIds (m : FluentMsg) : Prop :=
  m.ExtIds.getD [] = []

/-- The texts of the fragments, each preceded by one newline byte. -/
def fragmentsText (key : GoString) (frags : List FluentMsg) : List Byte :=
  frags.flatMap (fun f => 10 :: textAt key f)

/-- The record `r` is fused from input records: a head that gives its id and
fragments whose ids are, in order, its `ExtIds`; its payload at `key` is the
payload of the head followed, fragment by fragment, by a newline byte and the
payload of the fragment. -/
def FusedFrom (key : GoString) (inputs : List FluentMsg) (r : FluentMsg) : Prop :=
  ∃ head frags, head ∈ inputs ∧ (∀ f ∈ frags, f ∈ inputs) ∧
    r.Id = head.Id ∧ r.ExtIds.getD [] = frags.map FluentMsg.Id ∧
    mapGet r.Message key = some (Value.bytes (textAt key head ++ fragmentsText key frags))

/-- The record that results from `head` by continuation steps, in order; each
step is given by the received record and the bytes copied from it. -/
def fusedWith (c : Concator) (head : FluentMsg) (steps : List (FluentMsg × List Byte)) :
    FluentMsg :=
  steps.foldl
    (fun r st => (concat c { msg := r, lastT := 0 } st.1 0 (textAt c.msgKey r) st.2).msg)
    head

/-- The record `r` is the input record `head` after continuation steps with the
input records of `steps`, each with the bytes that were copied from it, and
nothing else was done to it. -/
def History (c : Concator) (inputs : List FluentMsg) (r head : FluentMsg)
    (steps : List (FluentMsg × List Byte)) : Prop :=
  head ∈ inputs ∧
    (∀ st ∈ steps, st.1 ∈ inputs ∧ ∃ ov, st.2 = appended ov (textAt c.msgKey st.1)) ∧
    r = fusedWith c head steps

/-- No sharing of memory at this iteration: the payload of the received record
does not lie in the spare capacity of the pending slice. -/
def NoSharing : Event → Prop
  | Event.recv _ _ ov => ov = none
  | Event.idle _ => True

/-- The shapes a receive step that does not panic can take: what is sent on
`outChan` and the slot map it leaves. -/
inductive RecvStep (c : Concator) (m : FluentMsg) (now : Time) (ov : Overlap) :
    List FluentMsg → Slot → Prop where
  /-- the record is forwarded, the slot map is untouched -/
  | forward : RecvStep c m now ov [m] c.slot
  /-- new identifier: the record is stored -/
  | install (id : GoString) (hs : mapGet c.slot id = none) (hm : HasBytes c.msgKey m) :
      RecvStep c m now ov [] (mapSet c.slot id { msg := m, lastT := now })
  /-- first line: the pending record is sent and replaced -/
  | firstLine (id : GoString) (p : PendingMsg) (hs : mapGet c.slot id = some p)
      (hm : HasBytes c.msgKey m) :
      RecvStep c m now ov [p.msg] (mapSet c.slot id { msg := m, lastT := now })
  /-- continuation that stays pending -/
  | concatKeep (id : GoString) (p : PendingMsg) (cur tail : List Byte)
      (hs : mapGet c.slot id = some p)
      (hp : mapGet p.msg.Message c.msgKey = some (Value.bytes cur))
      (hm : mapGet m.Message c.msgKey = some (Value.bytes tail)) :
      RecvStep c m now ov [] (mapSet c.slot id (concat c p m now cur (appended ov tail)))
  /-- continuation that overflows and is sent -/
  | concatFlush (id : GoString) (p : PendingMsg) (cur tail : List Byte)
      (hs : mapGet c.slot id = some p)
      (hp : mapGet p.msg.Message c.msgKey = some (Value.bytes cur))
      (hm : mapGet m.Message c.msgKey = some (Value.bytes tail)) :
      RecvStep c m now ov [(concat c p m now cur (appended ov tail)).msg]
        (mapDel (mapSet c.slot id (concat c p m now cur (appended ov tail))) id)

/-! ## The scenarios of the specification -/

/-- The bytes of an ASCII text. -/
def ascii (s : String) : GoString :=
  s.toList.map (fun ch => Fin.ofNat ch.toNat)

/-- An ASCII digit. -/
def isDigit (b : Byte) : Bool :=
  decide (48 ≤ b.val) && decide (b.val ≤ 57)

/-- The first-line regex of the scenarios: four digits and a dash at the start
of the text. -/
def firstLineRegex : GoString → Bool
  | a :: b :: c :: d :: e :: _ =>
    isDigit a && isDigit b && isDigit c && isDigit d && decide (e = 45)
  | _ => false

/-- The concatenator of the scenarios: `msg_key` is `log`, `identifier_key` is
`cid`. -/
def scenarioConcator (maxLen : Int) : Concator :=
  NewConcator (ascii "log") (ascii "cid") firstLineRegex maxLen

/-- A record of tag `app` with a string `cid`, a `[]byte` `log` and no
`ExtIds`. -/
def scenarioRecord (cid log : String) (id : Int) : FluentMsg :=
  { Tag := ascii "app"
    Message := [(ascii "cid", Value.str (ascii cid)), (ascii "log", Value.bytes (ascii log))]
    Id := id
    ExtIds := none }

/-- Scenario S1 followed by a new first line: three records of `cid` `a`, the
first one a first line, then a first line again, then an idle pass after the
timeout. -/
def scenarioS1 : List Event :=
  [Event.recv (scenarioRecord "a" "2024-01-01 boom" 1) 0 none,
   Event.recv (scenarioRecord "a" "  at foo()" 2) 1 none,
   Event.recv (scenarioRecord "a" "  at bar()" 3) 2 none,
   Event.recv (scenarioRecord "a" "2024-01-02 next" 4) 3 none,
   Event.idle 6000000000]

/-- The fused record that scenario S1 expects. -/
def scenarioS1Fused : FluentMsg :=
  { Tag := ascii "app"
    Message :=
      [(ascii "cid", Value.str (ascii "a")),
       (ascii "log", Value.bytes (ascii "2024-01-01 boom\n  at foo()\n  at bar()"))]
    Id := 1
    ExtIds := some [2, 3] }

/-- A concatenator of the scenarios with one pending record for `cid` `a`. -/
def scenarioPending : Concator :=
  { scenarioConcator 100 with
    slot := [(ascii "a", { msg := scenarioRecord "a" "2024-01-01 boom" 1, lastT := 0 })] }

/-- A record of `cid` `a` without the `log` field. -/
def noLogRecord : FluentMsg :=
  { Tag := ascii "app"
    Message := [(ascii "cid", Value.str (ascii "a"))]
    Id := 7
    ExtIds := none }

/-- A record of `cid` `b` without the `log` field. -/
def noLogRecordB : FluentMsg :=
  { Tag := ascii "app"
    Message := [(ascii "cid", Value.bytes (ascii "b"))]
    Id := 8
    ExtIds := none }

/-- A record of `cid` `a` whose `log` is a `string`, not a `[]byte`. -/
def stringLogRecord : FluentMsg :=
  { Tag := ascii "app"
    Message := [(ascii "cid", Value.str (ascii "a")),
      (ascii "log", Value.str (ascii "2024-01-01 boom"))]
    Id := 7
    ExtIds := none }

/-- A record whose `cid` is present and holds the nil interface. -/
def nilIdentifierRecord : FluentMsg :=
  { Tag := ascii "app"
    Message := [(ascii "cid", Value.nil), (ascii "log", Value.bytes (ascii "anything"))]
    Id := 7
    ExtIds := none }

/-- The record that scenario S3 expects after the overflow. -/
def scenarioS3Fused : FluentMsg :=
  { Tag := ascii "app"
    Message :=
      [(ascii "cid", Value.str (ascii "a")),
       (ascii "log", Value.bytes (ascii "2024-01-01 boom\nxxxxxx"))]
    Id := 1
    ExtIds := some [2] }

/-- The start of scenario S1 with the two payloads in one buffer: the head is
`buf[0:15]` with capacity 25 and the fragment is `buf[15:25]`, so the first
spare byte of the pending slice is byte 0 of the received one.  An idle pass
after the timeout follows. -/
def scenarioShared : List Event :=
  [Event.recv (scenarioRecord "a" "2024-01-01 boom" 1) 0 none,
   Event.recv (scenarioRecord "a" "  at foo()" 2) 1 (some 0),
   Event.idle 6000000000]

/-- The record that `Run` emits in `scenarioShared`: the first blank of the
fragment was overwritten by the newline. -/
def scenarioSharedFused : FluentMsg :=
  { Tag := ascii "app"
    Message :=
      [(ascii "cid", Value.str (ascii "a")),
       (ascii "log", Value.bytes (ascii "2024-01-01 boom\n\n at foo()"))]
    Id := 1
    ExtIds := some [2] }

/-- A concatenator of the scenarios with two pending records: `cid` `a` last
touched at time 0 and `cid` `b` last touched one second later. -/
def scenarioTwoPending : Concator :=
  { scenarioConcator 100 with
    slot :=
      [(ascii "a", { msg := scenarioRecord "a" "2024-01-01 boom" 1, lastT := 0 }),
       (ascii "b", { msg := scenarioRecord "b" "2024-01-01 bang" 2, lastT := 1000000000 })] }

/-- A record of `cid` `b` whose `log` is a `string`, not a `[]byte`. -/
def stringLogRecordB : FluentMsg :=
  { Tag := ascii "app"
    Message := [(ascii "cid", Value.str (ascii "b")),
      (ascii "log", Value.str (ascii "2024-01-01 bang"))]
    Id := 8
    ExtIds := none }

/-- Two first lines of `cid` `a` with a record of `cid` `b` between them whose
`log` is a `string`, then an idle pass after the timeout. -/
def scenarioCross : List Event :=
  [Event.recv (scenarioRecord "a" "2024-01-01 A" 10) 0 none,
   Event.recv stringLogRecordB 1 none,
   Event.recv (scenarioRecord "a" "2024-01-02 B" 11) 2 none,
   Event.idle 6000000000]

/-- The configuration that `NewDefaultFilterCfg` returns for an empty tag
table. -/
def scenarioFilterCfg : DefaultFilterCfg :=
  { RemoveEmptyTag := true, RemoveUnsupportTag := true, tags := [] }

/-! ## The post-pipeline -/

/-- The method `Filter` of a `PostFilterItf`.  The interface is declared outside
the given sources, so a filter is a parameter: it acts on the record and on the
state `σ` that it shares with the rest of the program (its own fields, the
re-entry channel, the pool).  `none` is the nil result. -/
abbrev PostFilterItf (σ : Type) := FluentMsg → σ → Option FluentMsg × σ

/-- The loop `for _, filter = range f.filters` of `PostPipeline.Wrap`
(lines 45-49); the result `none` is the jump to `NEXT_MSG`. -/
def applyFilters {σ : Type} : List (PostFilterItf σ) → FluentMsg → σ → Option FluentMsg × σ
  | [], msg, w => (some msg, w)
  | filter :: rest, msg, w =>
    match filter msg w with
    | (none, w1) => (none, w1)
    | (some msg1, w1) => applyFilters rest msg1 w1

/-- One iteration of the goroutine of `PostPipeline.Wrap` (lines 39-52) for the
record `msg` it picked up: what is sent on `outChan`, and the state. -/
def wrapStep {σ : Type} (filters : List (PostFilterItf σ)) (msg : FluentMsg) (w : σ) :
    List FluentMsg × σ :=
  match applyFilters filters msg w with
  | (none, w1) => ([], w1)
  | (some msg1, w1) => ([msg1], w1)

/-- A filter that does not touch the shared state. -/
def pureFilter {σ : Type} (g : FluentMsg → Option FluentMsg) : PostFilterItf σ :=
  fun msg w => (g msg, w)

/-! ## The identified receive step, in detail -/

/-- The five ways in which the receive branch ends without a panic for a
record `m` whose identifier string is `id`, each with the conditions under
which `Run` takes it. -/
inductive AdmitStep (c : Concator) (m : FluentMsg) (now : Time) (id : GoString)
    (ov : Overlap) : List FluentMsg → Slot → Prop where
  /-- pending identifier, no value at `msgKey`: the record is forwarded -/
  | noMsgKey (p : PendingMsg) (hs : mapGet c.slot id = some p)
      (hm : mapGet m.Message c.msgKey = none) :
      AdmitStep c m now id ov [m] c.slot
  /-- new identifier: the record is stored -/
  | install (tail : List Byte) (hs : mapGet c.slot id = none)
      (hm : mapGet m.Message c.msgKey = some (Value.bytes tail)) :
      AdmitStep c m now id ov [] (c.slot ++ [(id, { msg := m, lastT := now })])
  /-- first line: the pending record is sent and replaced -/
  | firstLine (p : PendingMsg) (tail : List Byte) (hs : mapGet c.slot id = some p)
      (hm : mapGet m.Message c.msgKey = some (Value.bytes tail))
      (hr : c.regex tail = true) :
      AdmitStep c m now id ov [p.msg] (mapSet c.slot id { msg := m, lastT := now })
  /-- continuation below `maxLen`: the fused record stays pending -/
  | concatKeep (p : PendingMsg) (cur tail : List Byte) (hs : mapGet c.slot id = some p)
      (hp : mapGet p.msg.Message c.msgKey = some (Value.bytes cur))
      (hm : mapGet m.Message c.msgKey = some (Value.bytes tail))
      (hr : c.regex tail = false)
      (hlen : ¬ ((cur ++ [10] ++ appended ov tail).length : Int) ≥ c.maxLen) :
      AdmitStep c m now id ov [] (mapSet c.slot id (concat c p m now cur (appended ov tail)))
  /-- continuation reaching `maxLen`: the fused record is sent -/
  | concatFlush (p : PendingMsg) (cur tail : List Byte) (hs : mapGet c.slot id = some p)
      (hp : mapGet p.msg.Message c.msgKey = some (Value.bytes cur))
      (hm : mapGet m.Message c.msgKey = some (Value.bytes tail))
      (hr : c.regex tail = false)
      (hlen : ((cur ++ [10] ++ appended ov tail).length : Int) ≥ c.maxLen) :
      AdmitStep c m now id ov [(concat c p m now cur (appended ov tail)).msg] (mapDel c.slot id)

/-- Every slot entry is stored under the identifier string of its record. -/
def KeysMatch (c : Concator) (s : Slot) : Prop :=
  ∀ e ∈ s, identifierOf c e.2.msg = some e.1

/-- The record of scenario S4: no `cid`. -/
def noIdentifierRecord : FluentMsg :=
  { Tag := ascii "app"
    Message := [(ascii "log", Value.bytes (ascii "anything"))]
    Id := 7
    ExtIds := none }

/-- A first line, then a record of the same `cid` without the `log` field, then
an idle pass after the timeout. -/
def scenarioBypass : List Event :=
  [Event.recv (scenarioRecord "a" "2024-01-01 boom" 1) 0 none,
   Event.recv noLogRecord 1 none,
   Event.idle 6000000000]

/-- A first line of `cid` `a` that arrives with the id 5 in its `ExtIds`. -/
def lateExtIdsRecord : FluentMsg :=
  { Tag := ascii "app"
    Message := [(ascii "cid", Value.str (ascii "a")),
      (ascii "log", Value.bytes (ascii "2024-01-03 Z"))]
    Id := 7
    ExtIds := some [5] }

/-- Three first lines of `cid` `a`, the last one arriving with `ExtIds`, then an
idle pass after the timeout. -/
def scenarioLateExtIds : List Event :=
  [Event.recv (scenarioRecord "a" "2024-01-01 X" 5) 0 none,
   Event.recv (scenarioRecord "a" "2024-01-02 Y" 6) 1 none,
   Event.recv lateExtIdsRecord 2 none,
   Event.idle 7000000000]

/-! ## Payload lengths -/

/-- The record `r` has the id of the input record `head` and its payload at
`key` is as long as the payload of `head` followed by the input records
`frags`, each after one newline byte; when `exact` holds it is that byte
sequence. -/
def TextParts (exact : Prop) (key : GoString) (inputs : List FluentMsg) (r head : FluentMsg)
    (frags : List FluentMsg) : Prop :=
  head ∈ inputs ∧ (∀ f ∈ frags, f ∈ inputs) ∧ r.Id = head.Id ∧
    ∃ b, mapGet r.Message key = some (Value.bytes b) ∧
      b.length = (textAt key head ++ fragmentsText key frags).length ∧
      (exact → b = textAt key head ++ fragmentsText key frags)

/-- A pending record: nothing was appended to it yet, or its payload is
shorter than `maxLen`. -/
def PendingBound (exact : Prop) (key : GoString) (maxLen : Int) (inputs : List FluentMsg)
    (r : FluentMsg) : Prop :=
  ∃ head frags, TextParts exact key inputs r head frags ∧
    (frags = [] ∨ ((textAt key r).length : Int) < maxLen)

/-- An emitted record: when the payload of its head is shorter than `maxLen`,
its payload is shorter than `maxLen` plus one newline byte plus the payload of
the last input record that went into it. -/
def EmittedBound (exact : Prop) (key : GoString) (maxLen : Int) (inputs : List FluentMsg)
    (r : FluentMsg) : Prop :=
  ∃ head frags, TextParts exact key inputs r head frags ∧
    (((textAt key head).length : Int) < maxLen →
      ((textAt key r).length : Int) <
        maxLen + 1 + ((textAt key (frags.getLast?.getD head)).length : Int))

/-- A head of 28 bytes, longer than the `maxLen` 20 of scenario S3. -/
def longHeadRecord : FluentMsg :=
  scenarioRecord "a" "2024-01-01 this head is long" 1

/-- The record emitted when one byte is appended to `longHeadRecord`. -/
def longHeadFused : FluentMsg :=
  { Tag := ascii "app"
    Message :=
      [(ascii "cid", Value.str (ascii "a")),
       (ascii "log", Value.bytes (ascii "2024-01-01 this head is long\nx"))]
    Id := 1
    ExtIds := some [2] }

/-! ## Independent identifiers -/

/-- The iterations that remain when only the records of identifier `id` are
admitted: the receive steps of those records, at the same times, and every
idle pass. -/
def eventsFor (c : Concator) (id : GoString) : List Event → List Event
  | [] => []
  | Event.recv msg now ov :: rest =>
    if identifierOf c msg = some id then Event.recv msg now ov :: eventsFor c id rest
    else eventsFor c id rest
  | Event.idle now :: rest => Event.idle now :: eventsFor c id rest

/-- The entries of a slot map stored under the key `id`. -/
def slotOf (id : GoString) (s : Slot) : Slot :=
  s.filter (fun e => decide (e.1 = id))

/-- Every key of the slot map is `a` or `b`. -/
def KeysIn (a b : GoString) (s : Slot) : Prop :=
  ∀ e ∈ s, e.1 = a ∨ e.1 = b

/-- The list `zs` is an interleaving of `xs` and `ys`: it consists of the
elements of `xs` and of `ys`, each list in its own order. -/
inductive Interleave {α : Type} : List α → List α → List α → Prop where
  | nil : Interleave [] [] []
  | left (x : α) {xs ys zs : List α} (h : Interleave xs ys zs) :
      Interleave (x :: xs) ys (x :: zs)
  | right (y : α) {xs ys zs : List α} (h : Interleave xs ys zs) :
      Interleave xs (y :: ys) (y :: zs)

/-- Scenario S6: records of `cid` `a` and `b` interleaved, then an idle pass
after the timeout. -/
def scenarioS6 : List Event :=
  [Event.recv (scenarioRecord "a" "2024-01-01 boom" 1) 0 none,
   Event.recv (scenarioRecord "b" "2024-01-01 other" 5) 1 none,
   Event.recv (scenarioRecord "a" "  at foo()" 2) 2 none,
   Event.recv (scenarioRecord "b" "  at baz()" 6) 3 none,
   Event.recv (scenarioRecord "a" "  at bar()" 3) 4 none,
   Event.idle 7000000000]

/-- The fused record of `cid` `b` in scenario S6. -/
def scenarioS6FusedB : FluentMsg :=
  { Tag := ascii "app"
    Message :=
      [(ascii "cid", Value.str (ascii "b")),
       (ascii "log", Value.bytes (ascii "2024-01-01 other\n  at baz()"))]
    Id := 5
    ExtIds := some [6] }

/-- A record of `cid` `a` stays pending while first lines of `cid` `b` keep
arriving: the loop only takes the receive branch, the last time twelve seconds
after the record of `a` was admitted. -/
def scenarioBusy : List Event :=
  [Event.recv (scenarioRecord "a" "2024-01-01 boom" 1) 0 none,
   Event.recv (scenarioRecord "b" "2024-01-01 b1" 11) 1 none,
   Event.recv (scenarioRecord "b" "2024-01-01 b2" 12) 2 none,
   Event.recv (scenarioRecord "b" "2024-01-01 b3" 13) 6000000000 none,
   Event.recv (scenarioRecord "b" "2024-01-01 b4" 14) 12000000000 none]

/-- The slot map at the end of `scenarioBusy`. -/
def scenarioBusySlot : Slot :=
  [(ascii "a", { msg := scenarioRecord "a" "2024-01-01 boom" 1, lastT := 0 }),
   (ascii "b", { msg := scenarioRecord "b" "2024-01-01 b4" 14, lastT := 12000000000 })]

/-! ## Lemmas on maps -/

theorem mapGet_mapSet_same {α : Type} (m : List (GoString × α)) (k : GoString) (v : α) :
    mapGet (mapSet m k v) k = some v := by
  induction m with
  | nil => simp [mapSet, mapGet]
  | cons e rest ih =>
    obtain ⟨k', v'⟩ := e
    by_cases h : k' = k
    · simp [mapSet, mapGet, h]
    · simp [mapSet, mapGet, h, ih]

theorem mapGet_mapSet_ne {α : Type} (m : List (GoString × α)) (k k1 : GoString) (v : α)
    (hne : k1 ≠ k) : mapGet (mapSet m k v) k1 = mapGet m k1 := by
  induction m with
  | nil =>
    have h : ¬ k = k1 := fun h => hne h.symm
    simp [mapSet, mapGet, h]
  | cons e rest ih =>
    obtain ⟨k', v'⟩ := e
    by_cases h : k' = k
    · subst h
      have h1 : ¬ k' = k1 := fun h1 => hne h1.symm
      simp [mapSet, mapGet, h1]
    · by_cases h1 : k' = k1
      · subst h1
        simp [mapSet, mapGet, h]
      · simp [mapSet, mapGet, h, h1, ih]

theorem mapSet_mapSet {α : Type} (m : List (GoString × α)) (k : GoString) (v w : α) :
    mapSet (mapSet m k v) k w = mapSet m k w := by
  induction m with
  | nil => simp [mapSet]
  | cons e rest ih =>
    obtain ⟨k', v'⟩ := e
    by_cases h : k' = k
    · simp [mapSet, h]
    · simp [mapSet, h, ih]

theorem mapGet_eq_none_iff {α : Type} (m : List (GoString × α)) (k : GoString) :
    mapGet m k = none ↔ k ∉ mapKeys m := by
  induction m with
  | nil => simp [mapGet, mapKeys]
  | cons e rest ih =>
    obtain ⟨k', v'⟩ := e
    by_cases h : k' = k
    · simp [mapGet, mapKeys, h]
    · have h1 : ¬ k = k' := fun h1 => h h1.symm
      simp only [mapKeys] at ih
      simp [mapGet, mapKeys, h, h1, ih]

theorem mapGet_mem {α : Type} (m : List (GoString × α)) (k : GoString) (v : α)
    (h : mapGet m k = some v) : (k, v) ∈ m := by
  induction m with
  | nil => simp [mapGet] at h
  | cons e rest ih =>
    obtain ⟨k', v'⟩ := e
    by_cases hk : k' = k
    · simp [mapGet, hk] at h
      simp [hk, h]
    · simp [mapGet, hk] at h
      exact List.mem_cons_of_mem _ (ih h)

theorem mapSet_of_none {α : Type} (m : List (GoString × α)) (k : GoString) (v : α)
    (h : mapGet m k = none) : mapSet m k v = m ++ [(k, v)] := by
  induction m with
  | nil => simp [mapSet]
  | cons e rest ih =>
    obtain ⟨k', v'⟩ := e
    by_cases hk : k' = k
    · simp [mapGet, hk] at h
    · simp [mapGet, hk] at h
      simp [mapSet, hk, ih h]

theorem mapKeys_mapSet_of_some {α : Type} (m : List (GoString × α)) (k : GoString) (v w : α)
    (h : mapGet m k = some w) : mapKeys (mapSet m k v) = mapKeys m := by
  induction m with
  | nil => simp [mapGet] at h
  | cons e rest ih =>
    obtain ⟨k', v'⟩ := e
    by_cases hk : k' = k
    · simp [mapSet, mapKeys, hk]
    · simp [mapGet, hk] at h
      simp only [mapKeys] at ih
      simp [mapSet, mapKeys, hk, ih h]

theorem mem_mapSet {α : Type} (m : List (GoString × α)) (k : GoString) (v : α)
    (e : GoString × α) (h : e ∈ mapSet m k v) : e ∈ m ∨ e = (k, v) := by
  induction m with
  | nil => simpa [mapSet] using h
  | cons e1 rest ih =>
    obtain ⟨k', v'⟩ := e1
    by_cases hk : k' = k
    · simp [mapSet, hk] at h
      rcases h with h | h
      · exact Or.inr h
      · exact Or.inl (List.mem_cons_of_mem _ h)
    · simp [mapSet, hk] at h
      rcases h with h | h
      · exact Or.inl (by simp [h])
      · rcases ih h with h1 | h1
        · exact Or.inl (List.mem_cons_of_mem _ h1)
        · exact Or.inr h1

theorem mapKeys_mapDel_nodup {α : Type} (m : List (GoString × α)) (k : GoString)
    (h : (mapKeys m).Nodup) : (mapKeys (mapDel m k)).Nodup := by
  unfold mapKeys mapDel
  exact (List.filter_sublist m).map Prod.fst |>.nodup h

theorem mapGet_mapDel_same {α : Type} (m : List (GoString × α)) (k : GoString) :
    mapGet (mapDel m k) k = none := by
  rw [mapGet_eq_none_iff]
  simp [mapKeys, mapDel]

theorem nodup_key_inj {α : Type} (m : List (GoString × α)) (h : (mapKeys m).Nodup)
    (e1 e2 : GoString × α) (h1 : e1 ∈ m) (h2 : e2 ∈ m) (hk : e1.1 = e2.1) : e1 = e2 :=
  List.inj_on_of_nodup_map h h1 h2 hk

/-! ## The idle scan -/

theorem assertBytes_of_hasBytes (key : GoString) (m : FluentMsg) (h : HasBytes key m) :
    assertBytes (mapGet m.Message key) = Except.ok (textAt key m) := by
  obtain ⟨b, hb⟩ := h
  simp [textAt, hb, assertBytes]

theorem idleLoop_spec (c : Concator) (now : Time) (entries : List (GoString × PendingMsg))
    (out : List FluentMsg) (slot : Slot)
    (hb : ∀ e ∈ entries, HasBytes c.msgKey e.2.msg) :
    idleLoop c now entries (out, slot) = Except.ok
      (out ++ (entries.filter (fun e => timedOut now e.2)).map (fun e => e.2.msg),
       slot.filter (fun e =>
         decide (e.1 ∉ mapKeys (entries.filter (fun e => timedOut now e.2))))) := by
  induction entries generalizing out slot with
  | nil => simp [idleLoop, mapKeys]
  | cons e rest ih =>
    obtain ⟨k, p⟩ := e
    have hrest : ∀ e ∈ rest, HasBytes c.msgKey e.2.msg :=
      fun e he => hb e (List.mem_cons_of_mem _ he)
    have hp : HasBytes c.msgKey p.msg := hb (k, p) (List.mem_cons_self _ _)
    by_cases ht : now - p.lastT > concatTimeoutTs
    · have ht1 : timedOut now p = true := by simp [timedOut, ht]
      simp only [idleLoop, ht, if_true, assertBytes_of_hasBytes _ _ hp]
      rw [ih _ _ hrest]
      simp only [List.filter_cons, ht1, if_true, List.map_cons, List.append_assoc,
        List.singleton_append, mapDel, List.filter_filter, mapKeys]
      congr 2
      apply List.filter_congr
      intro x _
      by_cases hx : x.1 = k <;> simp [hx]
    · have ht1 : timedOut now p = false := by simp [timedOut, ht]
      simp only [idleLoop, ht, if_false]
      rw [ih _ _ hrest]
      simp [List.filter_cons, ht1]

theorem idle_spec (c : Concator) (now : Time) (h : SlotOk c.msgKey c.slot) :
    idle c now = Except.ok
      ((c.slot.filter (fun e => timedOut now e.2)).map (fun e => e.2.msg),
       c.slot.filter (fun e => !timedOut now e.2)) := by
  unfold idle
  rw [idleLoop_spec c now c.slot [] c.slot h.2]
  simp only [List.nil_append]
  congr 2
  apply List.filter_congr
  intro x hx
  by_cases ht : timedOut now x.2 = true
  · have hmem : x.1 ∈ mapKeys (c.slot.filter (fun e => timedOut now e.2)) := by
      simp only [mapKeys, List.mem_map, List.mem_filter]
      exact ⟨x, ⟨hx, ht⟩, rfl⟩
    simp [ht, hmem]
  · have hnot : x.1 ∉ mapKeys (c.slot.filter (fun e => timedOut now e.2)) := by
      simp only [mapKeys, List.mem_map, List.mem_filter]
      rintro ⟨y, ⟨hy, hty⟩, hk⟩
      have hxy : y = x := nodup_key_inj c.slot h.1 y x hy hx hk
      rw [hxy] at hty
      exact ht hty
    simp [ht, hnot]

theorem slotOk_filter (key : GoString) (s : Slot) (p : GoString × PendingMsg → Bool)
    (h : SlotOk key s) : SlotOk key (s.filter p) := by
  refine ⟨?_, fun e he => h.2 e (List.mem_of_mem_filter he)⟩
  unfold mapKeys
  exact ((List.filter_sublist s).map Prod.fst).nodup h.1

theorem idle_slotOk (c : Concator) (now : Time) (out : List FluentMsg) (s : Slot)
    (h : SlotOk c.msgKey c.slot) (hr : idle c now = Except.ok (out, s)) :
    SlotOk c.msgKey s := by
  rw [idle_spec c now h] at hr
  injection hr with hr
  injection hr with _ hs
  rw [← hs]
  exact slotOk_filter _ _ _ h

/-! ## The receive branch, case by case -/

theorem recv_of_identifier (c : Concator) (m : FluentMsg) (now : Time) (ov : Overlap) (id : GoString)
    (h : identifierOf c m = some id) : recv c m now ov = admitIdentified c m now id ov := by
  unfold identifierOf at h
  unfold recv
  split at h <;> simp_all

theorem recv_of_no_identifier (c : Concator) (m : FluentMsg) (now : Time) (ov : Overlap)
    (h : identifierOf c m = none) (hnil : mapGet m.Message c.identifier ≠ some Value.nil) :
    recv c m now ov = Except.ok ([m], c.slot) := by
  unfold identifierOf at h
  unfold recv
  split at h
  · simp at h
  · simp at h
  · split
    · rfl
    · simp_all
    · simp_all
    · rename_i v _ _ _
      cases v <;> simp_all [typeString]

theorem admitIdentified_new (c : Concator) (m : FluentMsg) (now : Time) (ov : Overlap) (id : GoString)
    (hs : mapGet c.slot id = none) (hm : HasBytes c.msgKey m) :
    admitIdentified c m now id ov =
      Except.ok ([], mapSet c.slot id { msg := m, lastT := now }) := by
  simp [admitIdentified, hs, assertBytes_of_hasBytes _ _ hm]

theorem admitIdentified_new_panic (c : Concator) (m : FluentMsg) (now : Time) (ov : Overlap) (id : GoString)
    (hs : mapGet c.slot id = none) (hm : ¬ HasBytes c.msgKey m) :
    admitIdentified c m now id ov = Except.error Panic.typeAssertion := by
  simp only [admitIdentified, hs]
  cases hv : mapGet m.Message c.msgKey with
  | none => simp [assertBytes]
  | some v =>
    cases v with
    | bytes b => exact absurd ⟨b, hv⟩ hm
    | str s => simp [assertBytes]
    | other n => simp [assertBytes]
    | nil => simp [assertBytes]

theorem admitIdentified_no_msgKey (c : Concator) (m : FluentMsg) (now : Time) (ov : Overlap)
    (id : GoString) (p : PendingMsg)
    (hs : mapGet c.slot id = some p) (hm : mapGet m.Message c.msgKey = none) :
    admitIdentified c m now id ov = Except.ok ([m], c.slot) := by
  simp [admitIdentified, hs, hm]

theorem admitIdentified_firstLine (c : Concator) (m : FluentMsg) (now : Time) (ov : Overlap)
    (id : GoString) (p : PendingMsg) (tail : List Byte)
    (hs : mapGet c.slot id = some p)
    (hm : mapGet m.Message c.msgKey = some (Value.bytes tail))
    (hr : c.regex tail = true) :
    admitIdentified c m now id ov =
      Except.ok ([p.msg], mapSet c.slot id { msg := m, lastT := now }) := by
  simp [admitIdentified, hs, hm, assertBytes, hr]

theorem mapGet_concat (c : Concator) (p : PendingMsg) (m : FluentMsg) (now : Time)
    (cur tail : List Byte) :
    mapGet (concat c p m now cur tail).msg.Message c.msgKey =
      some (Value.bytes (cur ++ [10] ++ tail)) := by
  simp [concat, mapGet_mapSet_same]

theorem admitIdentified_concat (c : Concator) (m : FluentMsg) (now : Time) (ov : Overlap)
    (id : GoString) (p : PendingMsg) (cur tail : List Byte)
    (hs : mapGet c.slot id = some p)
    (hm : mapGet m.Message c.msgKey = some (Value.bytes tail))
    (hr : c.regex tail = false)
    (hp : mapGet p.msg.Message c.msgKey = some (Value.bytes cur)) :
    admitIdentified c m now id ov =
      if ((cur ++ [10] ++ appended ov tail).length : Int) ≥ c.maxLen then
        Except.ok ([(concat c p m now cur (appended ov tail)).msg],
          mapDel (mapSet c.slot id (concat c p m now cur (appended ov tail))) id)
      else
        Except.ok ([], mapSet c.slot id (concat c p m now cur (appended ov tail))) := by
  simp only [admitIdentified, hs, hm, assertBytes, hr, hp, mapGet_concat]
  simp

theorem admitIdentified_recvStep (c : Concator) (m : FluentMsg) (now : Time) (ov : Overlap)
    (id : GoString) (out : List FluentMsg) (s : Slot)
    (h : admitIdentified c m now id ov = Except.ok (out, s)) : RecvStep c m now ov out s := by
  cases hs : mapGet c.slot id with
  | none =>
    by_cases hm : HasBytes c.msgKey m
    · rw [admitIdentified_new c m now ov id hs hm] at h
      injection h with h
      injection h with h1 h2
      subst h1; subst h2
      exact RecvStep.install id hs hm
    · rw [admitIdentified_new_panic c m now ov id hs hm] at h
      cases h
  | some p =>
    cases hv : mapGet m.Message c.msgKey with
    | none =>
      rw [admitIdentified_no_msgKey c m now ov id p hs hv] at h
      injection h with h
      injection h with h1 h2
      subst h1; subst h2
      exact RecvStep.forward
    | some v =>
      cases v with
      | bytes tail =>
        cases hr : c.regex tail with
        | true =>
          rw [admitIdentified_firstLine c m now ov id p tail hs hv hr] at h
          injection h with h
          injection h with h1 h2
          subst h1; subst h2
          exact RecvStep.firstLine id p hs ⟨tail, hv⟩
        | false =>
          cases hp : mapGet p.msg.Message c.msgKey with
          | none => simp [admitIdentified, hs, hv, assertBytes, hr, hp] at h
          | some w =>
            cases w with
            | bytes cur =>
              rw [admitIdentified_concat c m now ov id p cur tail hs hv hr hp] at h
              split at h
              · injection h with h
                injection h with h1 h2
                subst h1; subst h2
                exact RecvStep.concatFlush id p cur tail hs hp hv
              · injection h with h
                injection h with h1 h2
                subst h1; subst h2
                exact RecvStep.concatKeep id p cur tail hs hp hv
            | str x => simp [admitIdentified, hs, hv, assertBytes, hr, hp] at h
            | other x => simp [admitIdentified, hs, hv, assertBytes, hr, hp] at h
            | nil => simp [admitIdentified, hs, hv, assertBytes, hr, hp] at h
      | str x => simp [admitIdentified, hs, hv, assertBytes] at h
      | other x => simp [admitIdentified, hs, hv, assertBytes] at h
      | nil => simp [admitIdentified, hs, hv, assertBytes] at h

theorem recv_recvStep (c : Concator) (m : FluentMsg) (now : Time) (ov : Overlap)
    (out : List FluentMsg) (s : Slot)
    (h : recv c m now ov = Except.ok (out, s)) : RecvStep c m now ov out s := by
  cases hid : identifierOf c m with
  | some id =>
    rw [recv_of_identifier c m now ov id hid] at h
    exact admitIdentified_recvStep c m now ov id out s h
  | none =>
    by_cases hnil : mapGet m.Message c.identifier = some Value.nil
    · simp [recv, hnil, typeString] at h
    · rw [recv_of_no_identifier c m now ov hid hnil] at h
      injection h with h
      injection h with h1 h2
      subst h1; subst h2
      exact RecvStep.forward

/-! ## The slot invariant and the ids in the slot map -/

theorem mapDel_of_not_mem {α : Type} (m : List (GoString × α)) (k : GoString)
    (h : k ∉ mapKeys m) : mapDel m k = m := by
  unfold mapDel
  rw [List.filter_eq_self]
  intro e he
  have : e.1 ≠ k := by
    intro hk
    apply h
    simp only [mapKeys, List.mem_map]
    exact ⟨e, he, hk⟩
  simp [this]

theorem mapDel_mapSet {α : Type} (m : List (GoString × α)) (k : GoString) (v : α) :
    mapDel (mapSet m k v) k = mapDel m k := by
  induction m with
  | nil => simp [mapSet, mapDel]
  | cons e rest ih =>
    obtain ⟨k', v'⟩ := e
    by_cases h : k' = k
    · simp [mapSet, mapDel, h]
    · have ih1 := ih
      simp [mapDel] at ih1
      simp [mapSet, mapDel, h, ih1]

theorem mapKeys_mapSet_nodup {α : Type} (m : List (GoString × α)) (k : GoString) (v : α)
    (h : (mapKeys m).Nodup) : (mapKeys (mapSet m k v)).Nodup := by
  cases hg : mapGet m k with
  | none =>
    rw [mapSet_of_none m k v hg]
    have hk : k ∉ mapKeys m := (mapGet_eq_none_iff m k).1 hg
    simp only [mapKeys, List.map_append, List.map_cons, List.map_nil] at hk ⊢
    rw [List.nodup_append]
    refine ⟨h, by simp, ?_⟩
    intro a ha hb
    simp only [List.mem_singleton] at hb
    subst hb
    exact hk ha
  | some w => rw [mapKeys_mapSet_of_some m k v w hg]; exact h

theorem slotOk_mapSet (key : GoString) (s : Slot) (k : GoString) (v : PendingMsg)
    (h : SlotOk key s) (hv : HasBytes key v.msg) : SlotOk key (mapSet s k v) := by
  refine ⟨mapKeys_mapSet_nodup s k v h.1, ?_⟩
  intro e he
  rcases mem_mapSet s k v e he with h1 | h1
  · exact h.2 e h1
  · subst h1; exact hv

theorem slotOk_mapDel (key : GoString) (s : Slot) (k : GoString)
    (h : SlotOk key s) : SlotOk key (mapDel s k) :=
  slotOk_filter key s _ h

theorem hasBytes_concat (c : Concator) (p : PendingMsg) (m : FluentMsg) (now : Time)
    (cur tail : List Byte) : HasBytes c.msgKey (concat c p m now cur tail).msg :=
  ⟨cur ++ [10] ++ tail, mapGet_concat c p m now cur tail⟩

theorem recvStep_slotOk (c : Concator) (m : FluentMsg) (now : Time) (ov : Overlap)
    (out : List FluentMsg) (s : Slot)
    (h : SlotOk c.msgKey c.slot) (hr : RecvStep c m now ov out s) : SlotOk c.msgKey s := by
  cases hr with
  | forward => exact h
  | install id hs hm => exact slotOk_mapSet _ _ _ _ h hm
  | firstLine id p hs hm => exact slotOk_mapSet _ _ _ _ h hm
  | concatKeep id p cur tail hs hp hm =>
    exact slotOk_mapSet _ _ _ _ h (hasBytes_concat c p m now cur (appended ov tail))
  | concatFlush id p cur tail hs hp hm =>
    exact slotOk_mapDel _ _ _ (slotOk_mapSet _ _ _ _ h (hasBytes_concat c p m now cur (appended ov tail)))

theorem slotIds_cons (e : GoString × PendingMsg) (s : Slot) :
    slotIds (e :: s) = idsOf e.2.msg ++ slotIds s := by
  simp [slotIds]

theorem slotIds_append (s t : Slot) : slotIds (s ++ t) = slotIds s ++ slotIds t := by
  simp [slotIds]

theorem slotIds_perm_del (s : Slot) (k : GoString) (p : PendingMsg)
    (hn : (mapKeys s).Nodup) (hg : mapGet s k = some p) :
    List.Perm (slotIds s) (idsOf p.msg ++ slotIds (mapDel s k)) := by
  induction s with
  | nil => simp [mapGet] at hg
  | cons e rest ih =>
    obtain ⟨k', v'⟩ := e
    have hn1 : (mapKeys rest).Nodup := by
      simp only [mapKeys, List.map_cons, List.nodup_cons] at hn
      exact hn.2
    have hk1 : k' ∉ mapKeys rest := by
      simp only [mapKeys, List.map_cons, List.nodup_cons] at hn
      exact hn.1
    by_cases hk : k' = k
    · subst hk
      simp only [mapGet, if_true, Option.some.injEq] at hg
      subst hg
      have hd : mapDel ((k', v') :: rest) k' = mapDel rest k' := by
        simp [mapDel]
      rw [hd, mapDel_of_not_mem rest k' hk1, slotIds_cons]
    · simp only [mapGet, hk, if_false] at hg
      have hd : mapDel ((k', v') :: rest) k = (k', v') :: mapDel rest k := by
        simp [mapDel, hk]
      rw [hd, slotIds_cons, slotIds_cons]
      have h1 := ih hn1 hg
      rw [List.perm_iff_count] at h1 ⊢
      intro a
      have h2 := h1 a
      simp only [List.count_append] at h2 ⊢
      omega

theorem slotIds_perm_set (s : Slot) (k : GoString) (v : PendingMsg)
    (hn : (mapKeys s).Nodup) :
    List.Perm (slotIds (mapSet s k v)) (idsOf v.msg ++ slotIds (mapDel s k)) := by
  have h1 := slotIds_perm_del (mapSet s k v) k v (mapKeys_mapSet_nodup s k v hn)
    (mapGet_mapSet_same s k v)
  rw [mapDel_mapSet] at h1
  exact h1

theorem idsOf_concat (c : Concator) (p : PendingMsg) (m : FluentMsg) (now : Time)
    (cur tail : List Byte) :
    idsOf (concat c p m now cur tail).msg = idsOf p.msg ++ [m.Id] := by
  simp [idsOf, concat]

theorem recvStep_ids (c : Concator) (m : FluentMsg) (now : Time) (ov : Overlap)
    (out : List FluentMsg) (s : Slot)
    (hn : (mapKeys c.slot).Nodup) (he : NoExtIds m) (hr : RecvStep c m now ov out s) :
    List.Perm (out.flatMap idsOf ++ slotIds s) (slotIds c.slot ++ [m.Id]) := by
  have hm : idsOf m = [m.Id] := by
    unfold NoExtIds at he
    simp [idsOf, he]
  cases hr with
  | forward =>
    simp only [List.flatMap_cons, List.flatMap_nil, List.append_nil, hm]
    exact List.perm_append_comm
  | install id hs hm1 =>
    rw [mapSet_of_none _ _ _ hs, slotIds_append]
    simp [slotIds, hm]
  | firstLine id p hs hm1 =>
    have h1 := slotIds_perm_set c.slot id { msg := m, lastT := now } hn
    have h2 := slotIds_perm_del c.slot id p hn hs
    rw [List.perm_iff_count] at h1 h2 ⊢
    intro a
    have h3 := h1 a
    have h4 := h2 a
    simp only [List.flatMap_cons, List.flatMap_nil, List.append_nil, List.count_append,
      hm] at h3 h4 ⊢
    omega
  | concatKeep id p cur tail hs hp hm1 =>
    have h1 := slotIds_perm_set c.slot id (concat c p m now cur (appended ov tail)) hn
    have h2 := slotIds_perm_del c.slot id p hn hs
    rw [List.perm_iff_count] at h1 h2 ⊢
    intro a
    have h3 := h1 a
    have h4 := h2 a
    simp only [List.flatMap_nil, List.nil_append, List.count_append,
      idsOf_concat] at h3 h4 ⊢
    omega
  | concatFlush id p cur tail hs hp hm1 =>
    have h2 := slotIds_perm_del c.slot id p hn hs
    rw [mapDel_mapSet]
    rw [List.perm_iff_count] at h2 ⊢
    intro a
    have h4 := h2 a
    simp only [List.flatMap_cons, List.flatMap_nil, List.append_nil, List.count_append,
      idsOf_concat] at h4 ⊢
    omega

/-! ## Runs -/

theorem step_slotOk (c : Concator) (e : Event) (out : List FluentMsg) (s : Slot)
    (h : SlotOk c.msgKey c.slot) (hr : step c e = Except.ok (out, s)) :
    SlotOk c.msgKey s := by
  cases e with
  | recv m now ov => exact recvStep_slotOk c m now ov out s h (recv_recvStep c m now ov out s hr)
  | idle now => exact idle_slotOk c now out s h hr

theorem filter_ids (s : Slot) (p : GoString × PendingMsg → Bool) :
    List.Perm (((s.filter p).map (fun e => e.2.msg)).flatMap idsOf ++
      slotIds (s.filter (fun e => !p e))) (slotIds s) := by
  induction s with
  | nil => simp [slotIds]
  | cons e rest ih =>
    rw [List.perm_iff_count] at ih ⊢
    intro a
    have h := ih a
    cases hp : p e <;>
      simp only [List.filter_cons, hp, Bool.not_true, Bool.not_false, if_true, if_false,
        Bool.false_eq_true, List.map_cons, List.flatMap_cons, slotIds_cons,
        List.count_append] at h ⊢ <;> omega

theorem step_ids (c : Concator) (e : Event) (out : List FluentMsg) (s : Slot)
    (h : SlotOk c.msgKey c.slot) (he : ∀ m ∈ admitted [e], NoExtIds m)
    (hr : step c e = Except.ok (out, s)) :
    List.Perm (out.flatMap idsOf ++ slotIds s)
      (slotIds c.slot ++ (admitted [e]).map FluentMsg.Id) := by
  cases e with
  | recv m now ov =>
    have hm : NoExtIds m := he m (by simp [admitted])
    exact recvStep_ids c m now ov out s h.1 hm (recv_recvStep c m now ov out s hr)
  | idle now =>
    simp only [step] at hr
    rw [idle_spec c now h] at hr
    injection hr with hr
    injection hr with h1 h2
    subst h1; subst h2
    simpa [admitted] using filter_ids c.slot (fun e => timedOut now e.2)

theorem admitted_cons (e : Event) (rest : List Event) :
    admitted (e :: rest) = admitted [e] ++ admitted rest := by
  cases e <;> simp [admitted]

theorem run_cons_ok (c : Concator) (e : Event) (rest : List Event)
    (out : List FluentMsg) (c1 : Concator)
    (h : run c (e :: rest) = Except.ok (out, c1)) :
    ∃ o1 s o2, step c e = Except.ok (o1, s) ∧
      run { c with slot := s } rest = Except.ok (o2, c1) ∧ out = o1 ++ o2 := by
  simp only [run] at h
  cases hs : step c e with
  | error p => simp [hs] at h
  | ok r =>
    obtain ⟨o1, s⟩ := r
    simp only [hs] at h
    cases hr : run { c with slot := s } rest with
    | error p => simp [hr] at h
    | ok r2 =>
      obtain ⟨o2, c2⟩ := r2
      simp only [hr] at h
      injection h with h
      injection h with h1 h2
      exact ⟨o1, s, o2, rfl, by rw [hr, h2], h1.symm⟩

theorem run_ids (evs : List Event) (c : Concator) (out : List FluentMsg) (c1 : Concator)
    (h : SlotOk c.msgKey c.slot) (he : ∀ m ∈ admitted evs, NoExtIds m)
    (hr : run c evs = Except.ok (out, c1)) :
    List.Perm (out.flatMap idsOf ++ slotIds c1.slot)
      (slotIds c.slot ++ (admitted evs).map FluentMsg.Id) := by
  induction evs generalizing c out with
  | nil =>
    simp only [run] at hr
    injection hr with hr
    injection hr with h1 h2
    subst h1; subst h2
    simp [admitted]
  | cons e rest ih =>
    obtain ⟨o1, s, o2, hs, hrest, hout⟩ := run_cons_ok c e rest out c1 hr
    subst hout
    rw [admitted_cons] at he
    have he1 : ∀ m ∈ admitted [e], NoExtIds m :=
      fun m hm => he m (List.mem_append_left _ hm)
    have he2 : ∀ m ∈ admitted rest, NoExtIds m :=
      fun m hm => he m (List.mem_append_right _ hm)
    have h1 := step_ids c e o1 s h he1 hs
    have h2 := ih { c with slot := s } o2 (step_slotOk c e o1 s h hs) he2 hrest
    rw [admitted_cons]
    rw [List.perm_iff_count] at h1 h2 ⊢
    intro a
    have h3 := h1 a
    have h4 := h2 a
    simp only [List.flatMap_append, List.map_append, List.count_append] at h3 h4 ⊢
    omega

theorem recv_total (c : Concator) (m : FluentMsg) (now : Time) (ov : Overlap)
    (h : SlotOk c.msgKey c.slot) (hm : HasBytes c.msgKey m)
    (hnil : mapGet m.Message c.identifier ≠ some Value.nil) :
    ∃ r, recv c m now ov = Except.ok r := by
  cases hid : identifierOf c m with
  | none => exact ⟨_, recv_of_no_identifier c m now ov hid hnil⟩
  | some id =>
    rw [recv_of_identifier c m now ov id hid]
    cases hs : mapGet c.slot id with
    | none => exact ⟨_, admitIdentified_new c m now ov id hs hm⟩
    | some p =>
      obtain ⟨tail, htail⟩ := hm
      cases hre : c.regex tail with
      | true => exact ⟨_, admitIdentified_firstLine c m now ov id p tail hs htail hre⟩
      | false =>
        obtain ⟨cur, hcur⟩ := h.2 (id, p) (mapGet_mem c.slot id p hs)
        rw [admitIdentified_concat c m now ov id p cur tail hs htail hre hcur]
        split
        · exact ⟨_, rfl⟩
        · exact ⟨_, rfl⟩

theorem run_total (evs : List Event) (c : Concator)
    (h : SlotOk c.msgKey c.slot)
    (hin : ∀ m ∈ admitted evs, HasBytes c.msgKey m ∧
      mapGet m.Message c.identifier ≠ some Value.nil) :
    ∃ r, run c evs = Except.ok r := by
  induction evs generalizing c with
  | nil => exact ⟨_, rfl⟩
  | cons e rest ih =>
    rw [admitted_cons] at hin
    have hstep : ∃ r, step c e = Except.ok r := by
      cases e with
      | recv m now ov =>
        have hm := hin m (List.mem_append_left _ (by simp [admitted]))
        exact recv_total c m now ov h hm.1 hm.2
      | idle now => exact ⟨_, idle_spec c now h⟩
    obtain ⟨⟨o1, s⟩, hs⟩ := hstep
    obtain ⟨⟨o2, c2⟩, hr⟩ := ih { c with slot := s } (step_slotOk c e o1 s h hs)
      (fun m hm => hin m (List.mem_append_right _ hm))
    exact ⟨(o1 ++ o2, c2), by simp [run, hs, hr]⟩

theorem slotOk_nil (key : GoString) : SlotOk key [] := by
  simp [SlotOk, mapKeys]

theorem scenarioS1_inputs :
    ∀ m ∈ admitted scenarioS1, HasBytes (scenarioConcator 100).msgKey m ∧ NoExtIds m := by
  intro m hm
  simp only [scenarioS1, admitted, List.mem_cons, List.mem_singleton, List.not_mem_nil,
    or_false] at hm
  rcases hm with h | h | h | h <;> subst h <;> exact ⟨⟨_, rfl⟩, rfl⟩

theorem scenarioS1_run :
    run (scenarioConcator 100) scenarioS1 =
      Except.ok ([scenarioS1Fused, scenarioRecord "a" "2024-01-02 next" 4],
        scenarioConcator 100) := by
  rfl

theorem run_slotOk (evs : List Event) (c : Concator) (out : List FluentMsg) (c1 : Concator)
    (h : SlotOk c.msgKey c.slot) (hr : run c evs = Except.ok (out, c1)) :
    c1.msgKey = c.msgKey ∧ SlotOk c.msgKey c1.slot := by
  induction evs generalizing c out with
  | nil =>
    simp only [run] at hr
    injection hr with hr
    injection hr with h1 h2
    subst h2
    exact ⟨rfl, h⟩
  | cons e rest ih =>
    obtain ⟨o1, s, o2, hs, hrest, _⟩ := run_cons_ok c e rest out c1 hr
    exact ih { c with slot := s } o2 (step_slotOk c e o1 s h hs) hrest

theorem reachable_slotOk (c : Concator) (h : Reachable c) : SlotOk c.msgKey c.slot := by
  obtain ⟨evs, out, hr⟩ := h
  exact (run_slotOk evs _ out c (slotOk_nil _) hr).2

theorem mapGet_filter {α : Type} (s : List (GoString × α)) (q : GoString × α → Bool)
    (hn : (mapKeys s).Nodup) (k : GoString) (p : α) (hg : mapGet s k = some p) :
    mapGet (s.filter q) k = if q (k, p) then some p else none := by
  induction s with
  | nil => simp [mapGet] at hg
  | cons e rest ih =>
    obtain ⟨k', v'⟩ := e
    have hn1 : (mapKeys rest).Nodup := by
      simp only [mapKeys, List.map_cons, List.nodup_cons] at hn
      exact hn.2
    have hk1 : k' ∉ mapKeys rest := by
      simp only [mapKeys, List.map_cons, List.nodup_cons] at hn
      exact hn.1
    by_cases hk : k' = k
    · subst hk
      simp only [mapGet, if_true, Option.some.injEq] at hg
      subst hg
      cases hq : q (k', v') with
      | true => simp [List.filter_cons, hq, mapGet]
      | false =>
        simp only [List.filter_cons, hq, Bool.false_eq_true, if_false]
        rw [mapGet_eq_none_iff]
        intro hmem
        apply hk1
        simp only [mapKeys, List.mem_map, List.mem_filter] at hmem ⊢
        obtain ⟨x, ⟨hx, _⟩, hxk⟩ := hmem
        exact ⟨x, hx, hxk⟩
    · simp only [mapGet, hk, if_false] at hg
      cases hq : q (k', v') with
      | true => simp [List.filter_cons, hq, mapGet, hk, ih hn1 hg]
      | false => simp [List.filter_cons, hq, ih hn1 hg]

theorem mapGet_of_mem {α : Type} (s : List (GoString × α)) (hn : (mapKeys s).Nodup)
    (k : GoString) (p : α) (h : (k, p) ∈ s) : mapGet s k = some p := by
  cases hg : mapGet s k with
  | none =>
    have := (mapGet_eq_none_iff s k).1 hg
    exact absurd (List.mem_map.2 ⟨(k, p), h, rfl⟩) this
  | some q =>
    have h1 := nodup_key_inj s hn (k, q) (k, p) (mapGet_mem s k q hg) h rfl
    simp only [Prod.mk.injEq, true_and] at h1
    rw [h1]

theorem mapGet_perm {α : Type} (s t : List (GoString × α)) (hn : (mapKeys s).Nodup)
    (hperm : List.Perm s t) (k : GoString) : mapGet s k = mapGet t k := by
  have hnt : (mapKeys t).Nodup := (hperm.map Prod.fst).nodup_iff.1 hn
  cases hg : mapGet s k with
  | none =>
    have h1 := (mapGet_eq_none_iff s k).1 hg
    have h2 : k ∉ mapKeys t := fun hm => h1 ((hperm.map Prod.fst).mem_iff.2 hm)
    exact ((mapGet_eq_none_iff t k).2 h2).symm
  | some p =>
    exact (mapGet_of_mem t hnt k p (hperm.mem_iff.1 (mapGet_mem s k p hg))).symm

theorem slotOk_perm (key : GoString) (s t : Slot) (hperm : List.Perm s t)
    (h : SlotOk key t) : SlotOk key s :=
  ⟨(hperm.map Prod.fst).nodup_iff.2 h.1, fun e he => h.2 e (hperm.mem_iff.1 he)⟩

/-! ## Pending records and their `ExtIds` -/

theorem fusedWith_snoc (c : Concator) (head : FluentMsg)
    (steps : List (FluentMsg × List Byte)) (m : FluentMsg) (t : List Byte) :
    fusedWith c head (steps ++ [(m, t)]) =
      (concat c { msg := fusedWith c head steps, lastT := 0 } m 0
        (textAt c.msgKey (fusedWith c head steps)) t).msg := by
  simp [fusedWith, List.foldl_append]

theorem fusedWith_extIds (c : Concator) (head : FluentMsg)
    (steps : List (FluentMsg × List Byte)) :
    (fusedWith c head steps).ExtIds.getD [] =
      head.ExtIds.getD [] ++ steps.map (fun st => st.1.Id) := by
  induction steps generalizing head with
  | nil => simp [fusedWith]
  | cons st rest ih =>
    have h := ih (concat c { msg := head, lastT := 0 } st.1 0 (textAt c.msgKey head) st.2).msg
    simp only [fusedWith, List.foldl_cons] at h ⊢
    rw [h]
    simp [concat]

theorem history_mono (c : Concator) (ins more : List FluentMsg) (r head : FluentMsg)
    (steps : List (FluentMsg × List Byte)) (h : History c ins r head steps) :
    History c (ins ++ more) r head steps :=
  ⟨List.mem_append_left _ h.1,
    fun st hst => ⟨List.mem_append_left _ (h.2.1 st hst).1, (h.2.1 st hst).2⟩, h.2.2⟩

theorem history_input (c : Concator) (ins : List FluentMsg) (m : FluentMsg) (hm : m ∈ ins) :
    History c ins m m [] :=
  ⟨hm, by simp, rfl⟩

theorem history_concat (c : Concator) (ins : List FluentMsg) (p : PendingMsg)
    (m : FluentMsg) (now : Time) (ov : Overlap) (cur tail : List Byte) (head : FluentMsg)
    (steps : List (FluentMsg × List Byte))
    (h : History c ins p.msg head steps)
    (hp : mapGet p.msg.Message c.msgKey = some (Value.bytes cur))
    (hm : mapGet m.Message c.msgKey = some (Value.bytes tail)) :
    History c (ins ++ [m]) (concat c p m now cur (appended ov tail)).msg head
      (steps ++ [(m, appended ov tail)]) := by
  obtain ⟨h1, h2, h3⟩ := h
  refine ⟨List.mem_append_left _ h1, ?_, ?_⟩
  · intro st hst
    rcases List.mem_append.1 hst with h4 | h4
    · exact ⟨List.mem_append_left _ (h2 st h4).1, (h2 st h4).2⟩
    · simp only [List.mem_singleton] at h4
      subst h4
      refine ⟨by simp, ov, ?_⟩
      simp [textAt, hm]
  · have hcur : textAt c.msgKey p.msg = cur := by simp [textAt, hp]
    rw [fusedWith_snoc, ← h3, hcur]
    rfl

theorem recvStep_history (ins : List FluentMsg) (c : Concator) (m : FluentMsg) (now : Time)
    (ov : Overlap) (out : List FluentMsg) (s : Slot)
    (h : ∀ e ∈ c.slot, ∃ head steps, History c ins e.2.msg head steps)
    (hr : RecvStep c m now ov out s) :
    ∀ e ∈ s, ∃ head steps, History c (ins ++ [m]) e.2.msg head steps := by
  have hold : ∀ e ∈ c.slot, ∃ head steps, History c (ins ++ [m]) e.2.msg head steps := by
    intro e he1
    obtain ⟨head, steps, h1⟩ := h e he1
    exact ⟨head, steps, history_mono c ins [m] _ head steps h1⟩
  have hnew : ∃ head steps, History c (ins ++ [m]) m head steps :=
    ⟨m, [], history_input c _ m (by simp)⟩
  have hset : ∀ v : PendingMsg, (∃ head steps, History c (ins ++ [m]) v.msg head steps) →
      ∀ id, ∀ e ∈ mapSet c.slot id v, ∃ head steps,
        History c (ins ++ [m]) e.2.msg head steps := by
    intro v hv id e he1
    rcases mem_mapSet _ _ _ e he1 with h1 | h1
    · exact hold e h1
    · subst h1; exact hv
  cases hr with
  | forward => exact hold
  | install id hs hm => exact hset _ hnew id
  | firstLine id p hs hm => exact hset _ hnew id
  | concatKeep id p cur tail hs hp hm =>
    obtain ⟨head, steps, h1⟩ := h (id, p) (mapGet_mem _ _ _ hs)
    exact hset _ ⟨head, _, history_concat c ins p m now ov cur tail head steps h1 hp hm⟩ id
  | concatFlush id p cur tail hs hp hm =>
    intro e he1
    rw [mapDel_mapSet] at he1
    exact hold e (List.mem_of_mem_filter he1)

theorem step_history (ins : List FluentMsg) (c : Concator) (e : Event)
    (out : List FluentMsg) (s : Slot)
    (hok : SlotOk c.msgKey c.slot)
    (h : ∀ e ∈ c.slot, ∃ head steps, History c ins e.2.msg head steps)
    (hr : step c e = Except.ok (out, s)) :
    ∀ x ∈ s, ∃ head steps, History c (ins ++ admitted [e]) x.2.msg head steps := by
  cases e with
  | recv m now ov =>
    exact recvStep_history ins c m now ov out s h (recv_recvStep c m now ov out s hr)
  | idle now =>
    simp only [step] at hr
    rw [idle_spec c now hok] at hr
    injection hr with hr
    injection hr with h1 h2
    subst h2
    intro x hx
    simpa [admitted] using h x (List.mem_of_mem_filter hx)

theorem run_history (evs : List Event) (ins : List FluentMsg) (c : Concator)
    (out : List FluentMsg) (c1 : Concator)
    (hok : SlotOk c.msgKey c.slot)
    (h : ∀ e ∈ c.slot, ∃ head steps, History c ins e.2.msg head steps)
    (hr : run c evs = Except.ok (out, c1)) :
    ∀ x ∈ c1.slot, ∃ head steps, History c (ins ++ admitted evs) x.2.msg head steps := by
  induction evs generalizing c out ins with
  | nil =>
    simp only [run] at hr
    injection hr with hr
    injection hr with h1 h2
    subst h2
    simpa [admitted] using h
  | cons e rest ih =>
    obtain ⟨o1, s, o2, hs, hrest, _⟩ := run_cons_ok c e rest out c1 hr
    rw [admitted_cons]
    have h1 := step_history ins c e o1 s hok h hs
    have h2 := ih (ins ++ admitted [e]) { c with slot := s } o2
      (step_slotOk c e o1 s hok hs) h1 hrest
    simpa [List.append_assoc] using h2

/-! ## Fused records -/

theorem fusedFrom_mono (key : GoString) (ins more : List FluentMsg) (r : FluentMsg)
    (h : FusedFrom key ins r) : FusedFrom key (ins ++ more) r := by
  obtain ⟨head, frags, h1, h2, h3⟩ := h
  exact ⟨head, frags, List.mem_append_left _ h1,
    fun f hf => List.mem_append_left _ (h2 f hf), h3⟩

theorem fusedFrom_input (key : GoString) (ins : List FluentMsg) (m : FluentMsg)
    (hmem : m ∈ ins) (hb : HasBytes key m) (he : NoExtIds m) :
    FusedFrom key ins m := by
  obtain ⟨b, hb⟩ := hb
  refine ⟨m, [], hmem, by simp, rfl, by simpa [NoExtIds] using he, ?_⟩
  simp [fragmentsText, textAt, hb]

theorem fusedFrom_concat (ins : List FluentMsg) (c : Concator) (p : PendingMsg)
    (m : FluentMsg) (now : Time) (cur tail : List Byte)
    (h : FusedFrom c.msgKey ins p.msg)
    (hp : mapGet p.msg.Message c.msgKey = some (Value.bytes cur))
    (hm : mapGet m.Message c.msgKey = some (Value.bytes tail)) :
    FusedFrom c.msgKey (ins ++ [m]) (concat c p m now cur tail).msg := by
  obtain ⟨head, frags, h1, h2, h3, h4, h5⟩ := h
  rw [hp] at h5
  simp only [Option.some.injEq, Value.bytes.injEq] at h5
  refine ⟨head, frags ++ [m], List.mem_append_left _ h1, ?_, h3, ?_, ?_⟩
  · intro f hf
    rcases List.mem_append.1 hf with hf1 | hf1
    · exact List.mem_append_left _ (h2 f hf1)
    · exact List.mem_append_right _ hf1
  · simp [concat, h4]
  · rw [mapGet_concat, h5]
    simp [fragmentsText, textAt, hm]

theorem recvStep_fused (ins : List FluentMsg) (c : Concator) (m : FluentMsg) (now : Time) (ov : Overlap)
    (out : List FluentMsg) (s : Slot)
    (h : ∀ e ∈ c.slot, FusedFrom c.msgKey ins e.2.msg)
    (hb : HasBytes c.msgKey m) (he : NoExtIds m) (hov : ov = none)
    (hr : RecvStep c m now ov out s) :
    (∀ r ∈ out, FusedFrom c.msgKey (ins ++ [m]) r) ∧
    (∀ e ∈ s, FusedFrom c.msgKey (ins ++ [m]) e.2.msg) := by
  subst hov
  have hold : ∀ e ∈ c.slot, FusedFrom c.msgKey (ins ++ [m]) e.2.msg :=
    fun e he1 => fusedFrom_mono _ ins [m] _ (h e he1)
  have hnew : FusedFrom c.msgKey (ins ++ [m]) m :=
    fusedFrom_input _ _ m (by simp) hb he
  have hset : ∀ v : PendingMsg, FusedFrom c.msgKey (ins ++ [m]) v.msg →
      ∀ id, ∀ e ∈ mapSet c.slot id v, FusedFrom c.msgKey (ins ++ [m]) e.2.msg := by
    intro v hv id e he1
    rcases mem_mapSet _ _ _ e he1 with h1 | h1
    · exact hold e h1
    · subst h1; exact hv
  cases hr with
  | forward =>
    refine ⟨?_, hold⟩
    intro r hr1
    simp only [List.mem_singleton] at hr1
    subst hr1; exact hnew
  | install id hs hm => exact ⟨by simp, hset _ hnew id⟩
  | firstLine id p hs hm =>
    refine ⟨?_, hset _ hnew id⟩
    intro r hr1
    simp only [List.mem_singleton] at hr1
    subst hr1
    exact hold (id, p) (mapGet_mem _ _ _ hs)
  | concatKeep id p cur tail hs hp hm =>
    exact ⟨by simp, hset _ (fusedFrom_concat ins c p m now cur (appended none tail)
      (h (id, p) (mapGet_mem _ _ _ hs)) hp hm) id⟩
  | concatFlush id p cur tail hs hp hm =>
    have hf := fusedFrom_concat ins c p m now cur (appended none tail)
      (h (id, p) (mapGet_mem _ _ _ hs)) hp hm
    refine ⟨?_, ?_⟩
    · intro r hr1
      simp only [List.mem_singleton] at hr1
      subst hr1; exact hf
    · intro e he1
      exact hset _ hf id e (List.mem_of_mem_filter he1)

theorem step_fused (ins : List FluentMsg) (c : Concator) (e : Event)
    (out : List FluentMsg) (s : Slot)
    (hok : SlotOk c.msgKey c.slot)
    (h : ∀ e ∈ c.slot, FusedFrom c.msgKey ins e.2.msg)
    (hin : ∀ m ∈ admitted [e], HasBytes c.msgKey m ∧ NoExtIds m)
    (hns : NoSharing e)
    (hr : step c e = Except.ok (out, s)) :
    (∀ r ∈ out, FusedFrom c.msgKey (ins ++ admitted [e]) r) ∧
    (∀ x ∈ s, FusedFrom c.msgKey (ins ++ admitted [e]) x.2.msg) := by
  cases e with
  | recv m now ov =>
    have hm := hin m (by simp [admitted])
    exact recvStep_fused ins c m now ov out s h hm.1 hm.2 hns
      (recv_recvStep c m now ov out s hr)
  | idle now =>
    simp only [step] at hr
    rw [idle_spec c now hok] at hr
    injection hr with hr
    injection hr with h1 h2
    subst h1; subst h2
    simp only [admitted, List.append_nil]
    refine ⟨?_, fun x hx => h x (List.mem_of_mem_filter hx)⟩
    intro r hr1
    simp only [List.mem_map, List.mem_filter] at hr1
    obtain ⟨x, ⟨hx, _⟩, hxr⟩ := hr1
    rw [← hxr]
    exact h x hx

theorem run_fused (evs : List Event) (ins : List FluentMsg) (c : Concator)
    (out : List FluentMsg) (c1 : Concator)
    (hok : SlotOk c.msgKey c.slot)
    (h : ∀ e ∈ c.slot, FusedFrom c.msgKey ins e.2.msg)
    (hin : ∀ m ∈ admitted evs, HasBytes c.msgKey m ∧ NoExtIds m)
    (hns : ∀ e ∈ evs, NoSharing e)
    (hr : run c evs = Except.ok (out, c1)) :
    ∀ r ∈ out, FusedFrom c.msgKey (ins ++ admitted evs) r := by
  induction evs generalizing c out ins with
  | nil =>
    simp only [run] at hr
    injection hr with hr
    injection hr with h1 h2
    subst h1
    simp
  | cons e rest ih =>
    obtain ⟨o1, s, o2, hs, hrest, hout⟩ := run_cons_ok c e rest out c1 hr
    subst hout
    rw [admitted_cons] at hin ⊢
    have h1 := step_fused ins c e o1 s hok h
      (fun m hm => hin m (List.mem_append_left _ hm)) (hns e (List.mem_cons_self _ _)) hs
    have h2 := ih (ins ++ admitted [e]) { c with slot := s } o2
      (step_slotOk c e o1 s hok hs) h1.2
      (fun m hm => hin m (List.mem_append_right _ hm))
      (fun x hx => hns x (List.mem_cons_of_mem _ hx)) hrest
    intro r hr1
    rcases List.mem_append.1 hr1 with hr2 | hr2
    · have := fusedFrom_mono c.msgKey _ (admitted rest) r (h1.1 r hr2)
      simpa [List.append_assoc] using this
    · have := h2 r hr2
      simpa [List.append_assoc] using this

/-! ## Lemmas on the post-pipeline -/

theorem applyFilters_append {σ : Type} (pre post : List (PostFilterItf σ)) (m : FluentMsg)
    (w : σ) :
    applyFilters (pre ++ post) m w =
      match applyFilters pre m w with
      | (none, w1) => (none, w1)
      | (some m1, w1) => applyFilters post m1 w1 := by
  induction pre generalizing m w with
  | nil => simp [applyFilters]
  | cons f rest ih =>
    simp only [List.cons_append, applyFilters]
    rcases hf : f m w with ⟨_ | m1, w1⟩
    · simp
    · simp [ih]

theorem applyFilters_pure {σ : Type} (gs : List (FluentMsg → Option FluentMsg))
    (m : FluentMsg) (w : σ) :
    applyFilters (gs.map pureFilter) m w =
      (gs.foldl (fun acc g => acc.bind g) (some m), w) := by
  induction gs generalizing m with
  | nil => simp [applyFilters]
  | cons g rest ih =>
    simp only [List.map_cons, applyFilters, pureFilter, List.foldl_cons, Option.some_bind]
    cases hg : g m with
    | none =>
      have hnone : ∀ l : List (FluentMsg → Option FluentMsg),
          l.foldl (fun acc g => acc.bind g) none = none := by
        intro l
        induction l with
        | nil => rfl
        | cons a l ih1 => simpa using ih1
      simp [hnone]
    | some m1 =>
      have := ih m1
      simp only [pureFilter] at this
      simp [this]

theorem filter_nil_or_same (f : DefaultFilterCfg) (r : FluentMsg) :
    Filter f r = none ∨ Filter f r = some r := by
  unfold Filter
  split
  · exact Or.inl rfl
  · split
    · exact Or.inl rfl
    · exact Or.inr rfl

/-! ## Inversion of the receive step -/

theorem ok_inj {α : Type} (a b : α) (h : (Except.ok a : Except Panic α) = Except.ok b) :
    a = b := by
  injection h

theorem ok_pair_inj {α β : Type} (a a1 : α) (b b1 : β)
    (h : (Except.ok (a, b) : Except Panic (α × β)) = Except.ok (a1, b1)) :
    a1 = a ∧ b1 = b := by
  injection h with h
  injection h with h1 h2
  exact ⟨h1.symm, h2.symm⟩

theorem admitIdentified_admitStep (c : Concator) (m : FluentMsg) (now : Time) (ov : Overlap)
    (id : GoString) (out : List FluentMsg) (s : Slot)
    (h : admitIdentified c m now id ov = Except.ok (out, s)) : AdmitStep c m now id ov out s := by
  cases hs : mapGet c.slot id with
  | none =>
    by_cases hm : HasBytes c.msgKey m
    · rw [admitIdentified_new c m now ov id hs hm, mapSet_of_none _ _ _ hs] at h
      obtain ⟨tail, htail⟩ := hm
      obtain ⟨h1, h2⟩ := ok_pair_inj _ _ _ _ h
      subst h1; subst h2
      exact AdmitStep.install tail hs htail
    · rw [admitIdentified_new_panic c m now ov id hs hm] at h
      cases h
  | some p =>
    cases hv : mapGet m.Message c.msgKey with
    | none =>
      rw [admitIdentified_no_msgKey c m now ov id p hs hv] at h
      obtain ⟨h1, h2⟩ := ok_pair_inj _ _ _ _ h
      subst h1; subst h2
      exact AdmitStep.noMsgKey p hs hv
    | some v =>
      cases v with
      | bytes tail =>
        cases hr : c.regex tail with
        | true =>
          rw [admitIdentified_firstLine c m now ov id p tail hs hv hr] at h
          obtain ⟨h1, h2⟩ := ok_pair_inj _ _ _ _ h
          subst h1; subst h2
          exact AdmitStep.firstLine p tail hs hv hr
        | false =>
          cases hp : mapGet p.msg.Message c.msgKey with
          | none => simp [admitIdentified, hs, hv, assertBytes, hr, hp] at h
          | some w =>
            cases w with
            | bytes cur =>
              rw [admitIdentified_concat c m now ov id p cur tail hs hv hr hp] at h
              by_cases hlen : ((cur ++ [10] ++ appended ov tail).length : Int) ≥ c.maxLen
              · rw [if_pos hlen, mapDel_mapSet] at h
                obtain ⟨h1, h2⟩ := ok_pair_inj _ _ _ _ h
                subst h1; subst h2
                exact AdmitStep.concatFlush p cur tail hs hp hv hr hlen
              · rw [if_neg hlen] at h
                obtain ⟨h1, h2⟩ := ok_pair_inj _ _ _ _ h
                subst h1; subst h2
                exact AdmitStep.concatKeep p cur tail hs hp hv hr hlen
            | str x => simp [admitIdentified, hs, hv, assertBytes, hr, hp] at h
            | other x => simp [admitIdentified, hs, hv, assertBytes, hr, hp] at h
            | nil => simp [admitIdentified, hs, hv, assertBytes, hr, hp] at h
      | str x => simp [admitIdentified, hs, hv, assertBytes] at h
      | other x => simp [admitIdentified, hs, hv, assertBytes] at h
      | nil => simp [admitIdentified, hs, hv, assertBytes] at h

theorem recv_cases (c : Concator) (m : FluentMsg) (now : Time) (ov : Overlap)
    (out : List FluentMsg) (s : Slot) (h : recv c m now ov = Except.ok (out, s)) :
    (identifierOf c m = none ∧ out = [m] ∧ s = c.slot) ∨
    ∃ id, identifierOf c m = some id ∧ AdmitStep c m now id ov out s := by
  cases hid : identifierOf c m with
  | some id =>
    rw [recv_of_identifier c m now ov id hid] at h
    exact Or.inr ⟨id, rfl, admitIdentified_admitStep c m now ov id out s h⟩
  | none =>
    by_cases hnil : mapGet m.Message c.identifier = some Value.nil
    · simp [recv, hnil, typeString] at h
    · rw [recv_of_no_identifier c m now ov hid hnil] at h
      have h1 := ok_inj _ _ h
      simp only [Prod.mk.injEq] at h1
      exact Or.inl ⟨rfl, h1.1.symm, h1.2.symm⟩

/-! ## Type assertions and slot keys -/

theorem admitIdentified_total (c : Concator) (m : FluentMsg) (now : Time) (ov : Overlap) (id : GoString)
    (h : SlotOk c.msgKey c.slot) (hm : HasBytes c.msgKey m) :
    ∃ r, admitIdentified c m now id ov = Except.ok r := by
  cases hs : mapGet c.slot id with
  | none => exact ⟨_, admitIdentified_new c m now ov id hs hm⟩
  | some p =>
    obtain ⟨tail, htail⟩ := hm
    cases hre : c.regex tail with
    | true => exact ⟨_, admitIdentified_firstLine c m now ov id p tail hs htail hre⟩
    | false =>
      obtain ⟨cur, hcur⟩ := h.2 (id, p) (mapGet_mem c.slot id p hs)
      rw [admitIdentified_concat c m now ov id p cur tail hs htail hre hcur]
      split
      · exact ⟨_, rfl⟩
      · exact ⟨_, rfl⟩

theorem recv_no_typeAssertion (c : Concator) (m : FluentMsg) (now : Time) (ov : Overlap)
    (h : SlotOk c.msgKey c.slot) (hm : identifierOf c m ≠ none → HasBytes c.msgKey m) :
    recv c m now ov ≠ Except.error Panic.typeAssertion := by
  cases hid : identifierOf c m with
  | some id =>
    rw [recv_of_identifier c m now ov id hid]
    obtain ⟨r, hr⟩ := admitIdentified_total c m now ov id h (hm (by simp [hid]))
    rw [hr]
    simp
  | none =>
    by_cases hnil : mapGet m.Message c.identifier = some Value.nil
    · simp [recv, hnil, typeString]
    · rw [recv_of_no_identifier c m now ov hid hnil]
      simp

theorem step_no_typeAssertion (c : Concator) (e : Event)
    (h : SlotOk c.msgKey c.slot)
    (hm : ∀ m ∈ admitted [e], identifierOf c m ≠ none → HasBytes c.msgKey m) :
    step c e ≠ Except.error Panic.typeAssertion := by
  cases e with
  | recv m now ov => exact recv_no_typeAssertion c m now ov h (hm m (by simp [admitted]))
  | idle now =>
    simp only [step]
    rw [idle_spec c now h]
    simp

theorem run_no_typeAssertion (evs : List Event) (c : Concator)
    (h : SlotOk c.msgKey c.slot)
    (hm : ∀ m ∈ admitted evs, identifierOf c m ≠ none → HasBytes c.msgKey m) :
    run c evs ≠ Except.error Panic.typeAssertion := by
  induction evs generalizing c with
  | nil => simp [run]
  | cons e rest ih =>
    rw [admitted_cons] at hm
    have h1 := step_no_typeAssertion c e h (fun m hmem => hm m (List.mem_append_left _ hmem))
    simp only [run]
    cases hs : step c e with
    | error p =>
      cases p with
      | typeAssertion => exact absurd hs h1
      | nilDereference => simp
    | ok r =>
      obtain ⟨o1, s⟩ := r
      have h2 := ih { c with slot := s } (step_slotOk c e o1 s h hs)
        (fun m hmem => hm m (List.mem_append_right _ hmem))
      simp only
      cases hr : run { c with slot := s } rest with
      | error p =>
        cases p with
        | typeAssertion => exact absurd hr h2
        | nilDereference => simp
      | ok r2 => simp

theorem identifierOf_concat (c : Concator) (p : PendingMsg) (m : FluentMsg) (now : Time)
    (cur tail : List Byte) (hne : c.msgKey ≠ c.identifier) :
    identifierOf c (concat c p m now cur tail).msg = identifierOf c p.msg := by
  have h : mapGet (concat c p m now cur tail).msg.Message c.identifier =
      mapGet p.msg.Message c.identifier := by
    simp only [concat]
    rw [mapGet_mapSet_ne _ _ _ _ (Ne.symm hne), mapGet_mapSet_ne _ _ _ _ (Ne.symm hne)]
  simp only [identifierOf, h]

theorem admitStep_keysMatch (c : Concator) (m : FluentMsg) (now : Time) (ov : Overlap) (id : GoString)
    (out : List FluentMsg) (s : Slot)
    (hne : c.msgKey ≠ c.identifier) (hid : identifierOf c m = some id)
    (h : KeysMatch c c.slot) (hr : AdmitStep c m now id ov out s) : KeysMatch c s := by
  have hset : ∀ v : PendingMsg, identifierOf c v.msg = some id →
      KeysMatch c (mapSet c.slot id v) := by
    intro v hv e he
    rcases mem_mapSet _ _ _ e he with h1 | h1
    · exact h e h1
    · subst h1; exact hv
  cases hr with
  | noMsgKey p hs hm => exact h
  | install tail hs hm =>
    rw [← mapSet_of_none _ _ _ hs]
    exact hset _ hid
  | firstLine p tail hs hm hr => exact hset _ hid
  | concatKeep p cur tail hs hp hm hr hlen =>
    apply hset
    rw [identifierOf_concat c p m now cur (appended ov tail) hne]
    exact h (id, p) (mapGet_mem _ _ _ hs)
  | concatFlush p cur tail hs hp hm hr hlen =>
    intro e he
    exact h e (List.mem_of_mem_filter he)

theorem step_keysMatch (c : Concator) (e : Event) (out : List FluentMsg) (s : Slot)
    (hne : c.msgKey ≠ c.identifier) (hok : SlotOk c.msgKey c.slot)
    (h : KeysMatch c c.slot) (hr : step c e = Except.ok (out, s)) : KeysMatch c s := by
  cases e with
  | recv m now ov =>
    rcases recv_cases c m now ov out s hr with ⟨_, _, h3⟩ | ⟨id, hid, hstep⟩
    · rw [h3]; exact h
    · exact admitStep_keysMatch c m now ov id out s hne hid h hstep
  | idle now =>
    simp only [step] at hr
    rw [idle_spec c now hok] at hr
    obtain ⟨_, h2⟩ := ok_pair_inj _ _ _ _ hr
    rw [h2]
    intro x hx
    exact h x (List.mem_of_mem_filter hx)

theorem run_keysMatch (evs : List Event) (c : Concator) (out : List FluentMsg)
    (c1 : Concator)
    (hne : c.msgKey ≠ c.identifier) (hok : SlotOk c.msgKey c.slot)
    (h : KeysMatch c c.slot) (hr : run c evs = Except.ok (out, c1)) :
    KeysMatch c c1.slot := by
  induction evs generalizing c out with
  | nil =>
    simp only [run] at hr
    obtain ⟨_, h2⟩ := ok_pair_inj _ _ _ _ hr
    rw [h2]; exact h
  | cons e rest ih =>
    obtain ⟨o1, s, o2, hs, hrest, _⟩ := run_cons_ok c e rest out c1 hr
    exact ih { c with slot := s } o2 hne (step_slotOk c e o1 s hok hs)
      (step_keysMatch c e o1 s hne hok h hs) hrest

theorem scenarioS1_inputs_typed :
    ∀ m ∈ admitted (scenarioS1 ++ [Event.recv noIdentifierRecord 7000000000 none]),
      identifierOf (scenarioConcator 100) m ≠ none →
        HasBytes (scenarioConcator 100).msgKey m := by
  intro m hm _
  simp only [scenarioS1, admitted, List.cons_append, List.nil_append, List.mem_cons,
    List.mem_singleton, List.not_mem_nil, or_false] at hm
  rcases hm with h | h | h | h | h <;> subst h <;> exact ⟨_, rfl⟩

/-! ## One identifier: order -/

theorem sublist_flatMap {α β : Type} (f : α → List β) (l1 l2 : List α)
    (h : List.Sublist l1 l2) : List.Sublist (l1.flatMap f) (l2.flatMap f) := by
  induction h with
  | slnil => simp
  | cons a _ ih =>
    rw [List.flatMap_cons]
    exact ih.trans (List.sublist_append_right _ _)
  | cons₂ a _ ih =>
    rw [List.flatMap_cons, List.flatMap_cons]
    exact (List.Sublist.refl _).append ih

theorem nodup_no_swap {α : Type} (l : List α) (hn : l.Nodup) (a b : α)
    (h1 : List.Sublist [a, b] l) (h2 : List.Sublist [b, a] l) : False := by
  induction l with
  | nil => simp at h1
  | cons x rest ih =>
    have hx : x ∉ rest := (List.nodup_cons.1 hn).1
    have hn1 : rest.Nodup := (List.nodup_cons.1 hn).2
    rw [List.sublist_cons_iff] at h1 h2
    rcases h1 with h1 | ⟨r1, e1, s1⟩ <;> rcases h2 with h2 | ⟨r2, e2, s2⟩
    · exact ih hn1 h1 h2
    · simp only [List.cons.injEq] at e2
      obtain ⟨rfl, rfl⟩ := e2
      exact hx (h1.subset (by simp))
    · simp only [List.cons.injEq] at e1
      obtain ⟨rfl, rfl⟩ := e1
      exact hx (h2.subset (by simp))
    · simp only [List.cons.injEq] at e1 e2
      obtain ⟨rfl, rfl⟩ := e1
      obtain ⟨rfl, rfl⟩ := e2
      exact hx (List.singleton_sublist.1 s1)

theorem mapGet_single (id : GoString) (s : Slot) (p : PendingMsg)
    (hs : s = [] ∨ ∃ q, s = [(id, q)]) (hg : mapGet s id = some p) : s = [(id, p)] := by
  rcases hs with h | ⟨q, h⟩
  · rw [h] at hg; simp [mapGet] at hg
  · rw [h] at hg
    simp only [mapGet, if_true, Option.some.injEq] at hg
    rw [h, hg]

theorem mapGet_single_none (id : GoString) (s : Slot)
    (hs : s = [] ∨ ∃ q, s = [(id, q)]) (hg : mapGet s id = none) : s = [] := by
  rcases hs with h | ⟨q, h⟩
  · exact h
  · rw [h] at hg; simp [mapGet] at hg

theorem admitStep_single (c : Concator) (m : FluentMsg) (now : Time) (ov : Overlap) (id : GoString)
    (out : List FluentMsg) (s : Slot)
    (hs : c.slot = [] ∨ ∃ q, c.slot = [(id, q)])
    (hb : HasBytes c.msgKey m) (he : NoExtIds m)
    (hr : AdmitStep c m now id ov out s) :
    (s = [] ∨ ∃ q, s = [(id, q)]) ∧
    out.flatMap idsOf ++ slotIds s = slotIds c.slot ++ [m.Id] := by
  have hm : idsOf m = [m.Id] := by
    unfold NoExtIds at he
    simp [idsOf, he]
  cases hr with
  | noMsgKey p hs1 hm1 =>
    obtain ⟨b, hb⟩ := hb
    rw [hm1] at hb
    cases hb
  | install tail hs1 hm1 =>
    rw [mapGet_single_none id c.slot hs hs1]
    exact ⟨Or.inr ⟨_, rfl⟩, by simp [slotIds, hm]⟩
  | firstLine p tail hs1 hm1 hr1 =>
    rw [mapGet_single id c.slot p hs hs1]
    exact ⟨Or.inr ⟨{ msg := m, lastT := now }, by simp [mapSet]⟩,
      by simp [slotIds, mapSet, hm]⟩
  | concatKeep p cur tail hs1 hp hm1 hr1 hlen =>
    rw [mapGet_single id c.slot p hs hs1]
    exact ⟨Or.inr ⟨concat c p m now cur (appended ov tail), by simp [mapSet]⟩,
      by simp [slotIds, mapSet, idsOf_concat]⟩
  | concatFlush p cur tail hs1 hp hm1 hr1 hlen =>
    rw [mapGet_single id c.slot p hs hs1]
    exact ⟨Or.inl (by simp [mapDel]), by simp [slotIds, mapDel, idsOf_concat]⟩

theorem idle_single (c : Concator) (now : Time) (id : GoString)
    (out : List FluentMsg) (s : Slot)
    (hok : SlotOk c.msgKey c.slot)
    (hs : c.slot = [] ∨ ∃ q, c.slot = [(id, q)])
    (hr : idle c now = Except.ok (out, s)) :
    (s = [] ∨ ∃ q, s = [(id, q)]) ∧
    out.flatMap idsOf ++ slotIds s = slotIds c.slot := by
  rw [idle_spec c now hok] at hr
  obtain ⟨h1, h2⟩ := ok_pair_inj _ _ _ _ hr
  subst h1; subst h2
  rcases hs with h | ⟨q, h⟩
  · rw [h]; simp [slotIds]
  · rw [h]
    cases ht : timedOut now q <;> simp [List.filter_cons, ht, slotIds]

theorem step_single (c : Concator) (e : Event) (id : GoString)
    (out : List FluentMsg) (s : Slot)
    (hok : SlotOk c.msgKey c.slot)
    (hs : c.slot = [] ∨ ∃ q, c.slot = [(id, q)])
    (hin : ∀ m ∈ admitted [e], identifierOf c m = some id ∧ HasBytes c.msgKey m ∧ NoExtIds m)
    (hr : step c e = Except.ok (out, s)) :
    (s = [] ∨ ∃ q, s = [(id, q)]) ∧
    out.flatMap idsOf ++ slotIds s = slotIds c.slot ++ (admitted [e]).map FluentMsg.Id := by
  cases e with
  | recv m now ov =>
    obtain ⟨hid, hb, he⟩ := hin m (by simp [admitted])
    rcases recv_cases c m now ov out s hr with ⟨h1, _, _⟩ | ⟨id1, hid1, hstep⟩
    · rw [hid] at h1; cases h1
    · rw [hid] at hid1
      simp only [Option.some.injEq] at hid1
      subst hid1
      simpa [admitted] using admitStep_single c m now ov id out s hs hb he hstep
  | idle now =>
    simpa [admitted] using idle_single c now id out s hok hs hr

theorem run_single (evs : List Event) (c : Concator) (id : GoString)
    (out : List FluentMsg) (c1 : Concator)
    (hok : SlotOk c.msgKey c.slot)
    (hs : c.slot = [] ∨ ∃ q, c.slot = [(id, q)])
    (hin : ∀ m ∈ admitted evs, identifierOf c m = some id ∧ HasBytes c.msgKey m ∧ NoExtIds m)
    (hr : run c evs = Except.ok (out, c1)) :
    out.flatMap idsOf ++ slotIds c1.slot =
      slotIds c.slot ++ (admitted evs).map FluentMsg.Id := by
  induction evs generalizing c out with
  | nil =>
    simp only [run] at hr
    obtain ⟨h1, h2⟩ := ok_pair_inj _ _ _ _ hr
    subst h1; subst h2
    simp [admitted]
  | cons e rest ih =>
    obtain ⟨o1, s, o2, hstep, hrest, hout⟩ := run_cons_ok c e rest out c1 hr
    subst hout
    rw [admitted_cons] at hin ⊢
    have h1 := step_single c e id o1 s hok hs
      (fun m hm => hin m (List.mem_append_left _ hm)) hstep
    have h2 := ih { c with slot := s } o2 (step_slotOk c e o1 s hok hstep) h1.1
      (fun m hm => hin m (List.mem_append_right _ hm)) hrest
    simp only [List.flatMap_append, List.map_append, List.append_assoc]
    rw [h2, ← List.append_assoc, h1.2, List.append_assoc]

theorem scenarioS1_inputs_single :
    ∀ m ∈ admitted scenarioS1,
      identifierOf (scenarioConcator 100) m = some (ascii "a") ∧
      HasBytes (scenarioConcator 100).msgKey m ∧ NoExtIds m := by
  intro m hm
  simp only [scenarioS1, admitted, List.mem_cons, List.mem_singleton, List.not_mem_nil,
    or_false] at hm
  rcases hm with h | h | h | h <;> subst h <;> exact ⟨rfl, ⟨_, rfl⟩, rfl⟩

/-! ## Lemmas on payload lengths -/

theorem textAt_of_mapGet (key : GoString) (m : FluentMsg) (b : List Byte)
    (h : mapGet m.Message key = some (Value.bytes b)) : textAt key m = b := by
  simp [textAt, h]

theorem appended_length (ov : Overlap) (tail : List Byte) :
    (appended ov tail).length = tail.length := by
  cases ov <;> simp [appended]

theorem fragmentsText_snoc (key : GoString) (frags : List FluentMsg) (m : FluentMsg) :
    fragmentsText key (frags ++ [m]) = fragmentsText key frags ++ 10 :: textAt key m := by
  simp [fragmentsText]

theorem textParts_mono (ex : Prop) (key : GoString) (ins more : List FluentMsg)
    (r head : FluentMsg) (frags : List FluentMsg) (h : TextParts ex key ins r head frags) :
    TextParts ex key (ins ++ more) r head frags :=
  ⟨List.mem_append_left _ h.1, fun f hf => List.mem_append_left _ (h.2.1 f hf), h.2.2⟩

theorem pendingBound_mono (ex : Prop) (key : GoString) (maxLen : Int)
    (ins more : List FluentMsg) (r : FluentMsg) (h : PendingBound ex key maxLen ins r) :
    PendingBound ex key maxLen (ins ++ more) r := by
  obtain ⟨head, frags, h1, h2⟩ := h
  exact ⟨head, frags, textParts_mono ex key ins more r head frags h1, h2⟩

theorem emittedBound_mono (ex : Prop) (key : GoString) (maxLen : Int)
    (ins more : List FluentMsg) (r : FluentMsg) (h : EmittedBound ex key maxLen ins r) :
    EmittedBound ex key maxLen (ins ++ more) r := by
  obtain ⟨head, frags, h1, h2⟩ := h
  exact ⟨head, frags, textParts_mono ex key ins more r head frags h1, h2⟩

theorem textParts_input (ex : Prop) (key : GoString) (ins : List FluentMsg) (m : FluentMsg)
    (hmem : m ∈ ins) (hb : HasBytes key m) : TextParts ex key ins m m [] := by
  obtain ⟨b, hb⟩ := hb
  refine ⟨hmem, by simp, rfl, b, hb, ?_, fun _ => ?_⟩ <;>
    simp [fragmentsText, textAt, hb]

theorem pendingBound_input (ex : Prop) (key : GoString) (maxLen : Int) (ins : List FluentMsg)
    (m : FluentMsg) (hmem : m ∈ ins) (hb : HasBytes key m) :
    PendingBound ex key maxLen ins m :=
  ⟨m, [], textParts_input ex key ins m hmem hb, Or.inl rfl⟩

theorem emittedBound_of_pending (ex : Prop) (key : GoString) (maxLen : Int)
    (ins : List FluentMsg) (r : FluentMsg) (h : PendingBound ex key maxLen ins r) :
    EmittedBound ex key maxLen ins r := by
  obtain ⟨head, frags, h1, h2⟩ := h
  refine ⟨head, frags, h1, ?_⟩
  intro hlt
  rcases h2 with h2 | h2
  · subst h2
    obtain ⟨_, _, _, b, hb, hl, _⟩ := h1
    have ht : (textAt key r).length = (textAt key head).length := by
      rw [textAt_of_mapGet key r _ hb, hl]
      simp [fragmentsText]
    simp only [List.getLast?_nil, Option.getD_none, ht]
    omega
  · omega

theorem textParts_concat (ex : Prop) (ins : List FluentMsg) (c : Concator) (p : PendingMsg)
    (m : FluentMsg) (now : Time) (ov : Overlap) (cur tail : List Byte) (head : FluentMsg)
    (frags : List FluentMsg)
    (h : TextParts ex c.msgKey ins p.msg head frags)
    (hov : ex → ov = none)
    (hp : mapGet p.msg.Message c.msgKey = some (Value.bytes cur))
    (hm : mapGet m.Message c.msgKey = some (Value.bytes tail)) :
    TextParts ex c.msgKey (ins ++ [m]) (concat c p m now cur (appended ov tail)).msg head
      (frags ++ [m]) := by
  obtain ⟨h1, h2, h3, b, h5, h6, h7⟩ := h
  rw [hp] at h5
  simp only [Option.some.injEq, Value.bytes.injEq] at h5
  subst h5
  refine ⟨List.mem_append_left _ h1, ?_, h3, _, mapGet_concat c p m now cur _, ?_, ?_⟩
  · intro f hf
    rcases List.mem_append.1 hf with hf1 | hf1
    · exact List.mem_append_left _ (h2 f hf1)
    · exact List.mem_append_right _ hf1
  · rw [fragmentsText_snoc, textAt_of_mapGet _ _ _ hm]
    simp only [List.length_append, List.length_cons, List.length_nil, appended_length] at h6 ⊢
    omega
  · intro hex
    rw [hov hex, h7 hex, fragmentsText_snoc, textAt_of_mapGet _ _ _ hm]
    simp [appended]

theorem emittedBound_concat (ex : Prop) (ins : List FluentMsg) (c : Concator) (p : PendingMsg)
    (m : FluentMsg) (now : Time) (ov : Overlap) (cur tail : List Byte)
    (h : PendingBound ex c.msgKey c.maxLen ins p.msg)
    (hov : ex → ov = none)
    (hp : mapGet p.msg.Message c.msgKey = some (Value.bytes cur))
    (hm : mapGet m.Message c.msgKey = some (Value.bytes tail)) :
    EmittedBound ex c.msgKey c.maxLen (ins ++ [m])
      (concat c p m now cur (appended ov tail)).msg := by
  obtain ⟨head, frags, h1, h2⟩ := h
  refine ⟨head, frags ++ [m],
    textParts_concat ex ins c p m now ov cur tail head frags h1 hov hp hm, ?_⟩
  intro hlt
  have ht : textAt c.msgKey (concat c p m now cur (appended ov tail)).msg =
      cur ++ [10] ++ appended ov tail :=
    textAt_of_mapGet _ _ _ (mapGet_concat c p m now cur _)
  have htm : textAt c.msgKey m = tail := textAt_of_mapGet _ _ _ hm
  have htp : textAt c.msgKey p.msg = cur := textAt_of_mapGet _ _ _ hp
  have hcur : (cur.length : Int) < c.maxLen := by
    rcases h2 with h2 | h2
    · subst h2
      obtain ⟨_, _, _, b, h5, h6, _⟩ := h1
      rw [hp] at h5
      simp only [Option.some.injEq, Value.bytes.injEq] at h5
      subst h5
      rw [h6]
      simpa [fragmentsText] using hlt
    · rw [htp] at h2; exact h2
  have hl : (frags ++ [m]).getLast? = some m := by simp
  rw [hl, Option.getD_some, ht, htm]
  simp only [List.length_append, List.length_singleton, appended_length, Nat.cast_add,
    Nat.cast_one]
  omega

theorem pendingBound_concat (ex : Prop) (ins : List FluentMsg) (c : Concator) (p : PendingMsg)
    (m : FluentMsg) (now : Time) (ov : Overlap) (cur tail : List Byte)
    (h : PendingBound ex c.msgKey c.maxLen ins p.msg)
    (hov : ex → ov = none)
    (hp : mapGet p.msg.Message c.msgKey = some (Value.bytes cur))
    (hm : mapGet m.Message c.msgKey = some (Value.bytes tail))
    (hlen : ¬ ((cur ++ [10] ++ appended ov tail).length : Int) ≥ c.maxLen) :
    PendingBound ex c.msgKey c.maxLen (ins ++ [m])
      (concat c p m now cur (appended ov tail)).msg := by
  obtain ⟨head, frags, h1, _⟩ := h
  refine ⟨head, frags ++ [m],
    textParts_concat ex ins c p m now ov cur tail head frags h1 hov hp hm, ?_⟩
  right
  rw [textAt_of_mapGet _ _ _ (mapGet_concat c p m now cur _)]
  omega

theorem admitStep_bound (ex : Prop) (ins : List FluentMsg) (c : Concator) (m : FluentMsg)
    (now : Time) (ov : Overlap) (id : GoString) (out : List FluentMsg) (s : Slot)
    (h : ∀ e ∈ c.slot, PendingBound ex c.msgKey c.maxLen ins e.2.msg)
    (hov : ex → ov = none)
    (hb : HasBytes c.msgKey m)
    (hr : AdmitStep c m now id ov out s) :
    (∀ r ∈ out, EmittedBound ex c.msgKey c.maxLen (ins ++ [m]) r) ∧
    (∀ e ∈ s, PendingBound ex c.msgKey c.maxLen (ins ++ [m]) e.2.msg) := by
  have hold : ∀ e ∈ c.slot, PendingBound ex c.msgKey c.maxLen (ins ++ [m]) e.2.msg :=
    fun e he1 => pendingBound_mono ex _ _ ins [m] _ (h e he1)
  have hnew : PendingBound ex c.msgKey c.maxLen (ins ++ [m]) m :=
    pendingBound_input ex _ _ _ m (by simp) hb
  have hset : ∀ v : PendingMsg, PendingBound ex c.msgKey c.maxLen (ins ++ [m]) v.msg →
      ∀ e ∈ mapSet c.slot id v, PendingBound ex c.msgKey c.maxLen (ins ++ [m]) e.2.msg := by
    intro v hv e he1
    rcases mem_mapSet _ _ _ e he1 with h1 | h1
    · exact hold e h1
    · subst h1; exact hv
  cases hr with
  | noMsgKey p hs hm =>
    refine ⟨?_, hold⟩
    intro r hr1
    simp only [List.mem_singleton] at hr1
    subst hr1
    exact emittedBound_of_pending ex _ _ _ _ hnew
  | install tail hs hm =>
    rw [← mapSet_of_none _ _ _ hs]
    exact ⟨by simp, hset _ hnew⟩
  | firstLine p tail hs hm hr1 =>
    refine ⟨?_, hset _ hnew⟩
    intro r hr2
    simp only [List.mem_singleton] at hr2
    subst hr2
    exact emittedBound_of_pending ex _ _ _ _ (hold (id, p) (mapGet_mem _ _ _ hs))
  | concatKeep p cur tail hs hp hm hr1 hlen =>
    exact ⟨by simp, hset _ (pendingBound_concat ex ins c p m now ov cur tail
      (h (id, p) (mapGet_mem _ _ _ hs)) hov hp hm hlen)⟩
  | concatFlush p cur tail hs hp hm hr1 hlen =>
    refine ⟨?_, fun e he => hold e (List.mem_of_mem_filter he)⟩
    intro r hr2
    simp only [List.mem_singleton] at hr2
    subst hr2
    exact emittedBound_concat ex ins c p m now ov cur tail
      (h (id, p) (mapGet_mem _ _ _ hs)) hov hp hm

theorem step_bound (ex : Prop) (ins : List FluentMsg) (c : Concator) (e : Event)
    (out : List FluentMsg) (s : Slot)
    (hok : SlotOk c.msgKey c.slot)
    (h : ∀ e ∈ c.slot, PendingBound ex c.msgKey c.maxLen ins e.2.msg)
    (hns : ex → NoSharing e)
    (hin : ∀ m ∈ admitted [e], HasBytes c.msgKey m)
    (hr : step c e = Except.ok (out, s)) :
    (∀ r ∈ out, EmittedBound ex c.msgKey c.maxLen (ins ++ admitted [e]) r) ∧
    (∀ x ∈ s, PendingBound ex c.msgKey c.maxLen (ins ++ admitted [e]) x.2.msg) := by
  cases e with
  | recv m now ov =>
    have hb := hin m (by simp [admitted])
    rcases recv_cases c m now ov out s hr with ⟨_, h2, h3⟩ | ⟨id, _, hstep⟩
    · subst h2; subst h3
      refine ⟨?_, fun x hx => pendingBound_mono ex _ _ ins [m] _ (h x hx)⟩
      intro r hr1
      simp only [List.mem_singleton] at hr1
      subst hr1
      exact emittedBound_of_pending ex _ _ _ _
        (pendingBound_input ex _ _ _ r (by simp [admitted]) hb)
    · exact admitStep_bound ex ins c m now ov id out s h hns hb hstep
  | idle now =>
    simp only [step] at hr
    rw [idle_spec c now hok] at hr
    obtain ⟨h1, h2⟩ := ok_pair_inj _ _ _ _ hr
    subst h1; subst h2
    simp only [admitted, List.append_nil]
    refine ⟨?_, fun x hx => h x (List.mem_of_mem_filter hx)⟩
    intro r hr1
    simp only [List.mem_map, List.mem_filter] at hr1
    obtain ⟨x, ⟨hx, _⟩, hxr⟩ := hr1
    rw [← hxr]
    exact emittedBound_of_pending ex _ _ _ _ (h x hx)

theorem run_bound (ex : Prop) (evs : List Event) (ins : List FluentMsg) (c : Concator)
    (out : List FluentMsg) (c1 : Concator)
    (hok : SlotOk c.msgKey c.slot)
    (h : ∀ e ∈ c.slot, PendingBound ex c.msgKey c.maxLen ins e.2.msg)
    (hns : ex → ∀ e ∈ evs, NoSharing e)
    (hin : ∀ m ∈ admitted evs, HasBytes c.msgKey m)
    (hr : run c evs = Except.ok (out, c1)) :
    ∀ r ∈ out, EmittedBound ex c.msgKey c.maxLen (ins ++ admitted evs) r := by
  induction evs generalizing c out ins with
  | nil =>
    simp only [run] at hr
    obtain ⟨h1, _⟩ := ok_pair_inj _ _ _ _ hr
    subst h1
    simp
  | cons e rest ih =>
    obtain ⟨o1, s, o2, hs, hrest, hout⟩ := run_cons_ok c e rest out c1 hr
    subst hout
    rw [admitted_cons] at hin ⊢
    have h1 := step_bound ex ins c e o1 s hok h
      (fun hex => hns hex e (List.mem_cons_self _ _))
      (fun m hm => hin m (List.mem_append_left _ hm)) hs
    have h2 := ih (ins ++ admitted [e]) { c with slot := s } o2
      (step_slotOk c e o1 s hok hs) h1.2
      (fun hex x hx => hns hex x (List.mem_cons_of_mem _ hx))
      (fun m hm => hin m (List.mem_append_right _ hm)) hrest
    intro r hr1
    rcases List.mem_append.1 hr1 with hr2 | hr2
    · have := emittedBound_mono ex c.msgKey c.maxLen _ (admitted rest) r (h1.1 r hr2)
      simpa [List.append_assoc] using this
    · have := h2 r hr2
      simpa [List.append_assoc] using this

theorem scenarioS1_inputs_bytes :
    ∀ m ∈ admitted scenarioS1, HasBytes (scenarioConcator 100).msgKey m :=
  fun m hm => (scenarioS1_inputs m hm).1

/-! ## Lemmas on independent identifiers -/

theorem interleave_nil_right {α : Type} (xs : List α) : Interleave xs [] xs := by
  induction xs with
  | nil => exact Interleave.nil
  | cons x rest ih => exact Interleave.left x ih

theorem interleave_nil_left {α : Type} (ys : List α) : Interleave [] ys ys := by
  induction ys with
  | nil => exact Interleave.nil
  | cons y rest ih => exact Interleave.right y ih

theorem interleave_append {α : Type} (x1 y1 z1 x2 y2 z2 : List α)
    (h1 : Interleave x1 y1 z1) (h2 : Interleave x2 y2 z2) :
    Interleave (x1 ++ x2) (y1 ++ y2) (z1 ++ z2) := by
  induction h1 with
  | nil => simpa using h2
  | left x _ ih => exact Interleave.left x ih
  | right y _ ih => exact Interleave.right y ih

theorem interleave_map {α β : Type} (f : α → β) (xs ys zs : List α)
    (h : Interleave xs ys zs) : Interleave (xs.map f) (ys.map f) (zs.map f) := by
  induction h with
  | nil => exact Interleave.nil
  | left x _ ih => exact Interleave.left (f x) ih
  | right y _ ih => exact Interleave.right (f y) ih

theorem interleave_filter {α : Type} (p : α → Bool) (xs ys zs : List α)
    (h : Interleave xs ys zs) :
    Interleave (xs.filter p) (ys.filter p) (zs.filter p) := by
  induction h with
  | nil => exact Interleave.nil
  | left x _ ih =>
    cases hp : p x
    · simpa [List.filter_cons, hp] using ih
    · simpa [List.filter_cons, hp] using Interleave.left x ih
  | right y _ ih =>
    cases hp : p y
    · simpa [List.filter_cons, hp] using ih
    · simpa [List.filter_cons, hp] using Interleave.right y ih

theorem interleave_slotOf (a b : GoString) (hab : a ≠ b) (s : Slot) (h : KeysIn a b s) :
    Interleave (slotOf a s) (slotOf b s) s := by
  induction s with
  | nil => exact Interleave.nil
  | cons e rest ih =>
    have hrest : KeysIn a b rest := fun x hx => h x (List.mem_cons_of_mem _ hx)
    rcases h e (List.mem_cons_self _ _) with he | he
    · have hne : ¬ e.1 = b := fun hb => hab (he.symm.trans hb)
      simpa [slotOf, List.filter_cons, he, hne, hab] using Interleave.left e (ih hrest)
    · have hne : ¬ e.1 = a := fun ha => hab (ha.symm.trans he)
      simpa [slotOf, List.filter_cons, he, hne, Ne.symm hab] using
        Interleave.right e (ih hrest)

theorem mapGet_slotOf (id : GoString) (s : Slot) :
    mapGet (slotOf id s) id = mapGet s id := by
  induction s with
  | nil => rfl
  | cons e rest ih =>
    obtain ⟨k, v⟩ := e
    by_cases hk : k = id
    · simp [slotOf, List.filter_cons, mapGet, hk]
    · simp only [slotOf] at ih
      simp [slotOf, List.filter_cons, mapGet, hk, ih]

theorem slotOf_mapSet_same (id : GoString) (s : Slot) (v : PendingMsg) :
    slotOf id (mapSet s id v) = mapSet (slotOf id s) id v := by
  induction s with
  | nil => simp [slotOf, mapSet]
  | cons e rest ih =>
    obtain ⟨k, w⟩ := e
    by_cases hk : k = id
    · simp [slotOf, List.filter_cons, mapSet, hk]
    · simp only [slotOf] at ih
      simp [slotOf, List.filter_cons, mapSet, hk, ih]

theorem slotOf_mapSet_other (id other : GoString) (hne : other ≠ id) (s : Slot)
    (v : PendingMsg) : slotOf other (mapSet s id v) = slotOf other s := by
  induction s with
  | nil =>
    have h : ¬ id = other := fun h => hne h.symm
    simp [slotOf, mapSet, h]
  | cons e rest ih =>
    obtain ⟨k, w⟩ := e
    by_cases hk : k = id
    · subst hk
      have h : ¬ k = other := fun h => hne h.symm
      simp [slotOf, List.filter_cons, mapSet, h]
    · simp only [slotOf] at ih
      by_cases hk1 : k = other
      · subst hk1
        simp [slotOf, List.filter_cons, mapSet, hk, ih]
      · simp [slotOf, List.filter_cons, mapSet, hk, hk1, ih]

theorem slotOf_mapDel_same (id : GoString) (s : Slot) :
    slotOf id (mapDel s id) = mapDel (slotOf id s) id := by
  simp only [slotOf, mapDel, List.filter_filter]
  apply List.filter_congr
  intro x _
  exact Bool.and_comm _ _

theorem slotOf_mapDel_other (id other : GoString) (hne : other ≠ id) (s : Slot) :
    slotOf other (mapDel s id) = slotOf other s := by
  simp only [slotOf, mapDel, List.filter_filter]
  apply List.filter_congr
  intro x _
  by_cases hx : x.1 = other
  · have : ¬ x.1 = id := fun h => hne (hx.symm.trans h)
    simp [hx, this]
    exact hne
  · simp [hx]

theorem slotOf_filter (id : GoString) (s : Slot) (p : GoString × PendingMsg → Bool) :
    slotOf id (s.filter p) = (slotOf id s).filter p := by
  simp only [slotOf, List.filter_filter]
  apply List.filter_congr
  intro x _
  exact Bool.and_comm _ _

theorem admitStep_project (c : Concator) (m : FluentMsg) (now : Time) (ov : Overlap) (id : GoString)
    (out : List FluentMsg) (s : Slot) (hr : AdmitStep c m now id ov out s) :
    admitIdentified { c with slot := slotOf id c.slot } m now id ov =
      Except.ok (out, slotOf id s) ∧
    ∀ other, other ≠ id → slotOf other s = slotOf other c.slot := by
  cases hr with
  | noMsgKey p hs hm =>
    refine ⟨?_, fun _ _ => rfl⟩
    exact admitIdentified_no_msgKey { c with slot := slotOf id c.slot } m now ov id p
      ((mapGet_slotOf id c.slot).trans hs) hm
  | install tail hs hm =>
    have hs1 : mapGet (slotOf id c.slot) id = none := (mapGet_slotOf id c.slot).trans hs
    refine ⟨?_, ?_⟩
    · rw [admitIdentified_new { c with slot := slotOf id c.slot } m now ov id hs1 ⟨tail, hm⟩]
      rw [mapSet_of_none _ _ _ hs1]
      simp [slotOf]
    · intro other hne
      have h : ¬ id = other := fun h => hne h.symm
      simp [slotOf, h]
  | firstLine p tail hs hm hr1 =>
    refine ⟨?_, fun other hne => slotOf_mapSet_other id other hne _ _⟩
    rw [admitIdentified_firstLine { c with slot := slotOf id c.slot } m now ov id p tail
      ((mapGet_slotOf id c.slot).trans hs) hm hr1]
    rw [slotOf_mapSet_same]
  | concatKeep p cur tail hs hp hm hr1 hlen =>
    refine ⟨?_, fun other hne => slotOf_mapSet_other id other hne _ _⟩
    rw [admitIdentified_concat { c with slot := slotOf id c.slot } m now ov id p cur tail
      ((mapGet_slotOf id c.slot).trans hs) hm hr1 hp]
    rw [if_neg hlen, slotOf_mapSet_same]
    rfl
  | concatFlush p cur tail hs hp hm hr1 hlen =>
    refine ⟨?_, fun other hne => slotOf_mapDel_other id other hne _⟩
    rw [admitIdentified_concat { c with slot := slotOf id c.slot } m now ov id p cur tail
      ((mapGet_slotOf id c.slot).trans hs) hm hr1 hp]
    rw [if_pos hlen, mapDel_mapSet, slotOf_mapDel_same]
    rfl

theorem admitStep_keysIn (a b : GoString) (c : Concator) (m : FluentMsg) (now : Time) (ov : Overlap)
    (id : GoString) (out : List FluentMsg) (s : Slot)
    (hid : id = a ∨ id = b) (h : KeysIn a b c.slot) (hr : AdmitStep c m now id ov out s) :
    KeysIn a b s := by
  have hset : ∀ v : PendingMsg, KeysIn a b (mapSet c.slot id v) := by
    intro v e he
    rcases mem_mapSet _ _ _ e he with h1 | h1
    · exact h e h1
    · subst h1; exact hid
  cases hr with
  | noMsgKey p hs hm => exact h
  | install tail hs hm =>
    rw [← mapSet_of_none _ _ _ hs]
    exact hset _
  | firstLine p tail hs hm hr1 => exact hset _
  | concatKeep p cur tail hs hp hm hr1 hlen => exact hset _
  | concatFlush p cur tail hs hp hm hr1 hlen =>
    exact fun e he => h e (List.mem_of_mem_filter he)

theorem eventsFor_recv_same (c : Concator) (id : GoString) (m : FluentMsg) (now : Time)
    (ov : Overlap) (rest : List Event) (h : identifierOf c m = some id) :
    eventsFor c id (Event.recv m now ov :: rest) =
      Event.recv m now ov :: eventsFor c id rest := by
  simp [eventsFor, h]

theorem eventsFor_recv_other (c : Concator) (id other : GoString) (m : FluentMsg)
    (now : Time) (ov : Overlap) (rest : List Event) (h : identifierOf c m = some id)
    (hne : other ≠ id) :
    eventsFor c other (Event.recv m now ov :: rest) = eventsFor c other rest := by
  have h1 : ¬ id = other := fun h1 => hne h1.symm
  simp [eventsFor, h, h1]

theorem run_cons_of_ok (c : Concator) (e : Event) (rest : List Event)
    (o1 : List FluentMsg) (s : Slot) (o2 : List FluentMsg) (c1 : Concator)
    (hs : step c e = Except.ok (o1, s))
    (hr : run { c with slot := s } rest = Except.ok (o2, c1)) :
    run c (e :: rest) = Except.ok (o1 ++ o2, c1) := by
  simp [run, hs, hr]

theorem recv_project (c : Concator) (m : FluentMsg) (now : Time) (ov : Overlap) (id : GoString)
    (out : List FluentMsg) (s : Slot)
    (hid : identifierOf c m = some id) (hr : recv c m now ov = Except.ok (out, s)) :
    recv { c with slot := slotOf id c.slot } m now ov = Except.ok (out, slotOf id s) ∧
    (∀ other, other ≠ id → slotOf other s = slotOf other c.slot) ∧
    (∀ a b, id = a ∨ id = b → KeysIn a b c.slot → KeysIn a b s) := by
  rcases recv_cases c m now ov out s hr with ⟨h1, _, _⟩ | ⟨id1, hid1, hstep⟩
  · rw [hid] at h1; cases h1
  · rw [hid] at hid1
    simp only [Option.some.injEq] at hid1
    subst hid1
    have hp := admitStep_project c m now ov id out s hstep
    refine ⟨?_, hp.2, fun a b hab hk => admitStep_keysIn a b c m now ov id out s hab hk hstep⟩
    have hid2 : identifierOf { c with slot := slotOf id c.slot } m = some id := hid
    rw [recv_of_identifier _ m now ov id hid2]
    exact hp.1

theorem idle_project (c : Concator) (now : Time) (a b : GoString) (hab : a ≠ b)
    (out : List FluentMsg) (s : Slot)
    (hok : SlotOk c.msgKey c.slot) (hk : KeysIn a b c.slot)
    (hr : idle c now = Except.ok (out, s)) :
    ∃ oA oB,
      idle { c with slot := slotOf a c.slot } now = Except.ok (oA, slotOf a s) ∧
      idle { c with slot := slotOf b c.slot } now = Except.ok (oB, slotOf b s) ∧
      Interleave oA oB out ∧ KeysIn a b s := by
  rw [idle_spec c now hok] at hr
  obtain ⟨h1, h2⟩ := ok_pair_inj _ _ _ _ hr
  subst h1; subst h2
  have hokA : SlotOk c.msgKey (slotOf a c.slot) := slotOk_filter _ _ _ hok
  have hokB : SlotOk c.msgKey (slotOf b c.slot) := slotOk_filter _ _ _ hok
  refine ⟨((slotOf a c.slot).filter (fun e => timedOut now e.2)).map (fun e => e.2.msg),
    ((slotOf b c.slot).filter (fun e => timedOut now e.2)).map (fun e => e.2.msg),
    ?_, ?_, ?_, fun e he => hk e (List.mem_of_mem_filter he)⟩
  · rw [slotOf_filter]
    exact idle_spec { c with slot := slotOf a c.slot } now hokA
  · rw [slotOf_filter]
    exact idle_spec { c with slot := slotOf b c.slot } now hokB
  · exact interleave_map _ _ _ _
      (interleave_filter _ _ _ _ (interleave_slotOf a b hab c.slot hk))

theorem eventsFor_slot (c : Concator) (s : Slot) (id : GoString) (evs : List Event) :
    eventsFor { c with slot := s } id evs = eventsFor c id evs := by
  induction evs with
  | nil => rfl
  | cons e rest ih =>
    cases e with
    | recv m now ov =>
      have h : identifierOf { c with slot := s } m = identifierOf c m := rfl
      simp only [eventsFor, h, ih]
    | idle now => simp only [eventsFor, ih]

theorem run_split (evs : List Event) (a b : GoString) (hab : a ≠ b) (c : Concator)
    (out : List FluentMsg) (c1 : Concator)
    (hok : SlotOk c.msgKey c.slot) (hk : KeysIn a b c.slot)
    (hin : ∀ m ∈ admitted evs, identifierOf c m = some a ∨ identifierOf c m = some b)
    (hr : run c evs = Except.ok (out, c1)) :
    ∃ outA cA outB cB,
      run { c with slot := slotOf a c.slot } (eventsFor c a evs) = Except.ok (outA, cA) ∧
      run { c with slot := slotOf b c.slot } (eventsFor c b evs) = Except.ok (outB, cB) ∧
      Interleave outA outB out ∧
      cA.slot = slotOf a c1.slot ∧ cB.slot = slotOf b c1.slot := by
  induction evs generalizing c out with
  | nil =>
    simp only [run] at hr
    obtain ⟨h1, h2⟩ := ok_pair_inj _ _ _ _ hr
    subst h1; subst h2
    exact ⟨[], _, [], _, rfl, rfl, Interleave.nil, rfl, rfl⟩
  | cons e rest ih =>
    obtain ⟨o1, s, o2, hs, hrest, hout⟩ := run_cons_ok c e rest out c1 hr
    subst hout
    rw [admitted_cons] at hin
    have hin2 : ∀ m ∈ admitted rest,
        identifierOf { c with slot := s } m = some a ∨
        identifierOf { c with slot := s } m = some b :=
      fun m hm => hin m (List.mem_append_right _ hm)
    have hok2 := step_slotOk c e o1 s hok hs
    cases e with
    | recv m now ov =>
      have hs1 : recv c m now ov = Except.ok (o1, s) := hs
      rcases hin m (List.mem_append_left _ (by simp [admitted])) with hid | hid
      · obtain ⟨hA, hother, hkeys⟩ := recv_project c m now ov a o1 s hid hs1
        obtain ⟨outA, cA, outB, cB, hrA, hrB, hint, hsA, hsB⟩ :=
          ih { c with slot := s } o2 hok2 (hkeys a b (Or.inl rfl) hk) hin2 hrest
        rw [eventsFor_slot] at hrA hrB
        refine ⟨o1 ++ outA, cA, outB, cB, ?_, ?_, ?_, hsA, hsB⟩
        · rw [eventsFor_recv_same c a m now ov rest hid]
          exact run_cons_of_ok _ _ _ o1 (slotOf a s) outA cA hA hrA
        · rw [eventsFor_recv_other c a b m now ov rest hid (Ne.symm hab)]
          rw [← hother b (Ne.symm hab)]
          exact hrB
        · have := interleave_append _ _ _ _ _ _ (interleave_nil_right o1) hint
          simpa using this
      · obtain ⟨hB, hother, hkeys⟩ := recv_project c m now ov b o1 s hid hs1
        obtain ⟨outA, cA, outB, cB, hrA, hrB, hint, hsA, hsB⟩ :=
          ih { c with slot := s } o2 hok2 (hkeys a b (Or.inr rfl) hk) hin2 hrest
        rw [eventsFor_slot] at hrA hrB
        refine ⟨outA, cA, o1 ++ outB, cB, ?_, ?_, ?_, hsA, hsB⟩
        · rw [eventsFor_recv_other c b a m now ov rest hid hab]
          rw [← hother a hab]
          exact hrA
        · rw [eventsFor_recv_same c b m now ov rest hid]
          exact run_cons_of_ok _ _ _ o1 (slotOf b s) outB cB hB hrB
        · have := interleave_append _ _ _ _ _ _ (interleave_nil_left o1) hint
          simpa using this
    | idle now =>
      have hs1 : idle c now = Except.ok (o1, s) := hs
      obtain ⟨oA, oB, hA, hB, hint1, hkeys⟩ := idle_project c now a b hab o1 s hok hk hs1
      obtain ⟨outA, cA, outB, cB, hrA, hrB, hint, hsA, hsB⟩ :=
        ih { c with slot := s } o2 hok2 hkeys hin2 hrest
      rw [eventsFor_slot] at hrA hrB
      refine ⟨oA ++ outA, cA, oB ++ outB, cB, ?_, ?_,
        interleave_append _ _ _ _ _ _ hint1 hint, hsA, hsB⟩
      · exact run_cons_of_ok _ (Event.idle now) _ oA (slotOf a s) outA cA hA hrA
      · exact run_cons_of_ok _ (Event.idle now) _ oB (slotOf b s) outB cB hB hrB

theorem admitted_eventsFor (c : Concator) (id : GoString) (evs : List Event) (m : FluentMsg)
    (h : m ∈ admitted (eventsFor c id evs)) :
    m ∈ admitted evs ∧ identifierOf c m = some id := by
  induction evs with
  | nil => simp [eventsFor, admitted] at h
  | cons e rest ih =>
    cases e with
    | recv m1 now ov =>
      by_cases hid : identifierOf c m1 = some id
      · simp only [eventsFor, hid, if_true, admitted, List.mem_cons] at h ⊢
        rcases h with h | h
        · subst h; exact ⟨Or.inl rfl, hid⟩
        · exact ⟨Or.inr (ih h).1, (ih h).2⟩
      · simp only [eventsFor, hid, if_false] at h
        simp only [admitted, List.mem_cons]
        exact ⟨Or.inr (ih h).1, (ih h).2⟩
    | idle now =>
      simp only [eventsFor, admitted] at h ⊢
      exact ih h

theorem scenarioS6_inputs :
    ∀ m ∈ admitted scenarioS6,
      identifierOf (scenarioConcator 100) m = some (ascii "a") ∨
      identifierOf (scenarioConcator 100) m = some (ascii "b") := by
  intro m hm
  simp only [scenarioS6, admitted, List.mem_cons, List.mem_singleton, List.not_mem_nil,
    or_false] at hm
  rcases hm with h | h | h | h | h <;> subst h
  · exact Or.inl rfl
  · exact Or.inr rfl
  · exact Or.inl rfl
  · exact Or.inr rfl
  · exact Or.inl rfl

theorem scenarioS6_run :
    run (scenarioConcator 100) scenarioS6 =
      Except.ok ([scenarioS1Fused, scenarioS6FusedB], scenarioConcator 100) := by
  rfl

/-! ## The timeout flush -/

theorem mapGet_mapDel_ne {α : Type} (m : List (GoString × α)) (k k1 : GoString)
    (hne : k1 ≠ k) : mapGet (mapDel m k) k1 = mapGet m k1 := by
  induction m with
  | nil => rfl
  | cons e rest ih =>
    obtain ⟨k', v'⟩ := e
    have ih1 := ih
    simp [mapDel] at ih1
    by_cases h : k' = k
    · subst h
      have h1 : ¬ k' = k1 := fun h1 => hne h1.symm
      simp [mapDel, List.filter_cons, mapGet, h1, ih1]
    · by_cases h1 : k' = k1
      · subst h1
        simp [mapDel, List.filter_cons, mapGet, h]
      · simp [mapDel, List.filter_cons, mapGet, h, h1, ih1]

theorem admitStep_other (c : Concator) (m : FluentMsg) (now : Time) (ov : Overlap) (id a : GoString)
    (out : List FluentMsg) (s : Slot) (hne : a ≠ id) (hr : AdmitStep c m now id ov out s) :
    mapGet s a = mapGet c.slot a := by
  cases hr with
  | noMsgKey p hs hm => rfl
  | install tail hs hm =>
    rw [← mapSet_of_none _ _ _ hs]
    exact mapGet_mapSet_ne _ _ _ _ hne
  | firstLine p tail hs hm hr1 => exact mapGet_mapSet_ne _ _ _ _ hne
  | concatKeep p cur tail hs hp hm hr1 hlen => exact mapGet_mapSet_ne _ _ _ _ hne
  | concatFlush p cur tail hs hp hm hr1 hlen => exact mapGet_mapDel_ne _ _ _ hne

theorem scenarioBusy_run :
    run (scenarioConcator 100) scenarioBusy =
      Except.ok ([scenarioRecord "b" "2024-01-01 b1" 11, scenarioRecord "b" "2024-01-01 b2" 12,
        scenarioRecord "b" "2024-01-01 b3" 13],
        { scenarioConcator 100 with slot := scenarioBusySlot }) := by
  rfl

/-! ## Lemmas on the timeout and the timer -/

theorem timedOut_eq (now : Time) (p : PendingMsg) :
    timedOut now p = decide (now - p.lastT > 5000000000) := by
  simp [timedOut, concatTimeoutTs]

theorem idle_retains (c : Concator) (now : Time) (hok : SlotOk c.msgKey c.slot)
    (a : GoString) (P : PendingMsg) (hs : mapGet c.slot a = some P)
    (ht : ¬ now - P.lastT > 5000000000) :
    ∃ out s, idle c now = Except.ok (out, s) ∧ SlotOk c.msgKey s ∧ mapGet s a = some P := by
  refine ⟨_, _, idle_spec c now hok, slotOk_filter _ _ _ hok, ?_⟩
  rw [mapGet_filter c.slot _ hok.1 a P hs]
  simp [timedOut_eq, ht]

theorem idle_emits (c : Concator) (now : Time) (hok : SlotOk c.msgKey c.slot)
    (a : GoString) (P : PendingMsg) (hs : mapGet c.slot a = some P)
    (ht : now - P.lastT > 5000000000) :
    ∃ out s, idle c now = Except.ok (out, s) ∧ P.msg ∈ out ∧ mapGet s a = none := by
  refine ⟨_, _, idle_spec c now hok, ?_, ?_⟩
  · simp only [List.mem_map, List.mem_filter]
    exact ⟨(a, P), ⟨mapGet_mem _ _ _ hs, by simp [timedOut_eq, ht]⟩, rfl⟩
  · rw [mapGet_filter c.slot _ hok.1 a P hs]
    simp [timedOut_eq, ht]

theorem sleep_fst (tm : Timer) : tm.Sleep.1 = tm.waitTs := by
  unfold Timer.Sleep
  split <;> rfl

theorem timerOk_sleep (tm : Timer) (h : TimerOk tm) : TimerOk tm.Sleep.2 := by
  obtain ⟨h1, h2, h3, h4⟩ := h
  unfold Timer.Sleep
  split
  · refine ⟨h1, h2, ?_, ?_⟩
    · simp only [le_min_iff]
      omega
    · simp only [min_le_iff]
      omega
  · exact ⟨h1, h2, h3, h4⟩

theorem timerReachable_ok (tm : Timer) (h : TimerReachable tm) : TimerOk tm := by
  induction h with
  | new => exact ⟨by decide, by decide, by decide, by decide⟩
  | reset t now _ ih =>
    obtain ⟨h1, h2, _, _⟩ := ih
    refine ⟨h1, h2, ?_, ?_⟩ <;> simp only [Timer.Reset] <;> omega
  | sleep t _ ih => exact timerOk_sleep t ih

theorem idleRun_succ (c : Concator) (tm : Timer) (now : Time) (n : Nat)
    (out : List FluentMsg) (s : Slot) (out1 : List FluentMsg)
    (r : Concator × Timer × Time)
    (h1 : idle c now = Except.ok (out, s))
    (h2 : idleRun { c with slot := s } tm.Sleep.2 (now + tm.Sleep.1) n = Except.ok (out1, r)) :
    idleRun c tm now (n + 1) = Except.ok (out ++ out1, r) := by
  simp [idleRun, h1, h2]

theorem idleRun_flush (a : GoString) (P : PendingMsg) (k : Nat) :
    ∀ (c : Concator) (tm : Timer) (now : Time),
      SlotOk c.msgKey c.slot → mapGet c.slot a = some P → TimerOk tm →
      now - P.lastT ≤ 5000000000 → P.lastT + 5000000000 - now ≤ (k : Int) →
      ∃ n out c1 tm1 t, idleRun c tm now n = Except.ok (out, c1, tm1, t) ∧
        SlotOk c1.msgKey c1.slot ∧ mapGet c1.slot a = some P ∧
        5000000000 < t - P.lastT ∧ t - P.lastT ≤ 5000000000 + 500000000 := by
  induction k with
  | zero =>
    intro c tm now hok hs htm hle hk
    obtain ⟨out, s, hidle, hok1, hs1⟩ := idle_retains c now hok a P hs (not_lt.2 hle)
    have hw := sleep_fst tm
    obtain ⟨_, _, h3, h4⟩ := htm
    refine ⟨1, out ++ [], { c with slot := s }, tm.Sleep.2, now + tm.Sleep.1,
      idleRun_succ c tm now 0 out s [] _ hidle rfl, hok1, hs1, ?_, ?_⟩
    · rw [hw]; simp only [Nat.cast_zero] at hk; delta Time at *; omega
    · rw [hw]; delta Time at *; omega
  | succ k ih =>
    intro c tm now hok hs htm hle hk
    obtain ⟨out, s, hidle, hok1, hs1⟩ := idle_retains c now hok a P hs (not_lt.2 hle)
    have hw := sleep_fst tm
    have htm1 := timerOk_sleep tm htm
    obtain ⟨_, _, h3, h4⟩ := htm
    by_cases hnext : now + tm.Sleep.1 - P.lastT > 5000000000
    · refine ⟨1, out ++ [], { c with slot := s }, tm.Sleep.2, now + tm.Sleep.1,
        idleRun_succ c tm now 0 out s [] _ hidle rfl, hok1, hs1, hnext, ?_⟩
      rw [hw]; delta Time at *; omega
    · obtain ⟨n, out1, c1, tm1, t, hrun, hok2, hs2, h5, h6⟩ :=
        ih { c with slot := s } tm.Sleep.2 (now + tm.Sleep.1) hok1 hs1 htm1 (not_lt.1 hnext)
          (by rw [hw]; push_cast at hk; delta Time at *; omega)
      exact ⟨n + 1, out ++ out1, c1, tm1, t,
        idleRun_succ c tm now n out s out1 _ hidle hrun, hok2, hs2, h5, h6⟩

/-! ## Lemmas on the tag filter applied to a pointer -/

theorem FilterPtr_some (f : DefaultFilterCfg) (r : FluentMsg) :
    FilterPtr f (some r) = Except.ok (Filter f r) := by
  unfold FilterPtr Filter tagOf
  cases h1 : f.RemoveEmptyTag <;> cases h2 : f.RemoveUnsupportTag <;>
    cases h3 : decide (r.Tag = []) <;> cases h4 : IsTagInConfigs f r.Tag <;>
    simp [Except.map, h3, h4]

theorem FilterPtr_nil (f : DefaultFilterCfg)
    (h : f.RemoveEmptyTag = true ∨ f.RemoveUnsupportTag = true) :
    FilterPtr f none = Except.error Panic.nilDereference := by
  unfold FilterPtr tagOf
  cases h1 : f.RemoveEmptyTag <;> cases h2 : f.RemoveUnsupportTag <;>
    simp [Except.map, h1, h2] at h ⊢

theorem filter_none_flag (f : DefaultFilterCfg) (r : FluentMsg) (h : Filter f r = none) :
    f.RemoveEmptyTag = true ∨ f.RemoveUnsupportTag = true := by
  unfold Filter at h
  cases h1 : f.RemoveEmptyTag <;> cases h2 : f.RemoveUnsupportTag <;> simp [h1, h2] at h ⊢

/-! ## Lemmas on the scenarios -/

theorem scenarioS1_sharing : ∀ e ∈ scenarioS1, NoSharing e := by
  intro e he
  simp only [scenarioS1, List.mem_cons, List.mem_singleton, List.not_mem_nil, or_false] at he
  rcases he with h | h | h | h | h <;> subst h <;> simp [NoSharing]

theorem mem_eventsFor (c : Concator) (id : GoString) (evs : List Event) (e : Event)
    (h : e ∈ eventsFor c id evs) : e ∈ evs := by
  induction evs with
  | nil => simp [eventsFor] at h
  | cons x rest ih =>
    cases x with
    | recv m now ov =>
      simp only [eventsFor] at h
      split at h
      · rcases List.mem_cons.1 h with h1 | h1
        · rw [h1]; exact List.mem_cons_self _ _
        · exact List.mem_cons_of_mem _ (ih h1)
      · exact List.mem_cons_of_mem _ (ih h)
    | idle now =>
      simp only [eventsFor] at h
      rcases List.mem_cons.1 h with h1 | h1
      · rw [h1]; exact List.mem_cons_self _ _
      · exact List.mem_cons_of_mem _ (ih h1)

theorem scenarioS6_inputs_bytes :
    ∀ m ∈ admitted scenarioS6,
      (identifierOf (scenarioConcator 100) m = some (ascii "a") ∨
        identifierOf (scenarioConcator 100) m = some (ascii "b")) ∧
      HasBytes (scenarioConcator 100).msgKey m := by
  intro m hm
  refine ⟨scenarioS6_inputs m hm, ?_⟩
  simp only [scenarioS6, admitted, List.mem_cons, List.mem_singleton,
    List.not_mem_nil, or_false] at hm
  rcases hm with h | h | h | h | h <;> subst h <;> exact ⟨_, rfl⟩

/-! ## The claims -/

/-- C1: from an empty slot map, when every admitted record carries a `[]byte`
at `msgKey` and arrives without `ExtIds`, the ids carried by the emitted
records (id and `ExtIds`) together with the ids carried by the pending records
are a permutation of the ids of the admitted records: none is lost, none is
duplicated.  The run itself completes unless a record has the nil interface at
the identifier key. -/
theorem run_ids_conserved (c : Concator) (evs : List Event) (h0 : c.slot = [])
    (hin : ∀ m ∈ admitted evs, HasBytes c.msgKey m ∧ NoExtIds m) :
    ((∀ m ∈ admitted evs, mapGet m.Message c.identifier ≠ some Value.nil) →
        ∃ out c1, run c evs = Except.ok (out, c1)) ∧
    ∀ out c1, run c evs = Except.ok (out, c1) →
      List.Perm (out.flatMap idsOf ++ slotIds c1.slot)
        ((admitted evs).map FluentMsg.Id) := by
  have hok : SlotOk c.msgKey c.slot := by rw [h0]; exact slotOk_nil _
  constructor
  · intro hnil
    obtain ⟨⟨out, c1⟩, hr⟩ := run_total evs c hok (fun m hm => ⟨(hin m hm).1, hnil m hm⟩)
    exact ⟨out, c1, hr⟩
  · intro out c1 hr
    have h := run_ids evs c out c1 hok (fun m hm => (hin m hm).2) hr
    rw [h0] at h
    simpa [slotIds] using h

theorem run_ids_conserved_witness :
    (scenarioConcator 100).slot = [] ∧
    (∀ m ∈ admitted scenarioS1,
      HasBytes (scenarioConcator 100).msgKey m ∧ NoExtIds m) ∧
    List.Perm
      ([scenarioS1Fused, scenarioRecord "a" "2024-01-02 next" 4].flatMap idsOf ++
        slotIds (scenarioConcator 100).slot)
      ((admitted scenarioS1).map FluentMsg.Id) :=
  ⟨rfl, scenarioS1_inputs,
    (run_ids_conserved (scenarioConcator 100) scenarioS1 rfl scenarioS1_inputs).2 _ _
      scenarioS1_run⟩

/-- C2 as stated fails when the payload of a received record lies in the spare
capacity of the pending slice (`buf[0:15]` of capacity 25 pending, `buf[15:25]`
received): line 132 writes the newline over byte 0 of the received payload
before line 134 copies it.  Both records carry a `[]byte` at `msgKey` and no
`ExtIds`; the emitted record has the `ExtIds` `[2]` and a payload that is not
the payload of the head, one newline byte and the payload of the record of id
2, so it is not fused from the admitted records. -/
theorem shared_buffer_counterexample :
    (∀ m ∈ admitted scenarioShared,
      HasBytes (scenarioConcator 100).msgKey m ∧ NoExtIds m) ∧
    run (scenarioConcator 100) scenarioShared =
      Except.ok ([scenarioSharedFused], scenarioConcator 100) ∧
    scenarioSharedFused.ExtIds = some [2] ∧
    mapGet scenarioSharedFused.Message (scenarioConcator 100).msgKey ≠
      some (Value.bytes
        (textAt (scenarioConcator 100).msgKey (scenarioRecord "a" "2024-01-01 boom" 1) ++
          [10] ++
          textAt (scenarioConcator 100).msgKey (scenarioRecord "a" "  at foo()" 2))) ∧
    ¬ FusedFrom (scenarioConcator 100).msgKey (admitted scenarioShared)
        scenarioSharedFused := by
  refine ⟨?_, rfl, rfl, by decide, ?_⟩
  · intro m hm
    simp only [scenarioShared, admitted, List.mem_cons, List.mem_singleton,
      List.not_mem_nil, or_false] at hm
    rcases hm with h | h <;> subst h <;> exact ⟨⟨_, rfl⟩, rfl⟩
  · rintro ⟨head, frags, hh, hf, hid, hext, hpay⟩
    simp only [scenarioShared, admitted, List.mem_cons, List.mem_singleton,
      List.not_mem_nil, or_false] at hh hf
    match frags, hf, hext, hpay with
    | [], _, hext, _ => simp [scenarioSharedFused] at hext
    | [f], hf, hext, hpay =>
      have hf1 := hf f (by simp)
      rcases hh with h | h <;> rcases hf1 with h1 | h1 <;> subst h <;> subst h1 <;>
        revert hpay <;> decide
    | _ :: _ :: _, _, hext, _ => simp [scenarioSharedFused] at hext

/-- C2 (amended): from an empty slot map, when every admitted record carries a
`[]byte` at `msgKey`, arrives without `ExtIds`, and has a payload that does not
lie in the spare capacity of the slice pending for its identifier, every
emitted record (in particular every one with a non-empty `ExtIds`) is fused
from admitted records: it has the id of a head record, its `ExtIds` are in
order the ids of admitted fragments, and its payload at `msgKey` is the
original payload of the head followed, for each fragment in that order, by one
newline byte and the original payload of the fragment. -/
theorem emitted_fused (c : Concator) (evs : List Event) (h0 : c.slot = [])
    (hin : ∀ m ∈ admitted evs, HasBytes c.msgKey m ∧ NoExtIds m)
    (hns : ∀ e ∈ evs, NoSharing e)
    (out : List FluentMsg) (c1 : Concator) (hr : run c evs = Except.ok (out, c1)) :
    ∀ r ∈ out, FusedFrom c.msgKey (admitted evs) r := by
  have hok : SlotOk c.msgKey c.slot := by rw [h0]; exact slotOk_nil _
  have h := run_fused evs [] c out c1 hok (by rw [h0]; simp) hin hns hr
  simpa using h

theorem emitted_fused_witness :
    (scenarioConcator 100).slot = [] ∧
    (∀ m ∈ admitted scenarioS1,
      HasBytes (scenarioConcator 100).msgKey m ∧ NoExtIds m) ∧
    (∀ e ∈ scenarioS1, NoSharing e) ∧
    run (scenarioConcator 100) scenarioS1 =
      Except.ok ([scenarioS1Fused, scenarioRecord "a" "2024-01-02 next" 4],
        scenarioConcator 100) ∧
    FusedFrom (scenarioConcator 100).msgKey (admitted scenarioS1) scenarioS1Fused :=
  ⟨rfl, scenarioS1_inputs, scenarioS1_sharing, scenarioS1_run,
    emitted_fused (scenarioConcator 100) scenarioS1 rfl scenarioS1_inputs scenarioS1_sharing
      _ _ scenarioS1_run scenarioS1Fused (by simp)⟩

/-- C3: a first-line record `M` whose identifier has a pending record `P` makes
the receive step emit exactly `P` as accumulated, and the slot of that
identifier then holds `M` unchanged with `lastT` the admission time, every
other slot being untouched.  Consequently, when a second first-line record `R2`
of the same identifier follows, the step that admits `R2` emits exactly `M`
and leaves `R2` pending. -/
theorem firstLine_separation (c : Concator) (M : FluentMsg) (now : Time) (ov : Overlap)
    (id : GoString) (tail : List Byte)
    (hid : identifierOf c M = some id)
    (hm : mapGet M.Message c.msgKey = some (Value.bytes tail))
    (hr : c.regex tail = true) :
    (∀ P, mapGet c.slot id = some P →
      recv c M now ov = Except.ok ([P.msg], mapSet c.slot id { msg := M, lastT := now }) ∧
      mapGet (mapSet c.slot id { msg := M, lastT := now }) id =
        some { msg := M, lastT := now } ∧
      mapKeys (mapSet c.slot id { msg := M, lastT := now }) = mapKeys c.slot ∧
      ∀ k, k ≠ id →
        mapGet (mapSet c.slot id { msg := M, lastT := now }) k = mapGet c.slot k) ∧
    (∀ R2 now2 ov2 tail2, identifierOf c R2 = some id →
      mapGet R2.Message c.msgKey = some (Value.bytes tail2) → c.regex tail2 = true →
      ∃ out1 s1 s2, recv c M now ov = Except.ok (out1, s1) ∧
        out1 = ((mapGet c.slot id).map (fun P => P.msg)).toList ∧
        recv { c with slot := s1 } R2 now2 ov2 = Except.ok ([M], s2) ∧
        mapGet s2 id = some { msg := R2, lastT := now2 }) := by
  constructor
  · intro P hs
    refine ⟨?_, mapGet_mapSet_same _ _ _, mapKeys_mapSet_of_some _ _ _ P hs, ?_⟩
    · rw [recv_of_identifier c M now ov id hid]
      exact admitIdentified_firstLine c M now ov id P tail hs hm hr
    · intro k hk
      exact mapGet_mapSet_ne _ _ _ _ hk
  · intro R2 now2 ov2 tail2 hid2 hm2 hr2
    have h1 : ∃ out1, recv c M now ov =
        Except.ok (out1, mapSet c.slot id { msg := M, lastT := now }) ∧
        out1 = ((mapGet c.slot id).map (fun P => P.msg)).toList := by
      rw [recv_of_identifier c M now ov id hid]
      cases hs : mapGet c.slot id with
      | none => exact ⟨[], admitIdentified_new c M now ov id hs ⟨tail, hm⟩, rfl⟩
      | some P => exact ⟨[P.msg], admitIdentified_firstLine c M now ov id P tail hs hm hr, rfl⟩
    obtain ⟨out1, hrecv, hout⟩ := h1
    refine ⟨out1, mapSet c.slot id { msg := M, lastT := now },
      mapSet (mapSet c.slot id { msg := M, lastT := now }) id { msg := R2, lastT := now2 },
      hrecv, hout, ?_, mapGet_mapSet_same _ _ _⟩
    have hid3 : identifierOf { c with slot := mapSet c.slot id { msg := M, lastT := now } } R2
        = some id := hid2
    rw [recv_of_identifier _ R2 now2 ov2 id hid3]
    exact admitIdentified_firstLine _ R2 now2 ov2 id { msg := M, lastT := now } tail2
      (mapGet_mapSet_same _ _ _) hm2 hr2

theorem firstLine_separation_witness :
    identifierOf (scenarioConcator 100) (scenarioRecord "a" "2024-01-01 A" 10) =
      some (ascii "a") ∧
    mapGet (scenarioRecord "a" "2024-01-01 A" 10).Message (scenarioConcator 100).msgKey =
      some (Value.bytes (ascii "2024-01-01 A")) ∧
    (scenarioConcator 100).regex (ascii "2024-01-01 A") = true ∧
    ∃ out1 s1 s2,
      recv (scenarioConcator 100) (scenarioRecord "a" "2024-01-01 A" 10) 0 none =
        Except.ok (out1, s1) ∧
      out1 = ((mapGet (scenarioConcator 100).slot (ascii "a")).map (fun P => P.msg)).toList ∧
      recv { scenarioConcator 100 with slot := s1 } (scenarioRecord "a" "2024-01-01 B" 11) 1
          none =
        Except.ok ([scenarioRecord "a" "2024-01-01 A" 10], s2) ∧
      mapGet s2 (ascii "a") =
        some { msg := scenarioRecord "a" "2024-01-01 B" 11, lastT := 1 } :=
  ⟨rfl, rfl, rfl,
    (firstLine_separation (scenarioConcator 100) (scenarioRecord "a" "2024-01-01 A" 10) 0
      none (ascii "a") (ascii "2024-01-01 A") rfl rfl rfl).2
      (scenarioRecord "a" "2024-01-01 B" 11) 1 none (ascii "2024-01-01 B") rfl rfl rfl⟩

/-- C4: on a continuation step (pending record `P` for the identifier of `M`,
text of `M` not matching the first-line regex) the fused record is emitted and
the slot entry removed exactly when the length of the payload after the append
is at least `maxLen`; the emitted record then carries the appended payload (the
pending text, one newline byte, the bytes copied from `M`, which are the payload
of `M` when it does not lie in the spare capacity of the pending slice) and the
id of `M` as last element of `ExtIds`; otherwise nothing is emitted and the
entry stays, holding the fused record. -/
theorem overflow_flush (c : Concator) (M : FluentMsg) (now : Time) (ov : Overlap)
    (id : GoString) (P : PendingMsg) (cur tail : List Byte)
    (hid : identifierOf c M = some id)
    (hs : mapGet c.slot id = some P)
    (hm : mapGet M.Message c.msgKey = some (Value.bytes tail))
    (hr : c.regex tail = false)
    (hp : mapGet P.msg.Message c.msgKey = some (Value.bytes cur)) :
    ∃ out s, recv c M now ov = Except.ok (out, s) ∧
      mapGet (concat c P M now cur (appended ov tail)).msg.Message c.msgKey =
        some (Value.bytes (cur ++ [10] ++ appended ov tail)) ∧
      (ov = none → appended ov tail = tail) ∧
      ((cur ++ [10] ++ appended ov tail).length = cur.length + 1 + tail.length) ∧
      ((out = [(concat c P M now cur (appended ov tail)).msg] ∧ mapGet s id = none) ↔
        ((cur ++ [10] ++ appended ov tail).length : Int) ≥ c.maxLen) ∧
      (((cur ++ [10] ++ appended ov tail).length : Int) ≥ c.maxLen →
        out = [(concat c P M now cur (appended ov tail)).msg] ∧ s = mapDel c.slot id ∧
        (concat c P M now cur (appended ov tail)).msg.ExtIds =
          some (P.msg.ExtIds.getD [] ++ [M.Id])) ∧
      (¬ ((cur ++ [10] ++ appended ov tail).length : Int) ≥ c.maxLen →
        out = [] ∧ s = mapSet c.slot id (concat c P M now cur (appended ov tail)) ∧
        mapGet s id = some (concat c P M now cur (appended ov tail))) := by
  have hrecv := admitIdentified_concat c M now ov id P cur tail hs hm hr hp
  rw [← recv_of_identifier c M now ov id hid] at hrecv
  have hnone : ov = none → appended ov tail = tail := fun h => by rw [h]; rfl
  have hlength : (cur ++ [10] ++ appended ov tail).length = cur.length + 1 + tail.length := by
    simp only [List.length_append, List.length_singleton, appended_length]
  by_cases hlen : ((cur ++ [10] ++ appended ov tail).length : Int) ≥ c.maxLen
  · rw [if_pos hlen, mapDel_mapSet] at hrecv
    refine ⟨_, _, hrecv, mapGet_concat c P M now cur _, hnone, hlength, ?_, ?_, ?_⟩
    · exact ⟨fun _ => hlen, fun _ => ⟨rfl, mapGet_mapDel_same _ _⟩⟩
    · intro _
      exact ⟨rfl, rfl, rfl⟩
    · intro h
      exact absurd hlen h
  · rw [if_neg hlen] at hrecv
    refine ⟨_, _, hrecv, mapGet_concat c P M now cur _, hnone, hlength, ?_, ?_, ?_⟩
    · constructor
      · intro h
        exact absurd h.1 (by simp)
      · intro h
        exact absurd h hlen
    · intro h
      exact absurd h hlen
    · intro _
      exact ⟨rfl, rfl, mapGet_mapSet_same _ _ _⟩

theorem overflow_flush_witness :
    identifierOf { scenarioPending with maxLen := 20 } (scenarioRecord "a" "xxxxxx" 2) =
      some (ascii "a") ∧
    mapGet scenarioPending.slot (ascii "a") =
      some { msg := scenarioRecord "a" "2024-01-01 boom" 1, lastT := 0 } ∧
    firstLineRegex (ascii "xxxxxx") = false ∧
    ∃ out s,
      recv { scenarioPending with maxLen := 20 } (scenarioRecord "a" "xxxxxx" 2) 1 none =
        Except.ok (out, s) ∧
      out = [scenarioS3Fused] ∧ s = [] := by
  refine ⟨rfl, rfl, rfl, ?_⟩
  obtain ⟨out, s, h1, _, _, _, _, h4, _⟩ :=
    overflow_flush { scenarioPending with maxLen := 20 } (scenarioRecord "a" "xxxxxx" 2) 1 none
      (ascii "a") { msg := scenarioRecord "a" "2024-01-01 boom" 1, lastT := 0 }
      (ascii "2024-01-01 boom") (ascii "xxxxxx") rfl rfl rfl rfl rfl
  have h5 := h4 (by decide)
  exact ⟨out, s, h1, h5.1.trans rfl, h5.2.1.trans rfl⟩

/-- C5 as stated fails when the payload of the received record lies in the
spare capacity of the pending slice (`buf[0:15]` of capacity 25 pending,
`buf[15:25]` received): the step is a continuation step, and the payload of the
pending record after it is not the payload of `P`, one newline byte and the
payload bytes of `M`, because line 132 wrote the newline over byte 0 of the
payload of `M` before line 134 copied it. -/
theorem shared_continuation_counterexample :
    mapGet scenarioPending.slot (ascii "a") =
      some { msg := scenarioRecord "a" "2024-01-01 boom" 1, lastT := 0 } ∧
    identifierOf scenarioPending (scenarioRecord "a" "  at foo()" 2) = some (ascii "a") ∧
    scenarioPending.regex (ascii "  at foo()") = false ∧
    recv scenarioPending (scenarioRecord "a" "  at foo()" 2) 1 (some 0) =
      Except.ok ([], [(ascii "a", { msg := scenarioSharedFused, lastT := 1 })]) ∧
    mapGet scenarioSharedFused.Message scenarioPending.msgKey =
      some (Value.bytes (ascii "2024-01-01 boom\n\n at foo()")) ∧
    mapGet scenarioSharedFused.Message scenarioPending.msgKey ≠
      some (Value.bytes
        (textAt scenarioPending.msgKey (scenarioRecord "a" "2024-01-01 boom" 1) ++ [10] ++
          textAt scenarioPending.msgKey (scenarioRecord "a" "  at foo()" 2))) :=
  ⟨rfl, rfl, rfl, rfl, rfl, by decide⟩

/-- C5 (amended): on a continuation step with pending record `P` and incoming
record `M` the step completes, and the pending record becomes `concat`: its
payload at `msgKey` is the payload of `P`, one newline byte and the bytes
copied from `M`, which are the payload of `M` when that payload does not lie in
the spare capacity of the pending slice; its `ExtIds` is that of `P` (empty if
absent) with the id of `M` appended; `lastT` is the admission time; id, tag and
every other payload field are those of `P`.  That record stays in the slot, or
is emitted on overflow.  In a run from the empty slot map whose records arrive
without `ExtIds`, every pending record is an input record after a sequence of
continuation steps and nothing else, and its `ExtIds` is empty or absent
exactly when that sequence is empty. -/
theorem continuation_step (c : Concator) (M : FluentMsg) (now : Time) (ov : Overlap)
    (id : GoString) (P : PendingMsg) (cur tail : List Byte)
    (hid : identifierOf c M = some id)
    (hs : mapGet c.slot id = some P)
    (hm : mapGet M.Message c.msgKey = some (Value.bytes tail))
    (hr : c.regex tail = false)
    (hp : mapGet P.msg.Message c.msgKey = some (Value.bytes cur)) :
    (recv c M now ov =
        Except.ok ([], mapSet c.slot id (concat c P M now cur (appended ov tail))) ∨
      recv c M now ov =
        Except.ok ([(concat c P M now cur (appended ov tail)).msg], mapDel c.slot id)) ∧
    mapGet (concat c P M now cur (appended ov tail)).msg.Message c.msgKey =
      some (Value.bytes (cur ++ [10] ++ appended ov tail)) ∧
    (ov = none →
      mapGet (concat c P M now cur (appended ov tail)).msg.Message c.msgKey =
        some (Value.bytes (cur ++ [10] ++ tail))) ∧
    (concat c P M now cur (appended ov tail)).msg.ExtIds =
      some (P.msg.ExtIds.getD [] ++ [M.Id]) ∧
    (concat c P M now cur (appended ov tail)).lastT = now ∧
    (concat c P M now cur (appended ov tail)).msg.Id = P.msg.Id ∧
    (concat c P M now cur (appended ov tail)).msg.Tag = P.msg.Tag ∧
    (∀ k, k ≠ c.msgKey →
      mapGet (concat c P M now cur (appended ov tail)).msg.Message k =
        mapGet P.msg.Message k) ∧
    (∀ c0 evs out c1, c0.slot = [] → (∀ m ∈ admitted evs, NoExtIds m) →
      run c0 evs = Except.ok (out, c1) →
      ∀ e ∈ c1.slot, ∃ head steps, History c0 (admitted evs) e.2.msg head steps ∧
        (e.2.msg.ExtIds.getD [] = [] ↔ steps = [])) := by
  refine ⟨?_, mapGet_concat c P M now cur _, ?_, rfl, rfl, rfl, rfl, ?_, ?_⟩
  · have hrecv := admitIdentified_concat c M now ov id P cur tail hs hm hr hp
    rw [← recv_of_identifier c M now ov id hid] at hrecv
    by_cases hlen : ((cur ++ [10] ++ appended ov tail).length : Int) ≥ c.maxLen
    · rw [if_pos hlen, mapDel_mapSet] at hrecv
      exact Or.inr hrecv
    · rw [if_neg hlen] at hrecv
      exact Or.inl hrecv
  · intro hov
    rw [hov]
    exact mapGet_concat c P M now cur tail
  · intro k hk
    simp only [concat]
    rw [mapGet_mapSet_ne _ _ _ _ hk, mapGet_mapSet_ne _ _ _ _ hk]
  · intro c0 evs out c1 h0 he hrun e he1
    have hok : SlotOk c0.msgKey c0.slot := by rw [h0]; exact slotOk_nil _
    have h := run_history evs [] c0 out c1 hok (by rw [h0]; simp) hrun e he1
    simp only [List.nil_append] at h
    obtain ⟨head, steps, hh⟩ := h
    refine ⟨head, steps, hh, ?_⟩
    obtain ⟨h1, _, h3⟩ := hh
    rw [h3, fusedWith_extIds, he head h1]
    simp

theorem continuation_step_witness :
    identifierOf scenarioPending (scenarioRecord "a" "  at foo()" 2) = some (ascii "a") ∧
    mapGet scenarioPending.slot (ascii "a") =
      some { msg := scenarioRecord "a" "2024-01-01 boom" 1, lastT := 0 } ∧
    scenarioPending.regex (ascii "  at foo()") = false ∧
    mapGet (concat scenarioPending { msg := scenarioRecord "a" "2024-01-01 boom" 1, lastT := 0 }
      (scenarioRecord "a" "  at foo()" 2) 1 (ascii "2024-01-01 boom")
      (appended none (ascii "  at foo()"))).msg.Message scenarioPending.msgKey =
        some (Value.bytes (ascii "2024-01-01 boom" ++ [10] ++ ascii "  at foo()")) ∧
    (concat scenarioPending { msg := scenarioRecord "a" "2024-01-01 boom" 1, lastT := 0 }
      (scenarioRecord "a" "  at foo()" 2) 1 (ascii "2024-01-01 boom")
      (appended none (ascii "  at foo()"))).msg.ExtIds = some ([] ++ [2]) :=
  ⟨rfl, rfl, rfl,
    (continuation_step scenarioPending (scenarioRecord "a" "  at foo()" 2) 1 none (ascii "a")
      { msg := scenarioRecord "a" "2024-01-01 boom" 1, lastT := 0 }
      (ascii "2024-01-01 boom") (ascii "  at foo()") rfl rfl rfl rfl rfl).2.2.1 rfl,
    (continuation_step scenarioPending (scenarioRecord "a" "  at foo()" 2) 1 none (ascii "a")
      { msg := scenarioRecord "a" "2024-01-01 boom" 1, lastT := 0 }
      (ascii "2024-01-01 boom") (ascii "  at foo()") rfl rfl rfl rfl rfl).2.2.2.1⟩

/-- C6 as stated fails for a record that does not carry a `[]byte` at
`msgKey`: with a new identifier and a `string` at `msgKey` the step does not
store the record, it stops on the type assertion `.([]byte)`. -/
theorem new_identifier_counterexample :
    identifierOf (scenarioConcator 100) stringLogRecord = some (ascii "a") ∧
    mapGet (scenarioConcator 100).slot (ascii "a") = none ∧
    recv (scenarioConcator 100) stringLogRecord 0 none ≠
      Except.ok ([], [(ascii "a", { msg := stringLogRecord, lastT := 0 })]) := by
  refine ⟨rfl, rfl, ?_⟩
  have h : recv (scenarioConcator 100) stringLogRecord 0 none =
      Except.error Panic.typeAssertion := rfl
  rw [h]
  simp

/-- C6 (amended): a record that carries a `[]byte` at `msgKey` and whose
identifier (a `[]byte` or a `string`, read as the same key) has no entry in the
slot map is stored: the step emits nothing, and the new slot map is the old one
plus one entry for that identifier holding the record unchanged with `lastT`
the admission time; every other entry is unchanged. -/
theorem new_identifier_stored (c : Concator) (M : FluentMsg) (now : Time) (ov : Overlap)
    (id : GoString)
    (hid : identifierOf c M = some id)
    (hs : mapGet c.slot id = none)
    (hb : HasBytes c.msgKey M) :
    recv c M now ov = Except.ok ([], c.slot ++ [(id, { msg := M, lastT := now })]) ∧
    mapGet (c.slot ++ [(id, { msg := M, lastT := now })]) id =
      some { msg := M, lastT := now } ∧
    ∀ k, k ≠ id →
      mapGet (c.slot ++ [(id, { msg := M, lastT := now })]) k = mapGet c.slot k := by
  rw [← mapSet_of_none c.slot id _ hs]
  refine ⟨?_, mapGet_mapSet_same _ _ _, fun k hk => mapGet_mapSet_ne _ _ _ _ hk⟩
  rw [recv_of_identifier c M now ov id hid]
  exact admitIdentified_new c M now ov id hs hb

theorem new_identifier_stored_witness :
    identifierOf scenarioPending (scenarioRecord "b" "2024-01-01 other" 5) =
      some (ascii "b") ∧
    mapGet scenarioPending.slot (ascii "b") = none ∧
    HasBytes scenarioPending.msgKey (scenarioRecord "b" "2024-01-01 other" 5) ∧
    recv scenarioPending (scenarioRecord "b" "2024-01-01 other" 5) 9 none =
      Except.ok ([], scenarioPending.slot ++
        [(ascii "b", { msg := scenarioRecord "b" "2024-01-01 other" 5, lastT := 9 })]) :=
  ⟨rfl, rfl, ⟨_, rfl⟩,
    (new_identifier_stored scenarioPending (scenarioRecord "b" "2024-01-01 other" 5) 9 none
      (ascii "b") rfl rfl ⟨_, rfl⟩).1⟩

/-- C7, the failing input: a record whose value at the identifier key is the
nil interface is not forwarded; the worker panics when the error log calls
`String` on the nil `reflect.Type`. -/
theorem recv_nil_identifier_panics :
    recv (scenarioConcator 100) nilIdentifierRecord 0 none =
      Except.error Panic.nilDereference := by
  rfl

/-- C8, the failing input: a record with a valid, new identifier and no value
at `msgKey` is not forwarded; the worker panics on the type assertion in the
argument of the debug log of the new-identifier branch.  With a slot pending
for the identifier the same record is forwarded. -/
theorem recv_no_msgKey_panics :
    identifierOf scenarioPending noLogRecordB = some (ascii "b") ∧
    mapGet noLogRecordB.Message scenarioPending.msgKey = none ∧
    recv scenarioPending noLogRecordB 1 none = Except.error Panic.typeAssertion ∧
    recv scenarioPending noLogRecord 1 none =
      Except.ok ([noLogRecord], scenarioPending.slot) :=
  ⟨rfl, rfl, rfl, rfl⟩

/-- C9: in every state that `Run` can reach, and in whatever order the range
loop visits the slot map, an idle pass at time `now` emits exactly the pending
records of the slots whose `lastT` is more than 5 seconds (5000000000 ns)
before `now`, each once and unmodified, removes exactly those entries and
leaves every other entry unchanged; a slot touched exactly 5 seconds before
`now` stays. -/
theorem idle_flush (c : Concator) (now : Time) (h : Reachable c)
    (order : Slot) (hperm : List.Perm order c.slot) :
    idle { c with slot := order } now = Except.ok
      ((order.filter (fun e => decide (now - e.2.lastT > 5000000000))).map (fun e => e.2.msg),
       order.filter (fun e => !decide (now - e.2.lastT > 5000000000))) ∧
    List.Perm
      ((order.filter (fun e => decide (now - e.2.lastT > 5000000000))).map (fun e => e.2.msg))
      ((c.slot.filter (fun e => decide (now - e.2.lastT > 5000000000))).map
        (fun e => e.2.msg)) ∧
    (∀ k p, mapGet c.slot k = some p →
      mapGet (order.filter (fun e => !decide (now - e.2.lastT > 5000000000))) k =
        if now - p.lastT > 5000000000 then none else some p) ∧
    (∀ k, mapGet c.slot k = none →
      mapGet (order.filter (fun e => !decide (now - e.2.lastT > 5000000000))) k = none) := by
  have hok := reachable_slotOk c h
  have hok1 : SlotOk c.msgKey order := slotOk_perm _ _ _ hperm hok
  have hspec := idle_spec { c with slot := order } now hok1
  simp only [timedOut_eq] at hspec
  refine ⟨hspec, ?_, ?_, ?_⟩
  · exact (hperm.filter _).map _
  · intro k p hg
    rw [← mapGet_perm order c.slot hok1.1 hperm k] at hg
    rw [mapGet_filter order _ hok1.1 k p hg]
    by_cases ht : now - p.lastT > 5000000000 <;> simp [ht]
  · intro k hg
    rw [← mapGet_perm order c.slot hok1.1 hperm k] at hg
    rw [mapGet_eq_none_iff] at hg ⊢
    intro hmem
    apply hg
    simp only [mapKeys, List.mem_map, List.mem_filter] at hmem ⊢
    obtain ⟨x, ⟨hx, _⟩, hxk⟩ := hmem
    exact ⟨x, hx, hxk⟩

theorem idle_flush_witness :
    Reachable scenarioTwoPending ∧
    List.Perm scenarioTwoPending.slot scenarioTwoPending.slot ∧
    idle scenarioTwoPending 6000000000 =
      Except.ok ([scenarioRecord "a" "2024-01-01 boom" 1],
        [(ascii "b", { msg := scenarioRecord "b" "2024-01-01 bang" 2, lastT := 1000000000 })]) ∧
    idle scenarioTwoPending 6000000001 =
      Except.ok ([scenarioRecord "a" "2024-01-01 boom" 1, scenarioRecord "b" "2024-01-01 bang" 2],
        []) ∧
    idle scenarioTwoPending 5000000000 = Except.ok ([], scenarioTwoPending.slot) :=
  ⟨⟨[Event.recv (scenarioRecord "a" "2024-01-01 boom" 1) 0 none,
      Event.recv (scenarioRecord "b" "2024-01-01 bang" 2) 1000000000 none], [], rfl⟩,
    List.Perm.refl _,
    (idle_flush scenarioTwoPending 6000000000
      ⟨[Event.recv (scenarioRecord "a" "2024-01-01 boom" 1) 0 none,
        Event.recv (scenarioRecord "b" "2024-01-01 bang" 2) 1000000000 none], [], rfl⟩
      scenarioTwoPending.slot (List.Perm.refl _)).1.trans rfl,
    rfl, rfl⟩

/-- C10: `Filter` returns nothing exactly when `RemoveEmptyTag` is set and the
tag is empty, or `RemoveUnsupportTag` is set and the tag is not in the tag set;
in every other case it returns the record itself. -/
theorem Filter_spec (f : DefaultFilterCfg) (r : FluentMsg) :
    (Filter f r = none ↔
      ((f.RemoveEmptyTag = true ∧ r.Tag = []) ∨
        (f.RemoveUnsupportTag = true ∧ r.Tag ∉ f.tags))) ∧
    (Filter f r = none ∨ Filter f r = some r) := by
  unfold Filter IsTagInConfigs
  cases h1 : f.RemoveEmptyTag <;> cases h2 : f.RemoveUnsupportTag <;>
    by_cases h3 : r.Tag = [] <;> by_cases h4 : r.Tag ∈ f.tags <;> simp_all

/-- C11: for the record `m` picked up by the post-pipeline and the filter list
`filters`: the filters are applied in list order, each to the result of the
one before it (the run over `pre ++ post` is the run over `pre` followed by
the run over `post` on its result); if a filter `fk` returns nothing, the
filters after it are not applied (the state is the one `fk` left, whatever
`post` is) and nothing is emitted; otherwise exactly one record, the result of
the last filter, is emitted.  With an empty filter list `m` is emitted
unchanged.  For filters without side effects the emitted record is the
composition `fn(...f1(m)...)`. -/
theorem wrap_filters_in_order {σ : Type} (filters : List (PostFilterItf σ))
    (m : FluentMsg) (w : σ) :
    wrapStep ([] : List (PostFilterItf σ)) m w = ([m], w) ∧
    (∀ pre post, filters = pre ++ post →
      applyFilters filters m w =
        match applyFilters pre m w with
        | (none, w1) => (none, w1)
        | (some m1, w1) => applyFilters post m1 w1) ∧
    (∀ pre fk post mk wk w1, filters = pre ++ fk :: post →
      applyFilters pre m w = (some mk, wk) → fk mk wk = (none, w1) →
      wrapStep filters m w = ([], w1)) ∧
    (∀ r w1, applyFilters filters m w = (some r, w1) →
      wrapStep filters m w = ([r], w1)) ∧
    (∀ gs : List (FluentMsg → Option FluentMsg), filters = gs.map pureFilter →
      wrapStep filters m w = ((gs.foldl (fun acc g => acc.bind g) (some m)).toList, w)) := by
  refine ⟨rfl, ?_, ?_, ?_, ?_⟩
  · intro pre post h
    rw [h]
    exact applyFilters_append pre post m w
  · intro pre fk post mk wk w1 h hpre hfk
    rw [h]
    simp [wrapStep, applyFilters_append, hpre, applyFilters, hfk]
  · intro r w1 h
    simp [wrapStep, h]
  · intro gs h
    rw [h]
    simp only [wrapStep, applyFilters_pure]
    cases gs.foldl (fun acc g => acc.bind g) (some m) <;> rfl

/-- C12 as stated fails.  A record without a value at `msgKey` whose identifier
has a pending record is forwarded at once, ahead of the pending record admitted
before it; and a record that arrives with `ExtIds` carries, when it is emitted,
ids of records emitted before it. -/
theorem order_counterexample :
    ((∀ m ∈ admitted scenarioBypass,
        identifierOf (scenarioConcator 100) m = some (ascii "a")) ∧
      admitted scenarioBypass = [scenarioRecord "a" "2024-01-01 boom" 1, noLogRecord] ∧
      run (scenarioConcator 100) scenarioBypass =
        Except.ok ([noLogRecord, scenarioRecord "a" "2024-01-01 boom" 1],
          scenarioConcator 100) ∧
      noLogRecord.Id ∈ idsOf noLogRecord ∧
      (scenarioRecord "a" "2024-01-01 boom" 1).Id ∈
        idsOf (scenarioRecord "a" "2024-01-01 boom" 1)) ∧
    ((∀ m ∈ admitted scenarioLateExtIds,
        identifierOf (scenarioConcator 100) m = some (ascii "a")) ∧
      admitted scenarioLateExtIds =
        [scenarioRecord "a" "2024-01-01 X" 5, scenarioRecord "a" "2024-01-02 Y" 6,
          lateExtIdsRecord] ∧
      run (scenarioConcator 100) scenarioLateExtIds =
        Except.ok ([scenarioRecord "a" "2024-01-01 X" 5, scenarioRecord "a" "2024-01-02 Y" 6,
          lateExtIdsRecord], scenarioConcator 100) ∧
      (scenarioRecord "a" "2024-01-02 Y" 6).Id ∈ idsOf (scenarioRecord "a" "2024-01-02 Y" 6) ∧
      (scenarioRecord "a" "2024-01-01 X" 5).Id ∈ idsOf lateExtIdsRecord) := by
  refine ⟨⟨?_, rfl, rfl, by decide, by decide⟩, ⟨?_, rfl, rfl, by decide, by decide⟩⟩
  · intro m hm
    simp only [scenarioBypass, admitted, List.mem_cons, List.mem_singleton,
      List.not_mem_nil, or_false] at hm
    rcases hm with h | h <;> subst h <;> rfl
  · intro m hm
    simp only [scenarioLateExtIds, admitted, List.mem_cons, List.mem_singleton,
      List.not_mem_nil, or_false] at hm
    rcases hm with h | h | h <;> subst h <;> rfl

/-- C12 (amended): for records that share one identifier, carry a `[]byte` at
`msgKey` and arrive with no `ExtIds`, output order equals input order: the ids
carried by the emitted records, read in output order (id, then `ExtIds`), and
then by the pending record, are the ids of the admitted records in admission
order.  Hence, when the ids are distinct and `A` is admitted before `B`, no
emission that carries the id of `B` comes before an emission that carries the
id of `A`. -/
theorem order_preserved (c : Concator) (evs : List Event) (id : GoString)
    (h0 : c.slot = [])
    (hin : ∀ m ∈ admitted evs,
      identifierOf c m = some id ∧ HasBytes c.msgKey m ∧ NoExtIds m)
    (out : List FluentMsg) (c1 : Concator) (hr : run c evs = Except.ok (out, c1)) :
    out.flatMap idsOf ++ slotIds c1.slot = (admitted evs).map FluentMsg.Id ∧
    (((admitted evs).map FluentMsg.Id).Nodup →
      ∀ A B ea eb, List.Sublist [A, B] (admitted evs) → List.Sublist [eb, ea] out →
        A.Id ∈ idsOf ea → B.Id ∈ idsOf eb → False) := by
  have hok : SlotOk c.msgKey c.slot := by rw [h0]; exact slotOk_nil _
  have h := run_single evs c id out c1 hok (Or.inl h0) hin hr
  rw [h0] at h
  simp only [slotIds, List.flatMap_nil, List.nil_append] at h
  refine ⟨by simpa [slotIds] using h, ?_⟩
  intro hn A B ea eb hAB hout hA hB
  have h1 : List.Sublist [A.Id, B.Id] ((admitted evs).map FluentMsg.Id) := by
    simpa using hAB.map FluentMsg.Id
  have h2 : List.Sublist [B.Id, A.Id] (out.flatMap idsOf) := by
    have h3 := sublist_flatMap idsOf _ _ hout
    simp only [List.flatMap_cons, List.flatMap_nil, List.append_nil] at h3
    have h4 : List.Sublist ([B.Id] ++ [A.Id]) (idsOf eb ++ idsOf ea) :=
      (List.singleton_sublist.2 hB).append (List.singleton_sublist.2 hA)
    exact h4.trans h3
  have h5 : List.Sublist [B.Id, A.Id] ((admitted evs).map FluentMsg.Id) := by
    rw [← h]
    exact h2.trans (List.sublist_append_left _ _)
  exact nodup_no_swap _ hn _ _ h1 h5

theorem order_preserved_witness :
    (scenarioConcator 100).slot = [] ∧
    (∀ m ∈ admitted scenarioS1,
      identifierOf (scenarioConcator 100) m = some (ascii "a") ∧
      HasBytes (scenarioConcator 100).msgKey m ∧ NoExtIds m) ∧
    run (scenarioConcator 100) scenarioS1 =
      Except.ok ([scenarioS1Fused, scenarioRecord "a" "2024-01-02 next" 4],
        scenarioConcator 100) ∧
    [scenarioS1Fused, scenarioRecord "a" "2024-01-02 next" 4].flatMap idsOf ++
      slotIds (scenarioConcator 100).slot = (admitted scenarioS1).map FluentMsg.Id :=
  ⟨rfl, scenarioS1_inputs_single, scenarioS1_run,
    (order_preserved (scenarioConcator 100) scenarioS1 (ascii "a") rfl
      scenarioS1_inputs_single _ _ scenarioS1_run).1⟩

/-- C13 as stated fails: the length is checked only after a fragment has been
appended, so a head record that is itself longer than `maxLen` is emitted,
with its first fragment, at a length that exceeds `maxLen` by more than that
fragment: 30 bytes for `maxLen` 20 and a fragment of one byte. -/
theorem overflow_bound_counterexample :
    run (scenarioConcator 20)
        [Event.recv longHeadRecord 0 none, Event.recv (scenarioRecord "a" "x" 2) 1 none] =
      Except.ok ([longHeadFused], scenarioConcator 20) ∧
    ¬ (((textAt (scenarioConcator 20).msgKey longHeadFused).length : Int) <
        (scenarioConcator 20).maxLen + 1 +
          ((textAt (scenarioConcator 20).msgKey (scenarioRecord "a" "x" 2)).length : Int)) := by
  refine ⟨rfl, ?_⟩
  have h1 : (textAt (scenarioConcator 20).msgKey longHeadFused).length = 30 := rfl
  have h2 : (textAt (scenarioConcator 20).msgKey (scenarioRecord "a" "x" 2)).length = 1 := rfl
  have h3 : (scenarioConcator 20).maxLen = 20 := rfl
  rw [h1, h2, h3]
  decide

/-- C13 (amended): when the admitted records carry a `[]byte` at `msgKey`,
every emitted record is built from a head record and fragments among the
admitted records (its payload is as long as their payloads joined by newline
bytes, and is that byte sequence when no received payload lies in the spare
capacity of a pending slice), and when the payload of the head is shorter than
`maxLen`, the payload of the emitted record is shorter than `maxLen` plus the
newline byte plus the payload of the last input record that went into it. -/
theorem overflow_bound (c : Concator) (evs : List Event) (h0 : c.slot = [])
    (hin : ∀ m ∈ admitted evs, HasBytes c.msgKey m)
    (out : List FluentMsg) (c1 : Concator) (hr : run c evs = Except.ok (out, c1)) :
    ∀ r ∈ out,
      EmittedBound (∀ e ∈ evs, NoSharing e) c.msgKey c.maxLen (admitted evs) r := by
  have hok : SlotOk c.msgKey c.slot := by rw [h0]; exact slotOk_nil _
  have h := run_bound (∀ e ∈ evs, NoSharing e) evs [] c out c1 hok (by rw [h0]; simp)
    (fun hex => hex) hin hr
  simpa using h

theorem overflow_bound_witness :
    (scenarioConcator 100).slot = [] ∧
    (∀ m ∈ admitted scenarioS1, HasBytes (scenarioConcator 100).msgKey m) ∧
    run (scenarioConcator 100) scenarioS1 =
      Except.ok ([scenarioS1Fused, scenarioRecord "a" "2024-01-02 next" 4],
        scenarioConcator 100) ∧
    EmittedBound (∀ e ∈ scenarioS1, NoSharing e) (scenarioConcator 100).msgKey
      (scenarioConcator 100).maxLen (admitted scenarioS1) scenarioS1Fused :=
  ⟨rfl, scenarioS1_inputs_bytes, scenarioS1_run,
    overflow_bound (scenarioConcator 100) scenarioS1 rfl scenarioS1_inputs_bytes _ _
      scenarioS1_run scenarioS1Fused (by simp)⟩

/-- C14 as stated fails: `Filter` returns the nil pointer for a record it
drops, and `Filter` applied to that outcome reads `msg.Tag` through the nil
pointer (line 52) and panics; so for a record with an empty tag the second
application does not give the outcome of the first. -/
theorem Filter_twice_counterexample :
    FilterPtr scenarioFilterCfg (some { scenarioRecord "a" "2024-01-01 boom" 1 with Tag := [] }) =
      Except.ok none ∧
    FilterPtr scenarioFilterCfg none = Except.error Panic.nilDereference ∧
    (FilterPtr scenarioFilterCfg
        (some { scenarioRecord "a" "2024-01-01 boom" 1 with Tag := [] })).bind
      (FilterPtr scenarioFilterCfg) ≠
      FilterPtr scenarioFilterCfg
        (some { scenarioRecord "a" "2024-01-01 boom" 1 with Tag := [] }) := by
  refine ⟨rfl, rfl, ?_⟩
  intro h
  cases h

/-- C14 (amended): `Filter` applied to a record does not panic; when the record
passes, the outcome is the record itself and `Filter` applied to the outcome
gives the same outcome again; when the record is dropped, the outcome is the
nil pointer and `Filter` applied to it panics on the read of `msg.Tag`. -/
theorem Filter_idempotent (f : DefaultFilterCfg) (r : FluentMsg) :
    FilterPtr f (some r) = Except.ok (Filter f r) ∧
    (Filter f r = some r →
      (FilterPtr f (some r)).bind (FilterPtr f) = FilterPtr f (some r) ∧
      FilterPtr f (Filter f r) = Except.ok (some r)) ∧
    (Filter f r = none →
      (FilterPtr f (some r)).bind (FilterPtr f) = Except.error Panic.nilDereference) ∧
    (Filter f r = some r ∨ Filter f r = none) := by
  refine ⟨FilterPtr_some f r, ?_, ?_, (filter_nil_or_same f r).symm⟩
  · intro h
    have h1 : FilterPtr f (Filter f r) = Except.ok (some r) := by
      rw [h, FilterPtr_some, h]
    refine ⟨?_, h1⟩
    rw [FilterPtr_some, h]
    show FilterPtr f (some r) = Except.ok (some r)
    rw [FilterPtr_some, h]
  · intro h
    rw [FilterPtr_some, h]
    exact FilterPtr_nil f (filter_none_flag f r h)

theorem Filter_idempotent_witness :
    Filter scenarioFilterCfg { scenarioRecord "a" "2024-01-01 boom" 1 with Tag := [] } = none ∧
    (FilterPtr scenarioFilterCfg
        (some { scenarioRecord "a" "2024-01-01 boom" 1 with Tag := [] })).bind
      (FilterPtr scenarioFilterCfg) = Except.error Panic.nilDereference ∧
    Filter { scenarioFilterCfg with tags := [ascii "app"] }
      (scenarioRecord "a" "2024-01-01 boom" 1) = some (scenarioRecord "a" "2024-01-01 boom" 1) ∧
    FilterPtr { scenarioFilterCfg with tags := [ascii "app"] }
      (Filter { scenarioFilterCfg with tags := [ascii "app"] }
        (scenarioRecord "a" "2024-01-01 boom" 1)) =
      Except.ok (some (scenarioRecord "a" "2024-01-01 boom" 1)) :=
  ⟨rfl,
    (Filter_idempotent scenarioFilterCfg
      { scenarioRecord "a" "2024-01-01 boom" 1 with Tag := [] }).2.2.1 rfl,
    by decide,
    ((Filter_idempotent { scenarioFilterCfg with tags := [ascii "app"] }
      (scenarioRecord "a" "2024-01-01 boom" 1)).2.1 (by decide)).2⟩

/-- C15 as stated fails: a record of `b` that carries a `string` at `msgKey`
stops the worker on the type assertion of line 104, so the records of `a`
admitted around it are never emitted, although the run that admits only the
records of `a`, at the same times and with the same idle pass, emits both. -/
theorem identifiers_independent_counterexample :
    (∀ m ∈ admitted scenarioCross,
      identifierOf (scenarioConcator 100) m = some (ascii "a") ∨
      identifierOf (scenarioConcator 100) m = some (ascii "b")) ∧
    run (scenarioConcator 100) scenarioCross = Except.error Panic.typeAssertion ∧
    eventsFor (scenarioConcator 100) (ascii "a") scenarioCross =
      [Event.recv (scenarioRecord "a" "2024-01-01 A" 10) 0 none,
       Event.recv (scenarioRecord "a" "2024-01-02 B" 11) 2 none,
       Event.idle 6000000000] ∧
    run (scenarioConcator 100) (eventsFor (scenarioConcator 100) (ascii "a") scenarioCross) =
      Except.ok ([scenarioRecord "a" "2024-01-01 A" 10, scenarioRecord "a" "2024-01-02 B" 11],
        scenarioConcator 100) := by
  refine ⟨?_, rfl, rfl, rfl⟩
  intro m hm
  simp only [scenarioCross, admitted, List.mem_cons, List.mem_singleton,
    List.not_mem_nil, or_false] at hm
  rcases hm with h | h | h <;> subst h
  · exact Or.inl rfl
  · exact Or.inr rfl
  · exact Or.inl rfl

/-- C15 (amended): for records of two different identifiers `a` and `b`, each
carrying a `[]byte` at `msgKey`, interleaved with idle passes, the run
completes, and its output is an interleaving of the output of the run that
admits only the records of `a` (at the same times, with the same idle passes)
and of the output of the run that admits only the records of `b`; the pending
records of each identifier are those of its own run.  So the records emitted
for `a` (payloads, ids, `ExtIds`, order) are those of the run of `a` alone,
which admits records of `a` only; when the records arrive without `ExtIds` and
no payload lies in the spare capacity of a pending slice, each of them is fused
from records of `a`. -/
theorem identifiers_independent (c : Concator) (evs : List Event) (a b : GoString)
    (hab : a ≠ b) (h0 : c.slot = [])
    (hin : ∀ m ∈ admitted evs,
      (identifierOf c m = some a ∨ identifierOf c m = some b) ∧ HasBytes c.msgKey m) :
    ∃ out c1 outA cA outB cB,
      run c evs = Except.ok (out, c1) ∧
      run c (eventsFor c a evs) = Except.ok (outA, cA) ∧
      run c (eventsFor c b evs) = Except.ok (outB, cB) ∧
      Interleave outA outB out ∧
      cA.slot = slotOf a c1.slot ∧ cB.slot = slotOf b c1.slot ∧
      (∀ m ∈ admitted (eventsFor c a evs), m ∈ admitted evs ∧ identifierOf c m = some a) ∧
      ((∀ m ∈ admitted evs, NoExtIds m) → (∀ e ∈ evs, NoSharing e) →
        ∀ r ∈ outA, FusedFrom c.msgKey (admitted (eventsFor c a evs)) r) := by
  have hok : SlotOk c.msgKey c.slot := by rw [h0]; exact slotOk_nil _
  have hk : KeysIn a b c.slot := by rw [h0]; intro e he; simp at he
  have hnil : ∀ m ∈ admitted evs, HasBytes c.msgKey m ∧
      mapGet m.Message c.identifier ≠ some Value.nil := by
    intro m hm
    refine ⟨(hin m hm).2, ?_⟩
    intro hn
    rcases (hin m hm).1 with h | h <;> simp [identifierOf, hn] at h
  obtain ⟨⟨out, c1⟩, hr⟩ := run_total evs c hok hnil
  obtain ⟨outA, cA, outB, cB, hrA, hrB, hint, hsA, hsB⟩ :=
    run_split evs a b hab c out c1 hok hk (fun m hm => (hin m hm).1) hr
  have hcA : ({ c with slot := slotOf a c.slot } : Concator) = c := by
    cases c
    simp only at h0
    subst h0
    rfl
  have hcB : ({ c with slot := slotOf b c.slot } : Concator) = c := by
    cases c
    simp only at h0
    subst h0
    rfl
  rw [hcA] at hrA
  rw [hcB] at hrB
  refine ⟨out, c1, outA, cA, outB, cB, hr, hrA, hrB, hint, hsA, hsB,
    fun m hm => admitted_eventsFor c a evs m hm, ?_⟩
  intro hext hns r hr1
  have h := run_fused (eventsFor c a evs) [] c outA cA hok (by rw [h0]; simp)
    (fun m hm => ⟨(hin m (admitted_eventsFor c a evs m hm).1).2,
      hext m (admitted_eventsFor c a evs m hm).1⟩)
    (fun e he => hns e (mem_eventsFor c a evs e he)) hrA
  simpa using h r hr1

theorem identifiers_independent_witness :
    ascii "a" ≠ ascii "b" ∧
    (scenarioConcator 100).slot = [] ∧
    (∀ m ∈ admitted scenarioS6,
      (identifierOf (scenarioConcator 100) m = some (ascii "a") ∨
        identifierOf (scenarioConcator 100) m = some (ascii "b")) ∧
      HasBytes (scenarioConcator 100).msgKey m) ∧
    run (scenarioConcator 100) scenarioS6 =
      Except.ok ([scenarioS1Fused, scenarioS6FusedB], scenarioConcator 100) ∧
    ∃ out c1 outA cA outB cB,
      run (scenarioConcator 100) scenarioS6 = Except.ok (out, c1) ∧
      run (scenarioConcator 100) (eventsFor (scenarioConcator 100) (ascii "a") scenarioS6) =
        Except.ok (outA, cA) ∧
      run (scenarioConcator 100) (eventsFor (scenarioConcator 100) (ascii "b") scenarioS6) =
        Except.ok (outB, cB) ∧
      Interleave outA outB out := by
  refine ⟨by decide, rfl, scenarioS6_inputs_bytes, scenarioS6_run, ?_⟩
  obtain ⟨out, c1, outA, cA, outB, cB, h0, h1, h2, h3, _⟩ :=
    identifiers_independent (scenarioConcator 100) scenarioS6 (ascii "a") (ascii "b")
      (by decide) rfl scenarioS6_inputs_bytes
  exact ⟨out, c1, outA, cA, outB, cB, h0, h1, h2, h3⟩

/-- C16 as stated fails: the timeout scan is the `default` branch of the
`select`, so it does not run while records keep arriving.  Here the record of
`cid` `a`, admitted at time 0, is still pending and was not emitted after
receive steps for `cid` `b` up to twelve seconds later, more than the timeout
of 5 seconds plus the longest sleep of half a second. -/
theorem timeout_flush_counterexample :
    run (scenarioConcator 100) scenarioBusy =
      Except.ok ([scenarioRecord "b" "2024-01-01 b1" 11, scenarioRecord "b" "2024-01-01 b2" 12,
        scenarioRecord "b" "2024-01-01 b3" 13],
        { scenarioConcator 100 with slot := scenarioBusySlot }) ∧
    mapGet scenarioBusySlot (ascii "a") =
      some { msg := scenarioRecord "a" "2024-01-01 boom" 1, lastT := 0 } ∧
    scenarioRecord "a" "2024-01-01 boom" 1 ∉
      [scenarioRecord "b" "2024-01-01 b1" 11, scenarioRecord "b" "2024-01-01 b2" 12,
        scenarioRecord "b" "2024-01-01 b3" 13] ∧
    Event.recv (scenarioRecord "b" "2024-01-01 b4" 14) 12000000000 none ∈ scenarioBusy ∧
    (12000000000 : Int) - 0 > 5000000000 + 500000000 := by
  refine ⟨scenarioBusy_run, rfl, by decide, by simp [scenarioBusy], by decide⟩

/-- C16 (amended): in every state that `Run` can reach, with the timer in any
of its states, for a record `P` pending for an identifier `a`: when the input
channel stays empty from a time `now` at which the timeout of 5 seconds
(5000000000 ns) since `P.lastT` has not expired, the idle passes that follow
keep `P` pending until the pass at a time `t` more than 5 seconds and at most 5
seconds and one sleep of at most 500 ms (500000000 ns) after `P.lastT`, which
emits `P` and removes its slot entry; an idle pass more than 5 seconds after
`P.lastT` emits `P`, an idle pass at most 5 seconds after it keeps `P` pending;
and a receive step for a record of another identifier, or of no identifier,
leaves `P` pending whatever the time is, so that nothing bounds the time of
emission while records keep arriving. -/
theorem timeout_flush (c : Concator) (h : Reachable c) (tm : Timer)
    (htm : TimerReachable tm) (a : GoString) (P : PendingMsg)
    (hs : mapGet c.slot a = some P) :
    (∀ now, now - P.lastT ≤ 5000000000 →
      ∃ n out c1 tm1 t out2 s2,
        idleRun c tm now n = Except.ok (out, c1, tm1, t) ∧
        mapGet c1.slot a = some P ∧
        idle c1 t = Except.ok (out2, s2) ∧ P.msg ∈ out2 ∧ mapGet s2 a = none ∧
        5000000000 < t - P.lastT ∧ t - P.lastT ≤ 5000000000 + 500000000) ∧
    (∀ now, now - P.lastT > 5000000000 →
      ∃ out s, idle c now = Except.ok (out, s) ∧ P.msg ∈ out ∧ mapGet s a = none) ∧
    (∀ now, now - P.lastT ≤ 5000000000 →
      ∃ out s, idle c now = Except.ok (out, s) ∧ mapGet s a = some P) ∧
    (∀ M now ov out s, identifierOf c M ≠ some a → recv c M now ov = Except.ok (out, s) →
      mapGet s a = some P) := by
  have hok := reachable_slotOk c h
  refine ⟨?_, ?_, ?_, ?_⟩
  · intro now hle
    obtain ⟨n, out, c1, tm1, t, hrun, hok1, hs1, h5, h6⟩ :=
      idleRun_flush a P (Int.toNat (P.lastT + 5000000000 - now)) c tm now hok hs
        (timerReachable_ok tm htm) hle (Int.self_le_toNat _)
    obtain ⟨out2, s2, hidle, hmem, hnone⟩ := idle_emits c1 t hok1 a P hs1 h5
    exact ⟨n, out, c1, tm1, t, out2, s2, hrun, hs1, hidle, hmem, hnone, h5, h6⟩
  · intro now ht
    exact idle_emits c now hok a P hs ht
  · intro now ht
    obtain ⟨out, s, hidle, _, hs1⟩ := idle_retains c now hok a P hs (not_lt.2 ht)
    exact ⟨out, s, hidle, hs1⟩
  · intro M now ov out s hid hr
    rcases recv_cases c M now ov out s hr with ⟨_, _, h3⟩ | ⟨id, hid1, hstep⟩
    · rw [h3]; exact hs
    · have hne : a ≠ id := by
        intro hEq
        apply hid
        rw [hid1, hEq]
      rw [admitStep_other c M now ov id a out s hne hstep]
      exact hs

theorem timeout_flush_witness :
    Reachable scenarioPending ∧
    TimerReachable (runTimer.Reset 0) ∧
    mapGet scenarioPending.slot (ascii "a") =
      some { msg := scenarioRecord "a" "2024-01-01 boom" 1, lastT := 0 } ∧
    (4980000000 : Int) - 0 ≤ 5000000000 ∧
    (∃ n out c1 tm1 t out2 s2,
      idleRun scenarioPending (runTimer.Reset 0) 4980000000 n = Except.ok (out, c1, tm1, t) ∧
      mapGet c1.slot (ascii "a") =
        some { msg := scenarioRecord "a" "2024-01-01 boom" 1, lastT := 0 } ∧
      idle c1 t = Except.ok (out2, s2) ∧
      scenarioRecord "a" "2024-01-01 boom" 1 ∈ out2 ∧ mapGet s2 (ascii "a") = none ∧
      5000000000 < t - 0 ∧ t - 0 ≤ 5000000000 + 500000000) ∧
    idleRun scenarioPending (runTimer.Reset 0) 4980000000 2 =
      Except.ok ([], scenarioPending,
        { runTimer with waitTs := 40000000 }, 5020000000) ∧
    idle scenarioPending 5000000000 = Except.ok ([], scenarioPending.slot) ∧
    idle scenarioPending 5020000000 =
      Except.ok ([scenarioRecord "a" "2024-01-01 boom" 1], []) :=
  ⟨⟨[Event.recv (scenarioRecord "a" "2024-01-01 boom" 1) 0 none], [], rfl⟩,
    TimerReachable.reset _ _ TimerReachable.new, rfl, by decide,
    (timeout_flush scenarioPending
      ⟨[Event.recv (scenarioRecord "a" "2024-01-01 boom" 1) 0 none], [], rfl⟩
      (runTimer.Reset 0) (TimerReachable.reset _ _ TimerReachable.new) (ascii "a")
      { msg := scenarioRecord "a" "2024-01-01 boom" 1, lastT := 0 } rfl).1
      4980000000 (by decide),
    rfl, rfl, rfl⟩

/-- C17: from the empty slot map, when every admitted record that has a
`[]byte` or `string` identifier carries a `[]byte` at `msgKey`, no receive
step and no idle pass of the run ends in a failed `[]byte` type assertion, and
in the state the run reaches every pending record carries a `[]byte` at
`msgKey`. -/
theorem no_failed_type_assertion (c : Concator) (evs : List Event) (h0 : c.slot = [])
    (hin : ∀ m ∈ admitted evs, identifierOf c m ≠ none → HasBytes c.msgKey m) :
    run c evs ≠ Except.error Panic.typeAssertion ∧
    ∀ out c1, run c evs = Except.ok (out, c1) →
      ∀ e ∈ c1.slot, HasBytes c.msgKey e.2.msg := by
  have hok : SlotOk c.msgKey c.slot := by rw [h0]; exact slotOk_nil _
  refine ⟨run_no_typeAssertion evs c hok hin, ?_⟩
  intro out c1 hr
  exact (run_slotOk evs c out c1 hok hr).2.2

theorem no_failed_type_assertion_witness :
    (scenarioConcator 100).slot = [] ∧
    (∀ m ∈ admitted (scenarioS1 ++ [Event.recv noIdentifierRecord 7000000000 none]),
      identifierOf (scenarioConcator 100) m ≠ none →
        HasBytes (scenarioConcator 100).msgKey m) ∧
    run (scenarioConcator 100) (scenarioS1 ++ [Event.recv noIdentifierRecord 7000000000 none]) ≠
      Except.error Panic.typeAssertion :=
  ⟨rfl, scenarioS1_inputs_typed,
    (no_failed_type_assertion (scenarioConcator 100)
      (scenarioS1 ++ [Event.recv noIdentifierRecord 7000000000 none]) rfl
      scenarioS1_inputs_typed).1⟩

/-- C18: when `msgKey` and `identifier` name different payload fields, in every
state reached from the empty slot map each slot entry stored under key `k`
holds a record whose value at `identifier`, read as a string, is `k`; so the
pending record that a record `M` extends or replaces has the identifier of
`M`. -/
theorem slot_keys_match (c : Concator) (evs : List Event) (h0 : c.slot = [])
    (hne : c.msgKey ≠ c.identifier)
    (out : List FluentMsg) (c1 : Concator) (hr : run c evs = Except.ok (out, c1)) :
    (∀ e ∈ c1.slot, identifierOf c e.2.msg = some e.1) ∧
    ∀ M id p, identifierOf c M = some id → mapGet c1.slot id = some p →
      identifierOf c p.msg = identifierOf c M := by
  have hok : SlotOk c.msgKey c.slot := by rw [h0]; exact slotOk_nil _
  have hk : KeysMatch c c1.slot :=
    run_keysMatch evs c out c1 hne hok (by rw [h0]; intro e he; simp at he) hr
  refine ⟨hk, ?_⟩
  intro M id p hid hp
  rw [hid]
  exact hk (id, p) (mapGet_mem _ _ _ hp)

theorem slot_keys_match_witness :
    (scenarioConcator 100).slot = [] ∧
    (scenarioConcator 100).msgKey ≠ (scenarioConcator 100).identifier ∧
    run (scenarioConcator 100) [Event.recv (scenarioRecord "a" "2024-01-01 boom" 1) 0 none] =
      Except.ok ([], scenarioPending) ∧
    ∀ e ∈ scenarioPending.slot, identifierOf (scenarioConcator 100) e.2.msg = some e.1 :=
  ⟨rfl, by decide, rfl,
    (slot_keys_match (scenarioConcator 100)
      [Event.recv (scenarioRecord "a" "2024-01-01 boom" 1) 0 none] rfl (by decide) []
      scenarioPending rfl).1⟩

end GoConcator
